import Mathlib

/-!
# go-auth-totp: a shallow embedding of the authentication core

The Go sources embedded here are

* `server/internal/auth/totp/generator.go` and `internal/auth/totp/verifier.go`
  (HOTP/TOTP generation and window verification),
* `server/internal/auth/recovery/codes.go` (recovery codes),
* `internal/auth/ratelimit/limiter.go` (token bucket),
* `server/internal/crypto/encrypt.go` (AES-GCM wrapper).

Conventions.  A Go `byte` is a `UInt8` and a `[]byte` value is the list of its
bytes; words of the hash functions are natural numbers reduced modulo `2^32`;
`uint64` values are natural numbers reduced modulo `2^64`.  A Go `string` is a
Lean `String`, `len(s)` is its number of UTF-8 bytes.  A `[]string` is a window
on shared memory cells, so that writes through one slice show in the slices
that share its array.  Functions of the Go standard library that the sources
call (`crypto/sha1`, `crypto/sha256`, `crypto/hmac`, `encoding/hex`,
`encoding/base64`, `fmt.Sprintf`, `subtle.ConstantTimeCompare`, `append`,
`time.Time.Sub`) are written out from their specifications (RFC 3174,
FIPS 180-4, RFC 2104, RFC 4648, the Go language specification); AES-GCM is a
parameter.  Clock readings and random sources are arguments of the functions
that read them.  A loop over `uint64` values that may not end takes a bound on
its iterations and returns `none` when the bound is reached.
-/

namespace GoAuthTotp

/-- A Go `byte`. -/
abbrev Byte := UInt8

/-- A Go `error` value, identified by its message. -/
abbrev Error := String

deriving instance DecidableEq for Except

/-- The modulus of 32-bit words. -/
def word32 : Nat := 4294967296

/-- The modulus of `uint64`. -/
def uint64Size : Nat := 18446744073709551616

/-! ## Go built-ins -/

/-- UTF-8 encoding of one code point, as the bytes Go stores for it in a string. -/
def utf8Bytes (c : Nat) : List Nat :=
  if c < 128 then [c]
  else if c < 2048 then [192 + c / 64, 128 + c % 64]
  else if c < 65536 then [224 + c / 4096, 128 + (c / 64) % 64, 128 + c % 64]
  else [240 + c / 262144, 128 + (c / 4096) % 64, 128 + (c / 64) % 64, 128 + c % 64]

/-- The conversion `[]byte(s)`, each byte given as a natural number. -/
def stringBytes (s : String) : List Nat :=
  s.data.flatMap (fun c => utf8Bytes c.toNat)

/-- The conversion `[]byte(s)`. -/
def bytesOfString (s : String) : List Byte :=
  (stringBytes s).map UInt8.ofNat

/-- The built-in `len(s)` of a string: its number of bytes. -/
def strLen (s : String) : Nat := (stringBytes s).length

/-- Big-endian encoding of `n` in `k` bytes (`binary.BigEndian`). -/
def bigEndian : Nat → Nat → List Nat
  | 0, _ => []
  | k + 1, n => bigEndian k (n / 256) ++ [n % 256]

/-- The big-endian value of a byte string. -/
def beValue (bs : List Nat) : Nat :=
  bs.foldl (fun acc b => acc * 256 + b % 256) 0

/-- Cuts a byte string into blocks of `size` bytes; `fuel` bounds the number of blocks. -/
def blocks (size : Nat) : Nat → List Nat → List (List Nat)
  | 0, _ => []
  | fuel + 1, bs =>
    match bs with
    | [] => []
    | _ :: _ => bs.take size :: blocks size fuel (bs.drop size)

/-- Merkle–Damgård padding shared by SHA-1 and SHA-256: a `0x80` byte, zero bytes up to
56 modulo 64, and the bit length of the message as a 64-bit big-endian integer. -/
def mdPad (msg : List Nat) : List Nat :=
  msg ++ [128] ++ List.replicate ((119 - msg.length % 64) % 64) 0
    ++ bigEndian 8 ((msg.length * 8) % uint64Size)

/-- Rotation of a 32-bit word to the left by `n` bits, `0 < n < 32`. -/
def rotl32 (x n : Nat) : Nat :=
  ((x <<< n) % word32) ||| (x >>> (32 - n))

/-- Rotation of a 32-bit word to the right by `n` bits, `0 < n < 32`. -/
def rotr32 (x n : Nat) : Nat :=
  (x >>> n) ||| ((x <<< (32 - n)) % word32)

/-- Bitwise complement of a 32-bit word. -/
def not32 (x : Nat) : Nat := (word32 - 1) ^^^ x

/-- The sixteen big-endian 32-bit words of a 64-byte block. -/
def blockWords (block : List Nat) : List Nat :=
  (blocks 4 16 block).map beValue

/-! ## `crypto/sha1` (RFC 3174) -/

namespace sha1

/-- The message schedule, newest word first: `W[t] = rotl 1 (W[t-3] ⊕ W[t-8] ⊕ W[t-14] ⊕ W[t-16])`. -/
def schedule : Nat → List Nat → List Nat
  | 0, ws => ws
  | n + 1, ws =>
    schedule n
      (rotl32 (ws.getD 2 0 ^^^ ws.getD 7 0 ^^^ ws.getD 13 0 ^^^ ws.getD 15 0) 1 :: ws)

/-- The working variables `a, b, c, d, e`. -/
structure State where
  a : Nat
  b : Nat
  c : Nat
  d : Nat
  e : Nat
deriving DecidableEq, Repr

/-- The initial hash value. -/
def init : State :=
  { a := 1732584193, b := 4023233417, c := 2562383102, d := 271733878, e := 3285377520 }

/-- One round `t` with schedule word `w`. -/
def round (t : Nat) (s : State) (w : Nat) : State :=
  let f :=
    if t < 20 then (s.b &&& s.c) ||| (not32 s.b &&& s.d)
    else if t < 40 then s.b ^^^ s.c ^^^ s.d
    else if t < 60 then (s.b &&& s.c) ||| (s.b &&& s.d) ||| (s.c &&& s.d)
    else s.b ^^^ s.c ^^^ s.d
  let k :=
    if t < 20 then 1518500249
    else if t < 40 then 1859775393
    else if t < 60 then 2400959708
    else 3395469782
  { a := (rotl32 s.a 5 + f + s.e + k + w) % word32
    b := s.a
    c := rotl32 s.b 30
    d := s.c
    e := s.d }

/-- Runs the rounds over the schedule words, starting at round `t`. -/
def rounds : Nat → State → List Nat → State
  | _, s, [] => s
  | t, s, w :: ws => rounds (t + 1) (round t s w) ws

/-- The compression function: one 64-byte block folded into the hash value. -/
def compress (h : State) (block : List Nat) : State :=
  let ws := (schedule 64 (blockWords block).reverse).reverse
  let s := rounds 0 h ws
  { a := (h.a + s.a) % word32
    b := (h.b + s.b) % word32
    c := (h.c + s.c) % word32
    d := (h.d + s.d) % word32
    e := (h.e + s.e) % word32 }

/-- The 20-byte SHA-1 digest of a message. -/
def sum (msg : List Nat) : List Nat :=
  let p := mdPad msg
  let h := (blocks 64 p.length p).foldl compress init
  bigEndian 4 h.a ++ bigEndian 4 h.b ++ bigEndian 4 h.c ++ bigEndian 4 h.d ++ bigEndian 4 h.e

end sha1

/-! ## `crypto/hmac` (RFC 2104) over SHA-1 -/

/-- HMAC-SHA1 of `msg` under `key`: keys longer than the 64-byte block are hashed first,
shorter keys are padded with zero bytes. -/
def hmacSha1 (key msg : List Nat) : List Nat :=
  let k0 := if key.length > 64 then sha1.sum key else key
  let k := k0 ++ List.replicate (64 - k0.length) 0
  let ipad := k.map (fun b => b ^^^ 54)
  let opad := k.map (fun b => b ^^^ 92)
  sha1.sum (opad ++ sha1.sum (ipad ++ msg))

/-! ## `fmt.Sprintf` with the verb `%0<width>d` and `crypto/subtle` -/

/-- The character of a decimal digit. -/
def digitChar (d : Nat) : Char := Char.ofNat (48 + d)

/-- A decimal digit character. -/
def IsDigitChar (c : Char) : Prop := ∃ d, d < 10 ∧ c = digitChar d

/-- The decimal digits of `n`, most significant first; `fuel` bounds their number. -/
def decimalDigits : Nat → Nat → List Char
  | 0, _ => []
  | fuel + 1, n =>
    if n < 10 then [digitChar n]
    else decimalDigits fuel (n / 10) ++ [digitChar (n % 10)]

/-- `fmt.Sprintf("%0<width>d", n)` for a non-negative `n`: the decimal digits of `n`,
padded on the left with zeros up to `width` characters. -/
def sprintfZeroPad (width n : Nat) : String :=
  let ds := decimalDigits (n + 1) n
  String.mk (List.replicate (width - ds.length) '0' ++ ds)

/-- `subtle.ConstantTimeCompare`: `1` if the two slices have equal contents, else `0`;
slices of different lengths give `0` at once, otherwise the XOR of every pair of bytes is
OR-ed into one byte that is compared with zero at the end. -/
def ConstantTimeCompare (x y : List Nat) : Nat :=
  if x.length ≠ y.length then 0
  else if (List.zipWith (fun a b => a ^^^ b) x y).foldl (fun v d => v ||| d) 0 = 0 then 1
  else 0

/-! ## `totp/generator.go` -/

/-- `Generator` handles the creation of TOTP codes (`Period` is a `uint64`). -/
structure Generator where
  Digits : Nat
  Period : Nat
deriving DecidableEq, Repr

/-- `NewGenerator`: 6 digits, 30 second period. -/
def NewGenerator : Generator := { Digits := 6, Period := 30 }

/-- `int(math.Pow10(d))`; the float `10^d` is exact and fits an `int` for `d ≤ 18`. -/
def pow10Int (d : Nat) : Nat := 10 ^ d

/-- The dynamic truncation of an HMAC-SHA1 value `sum` (step 2 of `generateHOTP`):
`offset := sum[len(sum)-1] & 0x0f` and the 31-bit big-endian integer at `offset`. -/
def binaryCode (sum : List Nat) : Nat :=
  let offset := sum.getD (sum.length - 1) 0 &&& 15
  ((sum.getD offset 0 &&& 127) <<< 24) |||
    ((sum.getD (offset + 1) 0 &&& 255) <<< 16) |||
    ((sum.getD (offset + 2) 0 &&& 255) <<< 8) |||
    (sum.getD (offset + 3) 0 &&& 255)

/-- `Generator.generateHOTP` (RFC 4226).  `binary.Write` into an HMAC never fails, so the
error branch of the source is never taken. -/
def Generator.generateHOTP (g : Generator) (secret : List Byte) (counter : Nat) :
    Except Error String :=
  let sum := hmacSha1 (secret.map UInt8.toNat) (bigEndian 8 (counter % uint64Size))
  let otp := binaryCode sum % pow10Int g.Digits
  Except.ok (sprintfZeroPad g.Digits otp)

/-- `Generator.GenerateCode`: the code of the time step `timestamp / Period`.  The integer
division panics when `Period` is zero; the panic is shown as an error value. -/
def Generator.GenerateCode (g : Generator) (secret : List Byte) (timestamp : Nat) :
    Except Error String :=
  if g.Period = 0 then Except.error "panic: runtime error: integer divide by zero"
  else g.generateHOTP secret (timestamp / g.Period)

/-! ## `totp/verifier.go` -/

/-- `Verifier`: a generator and the number `Window` (a `uint64`) of steps checked before and
after the current one.  The clock is passed to `Verify` as the value `clock.Now().Unix()`. -/
structure Verifier where
  generator : Generator
  Window : Nat
deriving DecidableEq, Repr

/-- The loop `for step := start; step <= end; step++` of `Verify` over `uint64` steps.
`matched` is the flag so far; the result is `none` when `fuel` iterations did not reach
the end of the loop. -/
def Verifier.verifyLoop (v : Verifier) (secret : List Byte) (inputCode : String)
    (stop : Nat) : Nat → Nat → Nat → Option (Bool × Option Error)
  | 0, _, _ => none
  | fuel + 1, step, matched =>
    if step ≤ stop then
      match v.generator.generateHOTP secret step with
      | Except.error err => some (false, some err)
      | Except.ok validCode =>
        let matched' :=
          if ConstantTimeCompare (stringBytes validCode) (stringBytes inputCode) = 1 then 1
          else matched
        v.verifyLoop secret inputCode stop fuel ((step + 1) % uint64Size) matched'
    else some (decide (matched = 1), none)

/-- `Verifier.Verify` with the clock reading `now = v.clock.Now().Unix()` (an `int64`).
The result is the pair `(valid, err)` of the source, or `none` when the loop did not end
within `fuel` iterations.  The panic of the division by a zero `Period` is shown as an
error value. -/
def Verifier.Verify (v : Verifier) (now : Int) (fuel : Nat) (secret : List Byte)
    (inputCode : String) : Option (Bool × Option Error) :=
  if strLen inputCode ≠ v.generator.Digits then some (false, none)
  else
    let currentTime := (now % (uint64Size : Int)).toNat
    if v.generator.Period = 0 then
      some (false, some "panic: runtime error: integer divide by zero")
    else
      let currentStep := currentTime / v.generator.Period
      let start := (currentStep + uint64Size - v.Window % uint64Size) % uint64Size
      let stop := (currentStep + v.Window) % uint64Size
      v.verifyLoop secret inputCode stop fuel start 0

/-! ## `crypto/sha256` (FIPS 180-4) and `encoding/hex` -/

namespace sha256

/-- The round constants. -/
def K : List Nat :=
  [ 1116352408, 1899447441, 3049323471, 3921009573, 961987163, 1508970993,
    2453635748, 2870763221, 3624381080, 310598401, 607225278, 1426881987,
    1925078388, 2162078206, 2614888103, 3248222580, 3835390401, 4022224774,
    264347078, 604807628, 770255983, 1249150122, 1555081692, 1996064986,
    2554220882, 2821834349, 2952996808, 3210313671, 3336571891, 3584528711,
    113926993, 338241895, 666307205, 773529912, 1294757372, 1396182291,
    1695183700, 1986661051, 2177026350, 2456956037, 2730485921, 2820302411,
    3259730800, 3345764771, 3516065817, 3600352804, 4094571909, 275423344,
    430227734, 506948616, 659060556, 883997877, 958139571, 1322822218,
    1537002063, 1747873779, 1955562222, 2024104815, 2227730452, 2361852424,
    2428436474, 2756734187, 3204031479, 3329325298 ]

/-- The initial hash value. -/
def init : List Nat :=
  [1779033703, 3144134277, 1013904242, 2773480762, 1359893119, 2600822924, 528734635,
    1541459225]

/-- The message schedule, newest word first:
`W[t] = σ1(W[t-2]) + W[t-7] + σ0(W[t-15]) + W[t-16]`. -/
def schedule : Nat → List Nat → List Nat
  | 0, ws => ws
  | n + 1, ws =>
    let w2 := ws.getD 1 0
    let w15 := ws.getD 14 0
    let s0 := rotr32 w15 7 ^^^ rotr32 w15 18 ^^^ (w15 >>> 3)
    let s1 := rotr32 w2 17 ^^^ rotr32 w2 19 ^^^ (w2 >>> 10)
    schedule n (((s1 + ws.getD 6 0 + s0 + ws.getD 15 0) % word32) :: ws)

/-- One round on the working variables `[a, b, c, d, e, f, g, h]` with the sum `kw` of the
round constant and the schedule word. -/
def round (s : List Nat) (kw : Nat) : List Nat :=
  match s with
  | [a, b, c, d, e, f, g, h] =>
    let S1 := rotr32 e 6 ^^^ rotr32 e 11 ^^^ rotr32 e 25
    let ch := (e &&& f) ^^^ (not32 e &&& g)
    let t1 := h + S1 + ch + kw
    let S0 := rotr32 a 2 ^^^ rotr32 a 13 ^^^ rotr32 a 22
    let maj := (a &&& b) ^^^ (a &&& c) ^^^ (b &&& c)
    [(t1 + S0 + maj) % word32, a, b, c, (d + t1) % word32, e, f, g]
  | _ => s

/-- The compression function: one 64-byte block folded into the hash value. -/
def compress (h : List Nat) (block : List Nat) : List Nat :=
  let ws := (schedule 48 (blockWords block).reverse).reverse
  let s := (List.zipWith (fun k w => k + w) K ws).foldl round h
  List.zipWith (fun x y => (x + y) % word32) h s

/-- `sha256.Sum256`: the 32-byte digest of a message. -/
def Sum256 (msg : List Nat) : List Nat :=
  let p := mdPad msg
  ((blocks 64 p.length p).foldl compress init).flatMap (bigEndian 4)

end sha256

/-- The lowercase hexadecimal digit of a value below 16. -/
def hexDigit (d : Nat) : Char :=
  "0123456789abcdef".data.getD d '0'

/-- `hex.EncodeToString`: two lowercase hexadecimal digits per byte. -/
def hexEncodeToString (bs : List Nat) : String :=
  String.mk (bs.flatMap (fun b => [hexDigit ((b % 256) / 16), hexDigit (b % 16)]))

/-! ## Go slices of strings

The memory that holds the elements of `[]string` values is one list of cells; a slice is
a window `off, len, cap` on it.  Slices made by re-slicing share their cells. -/

/-- The cells of all backing arrays. -/
abbrev Mem := List String

/-- A slice header: the first cell, the length and the capacity. -/
structure Slice where
  off : Nat
  len : Nat
  cap : Nat
deriving DecidableEq, Repr

/-- The elements of a slice, as the memory holds them now. -/
def Slice.view (s : Slice) (mem : Mem) : List String :=
  (mem.drop s.off).take s.len

/-- The slice lies within the memory: `len ≤ cap` and all `cap` cells exist. -/
def Slice.Valid (s : Slice) (mem : Mem) : Prop :=
  s.len ≤ s.cap ∧ s.off + s.cap ≤ mem.length

/-- The re-slicing `s[:hi]`. -/
def Slice.upTo (s : Slice) (hi : Nat) : Slice :=
  { off := s.off, len := hi, cap := s.cap }

/-- The re-slicing `s[lo:]`. -/
def Slice.from (s : Slice) (lo : Nat) : Slice :=
  { off := s.off + lo, len := s.len - lo, cap := s.cap - lo }

/-- Overwrites the cells from `pos` on with `vals`. -/
def Mem.write (mem : Mem) (pos : Nat) (vals : List String) : Mem :=
  mem.take pos ++ vals ++ mem.drop (pos + vals.length)

/-- The built-in `append(dst, src...)`, `src` being the elements read before anything is
written.  When the capacity of `dst` suffices the elements are written into its own cells,
after its length; otherwise a new array is allocated, at the end of the memory (with no
spare capacity here; Go may choose a larger one). -/
def goAppend (mem : Mem) (dst : Slice) (src : List String) : Mem × Slice :=
  if dst.len + src.length ≤ dst.cap then
    (mem.write (dst.off + dst.len) src,
      { off := dst.off, len := dst.len + src.length, cap := dst.cap })
  else
    (mem ++ (dst.view mem ++ src),
      { off := mem.length, len := dst.len + src.length, cap := dst.len + src.length })

/-- `make([]string, n)` filled with `xs`: a new array at the end of the memory. -/
def makeSlice (mem : Mem) (xs : List String) : Mem × Slice :=
  (mem ++ xs, { off := mem.length, len := xs.length, cap := xs.length })

/-! ## `recovery/codes.go` -/

namespace recovery

/-- The constant `CodeLength`. -/
def CodeLength : Nat := 10

/-- The constant `CodeCount`. -/
def CodeCount : Nat := 8

/-- The constant `Charset`. -/
def Charset : String := "ABCDEFGHJKLMNPQRSTUVWXYZ23456789"

/-- The function `hash`: lowercase-hex SHA-256 of the code. -/
def hash (code : String) : String :=
  hexEncodeToString (sha256.Sum256 (stringBytes code))

/-- The random source: the outcome of the `k`-th read, `none` when the read fails. -/
abbrev RandSource := Nat → Option Nat

/-- `rand.Int(rand.Reader, max)` at the `k`-th read: a number below `max`, or an error. -/
def randInt (rand : RandSource) (k max : Nat) : Except Error Nat :=
  match rand k with
  | none => Except.error "crypto/rand: read failed"
  | some v => Except.ok (v % max)

/-- The loop of `generateRandomString`: `n` more characters, from the `k`-th read on. -/
def generateRandomChars (rand : RandSource) : Nat → Nat → Except Error (List Char)
  | 0, _ => Except.ok []
  | n + 1, k =>
    match randInt rand k (strLen Charset) with
    | Except.error err => Except.error err
    | Except.ok num =>
      match generateRandomChars rand n (k + 1) with
      | Except.error err => Except.error err
      | Except.ok cs => Except.ok (Charset.data.getD num 'A' :: cs)

/-- `generateRandomString(length)`, reading from the `k`-th read on. -/
def generateRandomString (rand : RandSource) (k length : Nat) : Except Error String :=
  match generateRandomChars rand length k with
  | Except.error err => Except.error err
  | Except.ok cs => Except.ok (String.mk cs)

/-- The loop of `GenerateCodes`: `n` more codes, from the `k`-th read on; the result is the
list of the plain codes. -/
def generateLoop (rand : RandSource) : Nat → Nat → Except Error (List String)
  | 0, _ => Except.ok []
  | n + 1, k =>
    match generateRandomString rand k CodeLength with
    | Except.error err => Except.error err
    | Except.ok code =>
      match generateLoop rand n (k + CodeLength) with
      | Except.error err => Except.error err
      | Except.ok codes => Except.ok (code :: codes)

/-- `Service.GenerateCodes`: the elements of the two new slices `plainCodes` and
`hashedCodes` (both of length and capacity `CodeCount`), or the error of the random
source. -/
def GenerateCodes (rand : RandSource) : Except Error (List String × List String) :=
  match generateLoop rand CodeCount 0 with
  | Except.error err => Except.error err
  | Except.ok plainCodes => Except.ok (plainCodes, plainCodes.map hash)

/-- The result of `ValidateAndConsume`: the memory after the call, the returned slice and
the returned flag. -/
structure Consumed where
  mem : Mem
  hashes : Slice
  matched : Bool
deriving DecidableEq, Repr

/-- The loop `for i, h := range storedHashes` of `ValidateAndConsume`, with `n` elements
left from index `i` on. -/
def validateLoop (inputHash : String) (mem : Mem) (storedHashes : Slice) :
    Nat → Nat → Consumed
  | 0, _ => { mem := mem, hashes := storedHashes, matched := false }
  | n + 1, i =>
    if mem.getD (storedHashes.off + i) "" = inputHash then
      let r := goAppend mem (storedHashes.upTo i) ((storedHashes.from (i + 1)).view mem)
      { mem := r.1, hashes := r.2, matched := true }
    else validateLoop inputHash mem storedHashes n (i + 1)

/-- `Service.ValidateAndConsume(inputCode, storedHashes)`. -/
def ValidateAndConsume (inputCode : String) (mem : Mem) (storedHashes : Slice) : Consumed :=
  validateLoop (hash inputCode) mem storedHashes storedHashes.len 0

end recovery

/-! ## `float64`: IEEE 754 binary64 arithmetic, rounding to nearest, ties to even

A finite `float64` is given by the rational number it stands for.  Every operation computes
its exact result and rounds it to 53 significant bits (fewer below `2^-1022`), to infinity
from `2^1024` on.  The sign of a zero is not kept. -/

/-- A `float64`: a finite value, `+Inf` (`inf false`), `-Inf` (`inf true`) or a NaN. -/
inductive Float64 where
  | finite : ℚ → Float64
  | inf : Bool → Float64
  | nan : Float64
deriving DecidableEq

namespace Float64

/-- The number of halvings that bring `n` below 2: `⌊log₂ n⌋` for `0 < n ≤ fuel`. -/
def log2Nat : Nat → Nat → Nat
  | 0, _ => 0
  | fuel + 1, n => if n < 2 then 0 else log2Nat fuel (n / 2) + 1

/-- The binary exponent of a positive rational: the `e` with `2^e ≤ q < 2^(e+1)`, and
`-1022`, the exponent of the subnormal numbers, when that is less. -/
def exponent (q : ℚ) : Int :=
  max
    (if (2 : ℚ) ^ ((log2Nat q.num.natAbs q.num.natAbs : Int) - (log2Nat q.den q.den : Int)) ≤ q
      then (log2Nat q.num.natAbs q.num.natAbs : Int) - (log2Nat q.den q.den : Int)
      else (log2Nat q.num.natAbs q.num.natAbs : Int) - (log2Nat q.den q.den : Int) - 1)
    (-1022)

/-- The nearest integer, the even one of two at the same distance. -/
def roundEven (x : ℚ) : Int :=
  if x - (⌊x⌋ : ℚ) < 1 / 2 then ⌊x⌋
  else if 1 / 2 < x - (⌊x⌋ : ℚ) then ⌊x⌋ + 1
  else if ⌊x⌋ % 2 = 0 then ⌊x⌋
  else ⌊x⌋ + 1

/-- The nearest multiple of the unit in the last place `2^(e-52)` of a positive rational
with exponent `e`. -/
def roundPos (q : ℚ) : ℚ :=
  (roundEven (q / (2 : ℚ) ^ (exponent q - 52)) : ℚ) * (2 : ℚ) ^ (exponent q - 52)

/-- The rounded value of a rational, before the check for overflow. -/
def roundQ (q : ℚ) : ℚ :=
  if q = 0 then 0 else if 0 < q then roundPos q else - roundPos (- q)

/-- The `float64` nearest to a rational. -/
def round (q : ℚ) : Float64 :=
  if (2 : ℚ) ^ (1024 : Nat) ≤ |roundQ q| then inf (decide (q < 0)) else finite (roundQ q)

/-- The conversion `float64(n)` of an integer. -/
def ofInt (n : Int) : Float64 := round (n : ℚ)

/-- The sum `x + y`. -/
def add : Float64 → Float64 → Float64
  | finite a, finite b => round (a + b)
  | finite _, inf s => inf s
  | inf s, finite _ => inf s
  | inf s, inf s' => if s = s' then inf s else nan
  | nan, _ => nan
  | _, nan => nan

/-- The opposite `-x`. -/
def neg : Float64 → Float64
  | finite a => finite (- a)
  | inf s => inf (!s)
  | nan => nan

/-- The difference `x - y`. -/
def sub (x y : Float64) : Float64 := add x (neg y)

/-- The quotient `x / y`.  A zero divisor is taken as `+0`, which it is for the `float64` of
an integer. -/
def div : Float64 → Float64 → Float64
  | finite a, finite b =>
    if b = 0 then (if a = 0 then nan else inf (decide (a < 0))) else round (a / b)
  | finite _, inf _ => finite 0
  | inf s, finite b => inf (s != decide (b < 0))
  | inf _, inf _ => nan
  | nan, _ => nan
  | _, nan => nan

/-- The comparison `x > y`, false when one side is a NaN. -/
def gt : Float64 → Float64 → Bool
  | finite a, finite b => decide (b < a)
  | finite _, inf s => s
  | inf s, finite _ => !s
  | inf s, inf s' => !s && s'
  | nan, _ => false
  | _, nan => false

/-- The comparison `x >= y`, false when one side is a NaN. -/
def ge : Float64 → Float64 → Bool
  | finite a, finite b => decide (b ≤ a)
  | finite _, inf s => s
  | inf s, finite _ => !s
  | inf s, inf s' => !s || s'
  | nan, _ => false
  | _, nan => false

end Float64

/-! ## `ratelimit/limiter.go`

Clock readings and durations are integers, in nanoseconds.  The field `tokens` is a
`float64` and the arithmetic on it is the rounded arithmetic of `Float64`. -/

namespace ratelimit

/-- The largest `time.Duration`. -/
def maxDuration : Int := 9223372036854775807

/-- The smallest `time.Duration`. -/
def minDuration : Int := -9223372036854775808

/-- `t.Sub(u)` on two clock readings: the difference, or the largest or smallest duration
when the difference does not fit a `time.Duration`. -/
def timeSub (t u : Int) : Int :=
  if maxDuration < t - u then maxDuration
  else if t - u < minDuration then minDuration
  else t - u

/-- The struct `bucket`. -/
structure bucket where
  tokens : Float64
  lastUpdate : Int
deriving DecidableEq

/-- The struct `InMemoryLimiter` without its mutex: the map `counters`, the time `rate` to
refill one token and the maximal burst `capacity`. -/
structure InMemoryLimiter where
  counters : String → Option bucket
  rate : Int
  capacity : Int

/-- `NewInMemoryLimiter(rate, capacity)`. -/
def NewInMemoryLimiter (rate capacity : Int) : InMemoryLimiter :=
  { counters := fun _ => none, rate := rate, capacity := capacity }

/-- Stores the bucket `b` under `key`. -/
def InMemoryLimiter.store (l : InMemoryLimiter) (key : String) (b : bucket) :
    InMemoryLimiter :=
  { l with counters := fun k => if k = key then some b else l.counters k }

/-- `InMemoryLimiter.Allow(key)` with the clock reading `now = time.Now()`: the limiter
after the call and the returned flag. -/
def InMemoryLimiter.Allow (l : InMemoryLimiter) (now : Int) (key : String) :
    InMemoryLimiter × Bool :=
  match l.counters key with
  | none =>
    (l.store key { tokens := Float64.ofInt (l.capacity - 1), lastUpdate := now }, true)
  | some b =>
    let elapsed := timeSub now b.lastUpdate
    let added := Float64.div (Float64.ofInt elapsed) (Float64.ofInt l.rate)
    let tokens := Float64.add b.tokens added
    let tokens :=
      if Float64.gt tokens (Float64.ofInt l.capacity) then Float64.ofInt l.capacity else tokens
    if Float64.ge tokens (Float64.finite 1) then
      (l.store key { tokens := Float64.sub tokens (Float64.finite 1), lastUpdate := now }, true)
    else (l.store key { tokens := tokens, lastUpdate := now }, false)

/-- The tokens of the bucket `b` at a call at `now`, after the refill and the cut at the
capacity, before the test `tokens >= 1`. -/
def refill (l : InMemoryLimiter) (now : Int) (b : bucket) : Float64 :=
  if Float64.gt
      (Float64.add b.tokens
        (Float64.div (Float64.ofInt (timeSub now b.lastUpdate)) (Float64.ofInt l.rate)))
      (Float64.ofInt l.capacity) then Float64.ofInt l.capacity
  else Float64.add b.tokens
    (Float64.div (Float64.ofInt (timeSub now b.lastUpdate)) (Float64.ofInt l.rate))

/-- Successive calls `Allow(key)` at the given clock readings: the limiter after the last
call and the returned flags. -/
def InMemoryLimiter.runAllow (l : InMemoryLimiter) (key : String) :
    List Int → InMemoryLimiter × List Bool
  | [] => (l, [])
  | now :: times =>
    ((InMemoryLimiter.runAllow (l.Allow now key).1 key times).1,
      (l.Allow now key).2 :: (InMemoryLimiter.runAllow (l.Allow now key).1 key times).2)

/-- Successive calls `Allow` given as pairs of a clock reading and a key: the limiter after
the last call. -/
def InMemoryLimiter.runCalls (l : InMemoryLimiter) : List (Int × String) → InMemoryLimiter
  | [] => l
  | call :: calls => InMemoryLimiter.runCalls (l.Allow call.1 call.2).1 calls

/-- Every bucket holds tokens that are not below zero (and no NaN) and was updated no later
than `clock`. -/
def InMemoryLimiter.Inv (l : InMemoryLimiter) (clock : Int) : Prop :=
  ∀ key b, l.counters key = some b →
    Float64.ge b.tokens (Float64.finite 0) = true ∧ b.lastUpdate ≤ clock

/-- Every bucket holds a finite number of tokens between `0` and `capacity` and was updated no
later than `clock`. -/
def InMemoryLimiter.Bounded (l : InMemoryLimiter) (clock : Int) : Prop :=
  ∀ key b, l.counters key = some b →
    ∃ q, b.tokens = Float64.finite q ∧ 0 ≤ q ∧ q ≤ (l.capacity : ℚ) ∧ b.lastUpdate ≤ clock

end ratelimit

/-! ## `encoding/base64`, `StdEncoding` (RFC 4648 with padding) -/

namespace base64

/-- The alphabet of `StdEncoding`. -/
def encodeStd : String := "ABCDEFGHIJKLMNOPQRSTUVWXYZabcdefghijklmnopqrstuvwxyz0123456789+/"

/-- The character that encodes the 6-bit value `v`. -/
def encodeChar (v : Nat) : Char := encodeStd.data.getD v 'A'

/-- The decode map: the 6-bit value of an input byte, `none` for a byte outside the
alphabet. -/
def decodeByte (c : Nat) : Option Nat :=
  let i := (stringBytes encodeStd).indexOf c
  if i < 64 then some i else none

/-- The padding character `=`. -/
def padChar : Nat := 61

/-- The characters of the encoding: one quantum of four characters for three bytes, the
last one padded with `=`. -/
def encodeChars : List Nat → List Char
  | [] => []
  | [a] => [encodeChar (a / 4), encodeChar (a % 4 * 16), '=', '=']
  | [a, b] => [encodeChar (a / 4), encodeChar (a % 4 * 16 + b / 16), encodeChar (b % 16 * 4), '=']
  | a :: b :: c :: rest =>
    encodeChar (a / 4) :: encodeChar (a % 4 * 16 + b / 16) ::
      encodeChar (b % 16 * 4 + c / 64) :: encodeChar (c % 64) :: encodeChars rest

/-- `StdEncoding.EncodeToString`. -/
def EncodeToString (src : List Byte) : String :=
  String.mk (encodeChars (src.map UInt8.toNat))

/-- The decoding of the input bytes left once `\r` and `\n` are dropped, quantum by
quantum.  A quantum is four alphabet characters, or, at the very end of the input, two
alphabet characters and `==` or three alphabet characters and `=`; anything else is a
`CorruptInputError`.  The unused low bits of a padded quantum are not checked. -/
def decodeQuanta : List Nat → Except Error (List Nat)
  | [] => Except.ok []
  | c0 :: c1 :: c2 :: c3 :: rest =>
    match decodeByte c0, decodeByte c1 with
    | some a, some b =>
      if c2 = padChar ∧ c3 = padChar ∧ rest = [] then Except.ok [(a * 4 + b / 16) % 256]
      else
        match decodeByte c2 with
        | some c =>
          if c3 = padChar ∧ rest = [] then
            Except.ok [(a * 4 + b / 16) % 256, (b % 16 * 16 + c / 4) % 256]
          else
            match decodeByte c3, decodeQuanta rest with
            | some d, Except.ok bs =>
              Except.ok ((a * 4 + b / 16) % 256 :: (b % 16 * 16 + c / 4) % 256 ::
                (c % 4 * 64 + d) % 256 :: bs)
            | some _, Except.error err => Except.error err
            | none, _ => Except.error "illegal base64 data"
        | none => Except.error "illegal base64 data"
    | _, _ => Except.error "illegal base64 data"
  | _ => Except.error "illegal base64 data"

/-- `StdEncoding.DecodeString`: the decoded bytes, or the error.  (The bytes that the Go
function returns next to an error are left out: `Decrypt` drops them.) -/
def DecodeString (s : String) : Except Error (List Byte) :=
  match decodeQuanta ((stringBytes s).filter (fun c => c ≠ 10 ∧ c ≠ 13)) with
  | Except.error err => Except.error err
  | Except.ok bs => Except.ok (bs.map UInt8.ofNat)

end base64

/-! ## `crypto/encrypt.go` -/

namespace crypto

/-- The AES-GCM functions of `crypto/aes` and `crypto/cipher`, taken as given: `gcmSeal key
nonce plaintext` is the ciphertext followed by the tag, `gcmOpen key nonce ciphertext` is the
plaintext, or `none` when the authentication fails. -/
structure GCMPrimitive where
  gcmSeal : List Byte → List Byte → List Byte → List Byte
  gcmOpen : List Byte → List Byte → List Byte → Option (List Byte)

/-- The interface `cipher.AEAD`, without additional data: `Seal dst nonce plaintext`
appends the sealed plaintext to `dst`. -/
structure AEAD where
  NonceSize : Nat
  Seal : List Byte → List Byte → List Byte → List Byte
  Open : List Byte → List Byte → Except Error (List Byte)

/-- `aes.NewCipher(key)`: the block cipher of a key of 16, 24 or 32 bytes, identified by
its key. -/
def aesNewCipher (key : List Byte) : Except Error (List Byte) :=
  if key.length = 16 ∨ key.length = 24 ∨ key.length = 32 then Except.ok key
  else Except.error "crypto/aes: invalid key size"

/-- `cipher.NewGCM(block)` on an AES block cipher: the AEAD with the standard nonce size
of 12 bytes. -/
def cipherNewGCM (prim : GCMPrimitive) (block : List Byte) : Except Error AEAD :=
  Except.ok
    { NonceSize := 12
      Seal := fun dst nonce plaintext => dst ++ prim.gcmSeal block nonce plaintext
      Open := fun nonce ciphertext =>
        match prim.gcmOpen block nonce ciphertext with
        | some plaintext => Except.ok plaintext
        | none => Except.error "cipher: message authentication failed" }

/-- The reader `rand.Reader`: the bytes it yields, or `none` when reading fails. -/
abbrev RandReader := Option (Nat → Byte)

/-- `io.ReadFull(rand.Reader, buf)` for a buffer of `n` bytes. -/
def readFull (rand : RandReader) (n : Nat) : Except Error (List Byte) :=
  match rand with
  | none => Except.error "crypto/rand: read failed"
  | some bytes => Except.ok ((List.range n).map bytes)

/-- The struct `AESGCMEncryption`. -/
structure AESGCMEncryption where
  masterKey : List Byte
deriving DecidableEq

/-- `NewAESGCMEncryption(masterKey)`: the pair of the service (`none` for `nil`) and the
error (`none` for `nil`). -/
def NewAESGCMEncryption (masterKey : List Byte) : Option AESGCMEncryption × Option Error :=
  if masterKey.length ≠ 32 then (none, some "master key must be 32 bytes")
  else (some { masterKey := masterKey }, none)

/-- `AESGCMEncryption.Encrypt(plaintext)`: the pair of the returned string and the error
(`none` for `nil`). -/
def AESGCMEncryption.Encrypt (prim : GCMPrimitive) (a : AESGCMEncryption) (rand : RandReader)
    (plaintext : List Byte) : String × Option Error :=
  match aesNewCipher a.masterKey with
  | Except.error err => ("", some err)
  | Except.ok block =>
    match cipherNewGCM prim block with
    | Except.error err => ("", some err)
    | Except.ok aesGCM =>
      match readFull rand aesGCM.NonceSize with
      | Except.error err => ("", some err)
      | Except.ok nonce =>
        (base64.EncodeToString (aesGCM.Seal nonce nonce plaintext), none)

/-- `AESGCMEncryption.Decrypt(encodedCiphertext)`: the pair of the returned plaintext
(`none` for `nil`) and the error (`none` for `nil`). -/
def AESGCMEncryption.Decrypt (prim : GCMPrimitive) (a : AESGCMEncryption)
    (encodedCiphertext : String) : Option (List Byte) × Option Error :=
  match base64.DecodeString encodedCiphertext with
  | Except.error err => (none, some err)
  | Except.ok ciphertext =>
    match aesNewCipher a.masterKey with
    | Except.error err => (none, some err)
    | Except.ok block =>
      match cipherNewGCM prim block with
      | Except.error err => (none, some err)
      | Except.ok aesGCM =>
        let nonceSize := aesGCM.NonceSize
        if ciphertext.length < nonceSize then (none, some "ciphertext too short")
        else
          match aesGCM.Open (ciphertext.take nonceSize) (ciphertext.drop nonceSize) with
          | Except.error err => (none, some err)
          | Except.ok plaintext => (some plaintext, none)

end crypto

/-! ## Sample data used to instantiate the theorems -/

/-- A random source whose eighty reads give eight different codes. -/
def recovery.sampleRand : recovery.RandSource := fun k => some (7 * k + k / 10)

/-- The codes `GenerateCodes` draws from `sampleRand`. -/
def recovery.samplePlain : List String :=
  ["AHQX6DLT29", "HQX6DLT29G", "QX6DLT29GP", "X6DLT29GPW", "6DLT29GPW5", "DLT29GPW5C",
    "LT29GPW5CK", "T29GPW5CKS"]

/-- A stand-in for AES-GCM with the same interface, used to instantiate the theorems on the
wrapper (it is not AES-GCM): the ciphertext is the plaintext reversed, followed by a
16-byte tag made of the key, the nonce and the length. -/
def crypto.samplePrimitive : crypto.GCMPrimitive :=
  { gcmSeal := fun key nonce plaintext =>
      plaintext.reverse ++
        (List.range 16).map (fun i =>
          key.getD i 0 ^^^ nonce.getD (i % 12) 0 ^^^ UInt8.ofNat (plaintext.length + i))
    gcmOpen := fun key nonce ciphertext =>
      if 16 ≤ ciphertext.length ∧
          ciphertext.drop (ciphertext.length - 16) = (List.range 16).map (fun i =>
            key.getD i 0 ^^^ nonce.getD (i % 12) 0
              ^^^ UInt8.ofNat (ciphertext.length - 16 + i)) then
        some (ciphertext.take (ciphertext.length - 16)).reverse
      else none }

/-- A 32-byte key: the bytes 0 to 31. -/
def crypto.sampleKey : List Byte := (List.range 32).map UInt8.ofNat

/-! ## The code engine in the words of the specification -/

/-- The dynamic truncation as the specification words it: `offset` is the low four bits of
the last byte; the four bytes from `offset` on, the top bit of the first one cleared, read
as a big-endian integer. -/
def specTruncate (mac : List Nat) : Nat :=
  let offset := mac.getD (mac.length - 1) 0 % 16
  mac.getD offset 0 % 128 * 16777216 + mac.getD (offset + 1) 0 * 65536
    + mac.getD (offset + 2) 0 * 256 + mac.getD (offset + 3) 0

/-- The decimal representation of `n` in exactly `width` digits, padded on the left with
zeros (the digits of `n` modulo `10 ^ width`). -/
def specZeroPadded : Nat → Nat → List Char
  | 0, _ => []
  | width + 1, n => specZeroPadded width (n / 10) ++ [digitChar (n % 10)]

/-! ## `Verify` with the reads of the clock and the code generations it performs -/

/-- What `Verify` does besides computing its result: a read of the clock, the generation of
the code of a step. -/
inductive VerifyEvent where
  | clockNow : VerifyEvent
  | generate : Nat → VerifyEvent
deriving DecidableEq, Repr

/-- The loop of `Verify` (see `Verifier.verifyLoop`) together with the list of the code
generations it performs, in order. -/
def Verifier.verifyLoopTraced (v : Verifier) (secret : List Byte) (inputCode : String)
    (stop : Nat) : Nat → Nat → Nat → Option (Bool × Option Error) × List VerifyEvent
  | 0, _, _ => (none, [])
  | fuel + 1, step, matched =>
    if step ≤ stop then
      match v.generator.generateHOTP secret step with
      | Except.error err => (some (false, some err), [VerifyEvent.generate step])
      | Except.ok validCode =>
        let matched' :=
          if ConstantTimeCompare (stringBytes validCode) (stringBytes inputCode) = 1 then 1
          else matched
        ((v.verifyLoopTraced secret inputCode stop fuel ((step + 1) % uint64Size) matched').1,
          VerifyEvent.generate step ::
            (v.verifyLoopTraced secret inputCode stop fuel ((step + 1) % uint64Size)
              matched').2)
    else (some (decide (matched = 1), none), [])

/-- `Verifier.Verify` (see `Verifier.Verify`) together with the list of the clock reads and
code generations it performs, in order. -/
def Verifier.VerifyTraced (v : Verifier) (now : Int) (fuel : Nat) (secret : List Byte)
    (inputCode : String) : Option (Bool × Option Error) × List VerifyEvent :=
  if strLen inputCode ≠ v.generator.Digits then (some (false, none), [])
  else
    let currentTime := (now % (uint64Size : Int)).toNat
    if v.generator.Period = 0 then
      (some (false, some "panic: runtime error: integer divide by zero"),
        [VerifyEvent.clockNow])
    else
      let currentStep := currentTime / v.generator.Period
      let start := (currentStep + uint64Size - v.Window % uint64Size) % uint64Size
      let stop := (currentStep + v.Window) % uint64Size
      ((v.verifyLoopTraced secret inputCode stop fuel start 0).1,
        VerifyEvent.clockNow :: (v.verifyLoopTraced secret inputCode stop fuel start 0).2)

/-- The number of code generations in a list of events. -/
def generations (events : List VerifyEvent) : Nat :=
  (events.filter (fun e => e ≠ VerifyEvent.clockNow)).length

/-! ## `encoding/base32` (RFC 4648) and `strings.ToUpper` -/

namespace base32

/-- An `Encoding` over the standard alphabet: its padding rune, `-1` for `NoPadding`. -/
structure Encoding where
  padChar : Int
deriving DecidableEq, Repr

/-- The constant `StdPadding`, `=`. -/
def StdPadding : Int := 61

/-- The constant `NoPadding`. -/
def NoPadding : Int := -1

/-- The encoding `StdEncoding`. -/
def StdEncoding : Encoding := { padChar := StdPadding }

/-- The method `WithPadding`. -/
def Encoding.WithPadding (_enc : Encoding) (padding : Int) : Encoding := { padChar := padding }

/-- The alphabet of `StdEncoding`. -/
def encodeStd : String := "ABCDEFGHIJKLMNOPQRSTUVWXYZ234567"

/-- The character that encodes the 5-bit value `v`. -/
def encodeChar (v : Nat) : Char := encodeStd.data.getD v 'A'

/-- The decode map: the 5-bit value of an input byte, `none` for a byte outside the
alphabet. -/
def decodeByte (c : Nat) : Option Nat :=
  let i := (stringBytes encodeStd).indexOf c
  if i < 32 then some i else none

/-- The byte `byte(enc.padChar)` the decoder compares its input with. -/
def Encoding.padByte (enc : Encoding) : Nat := (enc.padChar % 256).toNat

/-- The eight characters of a quantum of up to five bytes (missing bytes count as zero). -/
def quantumChars (s0 s1 s2 s3 s4 : Nat) : List Char :=
  [encodeChar (s0 / 8), encodeChar (s0 % 8 * 4 + s1 / 64), encodeChar (s1 / 2 % 32),
    encodeChar (s1 % 2 * 16 + s2 / 16), encodeChar (s2 % 16 * 2 + s3 / 128),
    encodeChar (s3 / 4 % 32), encodeChar (s3 % 4 * 8 + s4 / 32), encodeChar (s4 % 32)]

/-- The characters of a last quantum of `k` significant characters: padded to eight
characters with the padding character, or cut after `k` characters for `NoPadding`. -/
def Encoding.lastQuantum (enc : Encoding) (chars : List Char) (k : Nat) : List Char :=
  if enc.padChar = NoPadding then chars.take k
  else chars.take k ++ List.replicate (8 - k) (Char.ofNat enc.padChar.toNat)

/-- The characters of the encoding of a byte string. -/
def Encoding.encodeChars (enc : Encoding) : List Nat → List Char
  | [] => []
  | [a] => enc.lastQuantum (quantumChars a 0 0 0 0) 2
  | [a, b] => enc.lastQuantum (quantumChars a b 0 0 0) 4
  | [a, b, c] => enc.lastQuantum (quantumChars a b c 0 0) 5
  | [a, b, c, d] => enc.lastQuantum (quantumChars a b c d 0) 7
  | a :: b :: c :: d :: e :: rest => quantumChars a b c d e ++ enc.encodeChars rest

/-- The method `EncodeToString`. -/
def Encoding.EncodeToString (enc : Encoding) (src : List Byte) : String :=
  String.mk (enc.encodeChars (src.map UInt8.toNat))

/-- The inner loop `for j := 0; j < 8;` of `decode`, with `slots` characters still to
read: the 5-bit values read so far, whether the end of the input was reached, and the
input left. -/
def Encoding.readQuantum (enc : Encoding) :
    Nat → List Nat → List Nat → Except Error (List Nat × Bool × List Nat)
  | 0, dbuf, src => Except.ok (dbuf, false, src)
  | _ + 1, dbuf, [] =>
    if enc.padChar ≠ NoPadding then Except.error "illegal base32 data"
    else Except.ok (dbuf, true, [])
  | slots + 1, dbuf, c :: src =>
    if c = enc.padByte ∧ 2 ≤ dbuf.length ∧ src.length < 8 then
      if src.length + dbuf.length < 7 then Except.error "illegal base32 data"
      else if (List.range (7 - dbuf.length)).any
          (fun k => decide (k < src.length ∧ src.getD k 0 ≠ enc.padByte)) then
        Except.error "illegal base32 data"
      else if dbuf.length = 1 ∨ dbuf.length = 3 ∨ dbuf.length = 6 then
        Except.error "illegal base32 data"
      else Except.ok (dbuf, true, src)
    else
      match decodeByte c with
      | none => Except.error "illegal base32 data"
      | some v => enc.readQuantum slots (dbuf ++ [v]) src

/-- The bytes packed from the `dlen` values of a quantum (the `switch dlen` of `decode`
with its fall-through cases). -/
def packQuantum (dbuf : List Nat) : List Nat :=
  let d := fun i => dbuf.getD i 0
  let dst0 := (d 0 * 8 + d 1 / 4) % 256
  let dst1 := (d 1 * 64 + d 2 * 2 + d 3 / 16) % 256
  let dst2 := (d 3 * 16 + d 4 / 2) % 256
  let dst3 := (d 4 * 128 + d 5 * 4 + d 6 / 8) % 256
  let dst4 := (d 6 * 32 + d 7) % 256
  if dbuf.length = 8 then [dst0, dst1, dst2, dst3, dst4]
  else if dbuf.length = 7 then [dst0, dst1, dst2, dst3]
  else if dbuf.length = 5 then [dst0, dst1, dst2]
  else if dbuf.length = 4 then [dst0, dst1]
  else if dbuf.length = 2 then [dst0]
  else []

/-- The loop `for len(src) > 0 && !end` of `decode`; `fuel` bounds the number of
quanta. -/
def Encoding.decodeLoop (enc : Encoding) : Nat → List Nat → Except Error (List Nat)
  | 0, _ => Except.ok []
  | fuel + 1, src =>
    match src with
    | [] => Except.ok []
    | _ :: _ =>
      match enc.readQuantum 8 [] src with
      | Except.error err => Except.error err
      | Except.ok (dbuf, stop, rest) =>
        if stop then Except.ok (packQuantum dbuf)
        else
          match enc.decodeLoop fuel rest with
          | Except.error err => Except.error err
          | Except.ok bs => Except.ok (packQuantum dbuf ++ bs)

/-- The method `DecodeString`: `\r` and `\n` are dropped, then the quanta are decoded. -/
def Encoding.DecodeString (enc : Encoding) (s : String) : Except Error (List Byte) :=
  let src := (stringBytes s).filter (fun c => c ≠ 10 ∧ c ≠ 13)
  match enc.decodeLoop src.length src with
  | Except.error err => Except.error err
  | Except.ok bs => Except.ok (bs.map UInt8.ofNat)

end base32

/-- The upper-case mapping of an ASCII character. -/
def asciiToUpper (c : Char) : Char :=
  if 97 ≤ c.toNat ∧ c.toNat ≤ 122 then Char.ofNat (c.toNat - 32) else c

/-- The lower-case mapping of an ASCII character. -/
def asciiToLower (c : Char) : Char :=
  if 65 ≤ c.toNat ∧ c.toNat ≤ 90 then Char.ofNat (c.toNat + 32) else c

/-- `strings.ToUpper`: ASCII letters are mapped here; the upper-case mapping of the other
Unicode characters, `unicode.ToUpper`, is taken as given. -/
def stringsToUpper (unicodeToUpper : Char → Char) (s : String) : String :=
  String.mk (s.data.map (fun c => if c.toNat < 128 then asciiToUpper c else unicodeToUpper c))

/-- `strings.ToLower`, in the same way. -/
def stringsToLower (unicodeToLower : Char → Char) (s : String) : String :=
  String.mk (s.data.map (fun c => if c.toNat < 128 then asciiToLower c else unicodeToLower c))

/-- `Generator.GenerateCodeFromBase32`: the secret is decoded without padding, or else with
padding, from its upper-case form. -/
def Generator.GenerateCodeFromBase32 (g : Generator) (unicodeToUpper : Char → Char)
    (secretBase32 : String) (timestamp : Nat) : Except Error String :=
  match (base32.StdEncoding.WithPadding base32.NoPadding).DecodeString
      (stringsToUpper unicodeToUpper secretBase32) with
  | Except.ok secretBytes => g.GenerateCode secretBytes timestamp
  | Except.error _ =>
    match base32.StdEncoding.DecodeString (stringsToUpper unicodeToUpper secretBase32) with
    | Except.ok secretBytes => g.GenerateCode secretBytes timestamp
    | Except.error err => Except.error ("invalid base32 secret: " ++ err)

/-! ## `net/url`: the escaping used for the provisioning URI -/

namespace url

/-- The escaping modes used here. -/
inductive encoding where
  | encodePath : encoding
  | encodeQueryComponent : encoding
deriving DecidableEq, Repr

/-- The function `shouldEscape` on the byte `c`, for the two modes used here. -/
def shouldEscape (c : Nat) (mode : encoding) : Bool :=
  if (97 ≤ c ∧ c ≤ 122) ∨ (65 ≤ c ∧ c ≤ 90) ∨ (48 ≤ c ∧ c ≤ 57) then false
  else if c = 45 ∨ c = 95 ∨ c = 46 ∨ c = 126 then false
  else if c = 36 ∨ c = 38 ∨ c = 43 ∨ c = 44 ∨ c = 47 ∨ c = 58 ∨ c = 59 ∨ c = 61 ∨ c = 63
      ∨ c = 64 then
    match mode with
    | encoding.encodePath => decide (c = 63)
    | encoding.encodeQueryComponent => true
  else true

/-- The upper-case hexadecimal digit of a value below 16. -/
def upperhex (d : Nat) : Char := "0123456789ABCDEF".data.getD d '0'

/-- The function `escape`: every byte that should be escaped becomes `%XX`, a space
becomes `+` in a query component. -/
def escape (s : String) (mode : encoding) : String :=
  String.mk ((stringBytes s).flatMap (fun c =>
    if c = 32 ∧ mode = encoding.encodeQueryComponent then ['+']
    else if shouldEscape c mode then ['%', upperhex (c / 16), upperhex (c % 16)]
    else [Char.ofNat c]))

/-- `Values.Encode` for values set once per key: the pairs `key=value`, both escaped as
query components, sorted by key and joined by `&`. -/
def valuesEncode (v : List (String × String)) : String :=
  String.intercalate "&"
    ((v.insertionSort (fun a b => ¬ b.1 < a.1)).map (fun kv =>
      escape kv.1 encoding.encodeQueryComponent ++ "=" ++
        escape kv.2 encoding.encodeQueryComponent))

/-- `URL.String` for a URL with the fields `Scheme`, `Host` (of letters only), `Path` (other
than `*`) and `RawQuery` set. -/
def urlString (scheme host path rawQuery : String) : String :=
  let escaped := escape path encoding.encodePath
  scheme ++ ":" ++ (if host ≠ "" ∨ path ≠ "" then "//" else "") ++ host
    ++ (if escaped ≠ "" ∧ escaped.data.head? ≠ some '/' ∧ host ≠ "" then "/" else "")
    ++ escaped ++ (if rawQuery ≠ "" then "?" ++ rawQuery else "")

end url

/-! ## `enroll/enrollment.go` -/

namespace enroll

/-- The struct `Service`: the issuer and the crypto service (the recovery service has no
state). -/
structure Service where
  issuer : String
  crypto : crypto.AESGCMEncryption

/-- The struct `EnrollmentResponse`; the two slices are new, they are given by their
elements. -/
structure EnrollmentResponse where
  Secret : String
  EncryptedBlob : String
  OTPAuthURL : String
  RecoveryCodes : List String
  HashedCodes : List String
deriving DecidableEq, Repr

/-- `Service.Enroll(accountName)`.  The three uses of the random source are three
arguments: the read of the 20 secret bytes, the read of the nonce in `Encrypt` and the
reads of `GenerateCodes`. -/
def Service.Enroll (prim : crypto.GCMPrimitive) (s : Service) (secretRand : crypto.RandReader)
    (nonceRand : crypto.RandReader) (codeRand : recovery.RandSource) (accountName : String) :
    Except Error EnrollmentResponse :=
  match crypto.readFull secretRand 20 with
  | Except.error err => Except.error ("failed to generate secret: " ++ err)
  | Except.ok secretBytes =>
    let secretBase32 :=
      (base32.StdEncoding.WithPadding base32.NoPadding).EncodeToString secretBytes
    match crypto.AESGCMEncryption.Encrypt prim s.crypto nonceRand secretBytes with
    | (_, some err) => Except.error ("failed to encrypt secret: " ++ err)
    | (encryptedBlob, none) =>
      match recovery.GenerateCodes codeRand with
      | Except.error err => Except.error ("failed to generate recovery codes: " ++ err)
      | Except.ok (plainCodes, hashedCodes) =>
        let v := [("secret", secretBase32), ("issuer", s.issuer), ("algorithm", "SHA1"),
          ("digits", "6"), ("period", "30")]
        let label := s.issuer ++ ":" ++ accountName
        Except.ok
          { Secret := secretBase32
            EncryptedBlob := encryptedBlob
            OTPAuthURL := url.urlString "otpauth" "totp" label (url.valuesEncode v)
            RecoveryCodes := plainCodes
            HashedCodes := hashedCodes }

end enroll

/-! ## `storage/repository.go` -/

namespace storage

/-- The struct `User`; the field `RecoveryCodes` is a slice on the shared memory. -/
structure User where
  ID : String
  EncryptedSecret : String
  Enabled : Bool
  RecoveryCodes : Slice
deriving DecidableEq, Repr

/-- The struct `InMemoryRepository` without its lock: the map `users`. -/
structure InMemoryRepository where
  users : String → Option User

/-- `NewInMemoryRepository`. -/
def NewInMemoryRepository : InMemoryRepository := { users := fun _ => none }

/-- `InMemoryRepository.GetUser(id)`: a copy of the stored struct (its slice shares the
array of the stored one), or `ErrUserNotFound`. -/
def InMemoryRepository.GetUser (r : InMemoryRepository) (id : String) :
    Option User × Option Error :=
  match r.users id with
  | none => (none, some "user not found")
  | some u => (some u, none)

/-- `InMemoryRepository.SaveUser(user)`: a copy of the struct is stored under its ID. -/
def InMemoryRepository.SaveUser (r : InMemoryRepository) (user : User) :
    InMemoryRepository × Option Error :=
  ({ users := fun id => if id = user.ID then some user else r.users id }, none)

end storage

/-! ## `http/handlers.go`

The handlers run on a state made of the repository (the in-memory one), the rate limiter
and the memory of the `[]string` slices.  A request is given by its method and the result
of decoding its JSON body; the answer is the status code and the value that is encoded as
the JSON body.  The calls to the collaborators are recorded in order.  Logging is left
out. -/

namespace http

/-- The state the handlers work on. -/
structure World where
  repo : storage.InMemoryRepository
  limiter : ratelimit.InMemoryLimiter
  mem : Mem

/-- The struct `Handlers`: the parts that hold no state, with the AES-GCM functions the
crypto service rests on. -/
structure Handlers where
  prim : crypto.GCMPrimitive
  Crypto : crypto.AESGCMEncryption
  EnrollSvc : enroll.Service
  Verifier : Verifier

/-- What a request reads from outside: the clock of the limiter (`time.Now()`, in
nanoseconds), the clock of the verifier (`clock.Now().Unix()`), the bound on the
iterations of `Verify`, and the random source at its three uses. -/
structure Inputs where
  now : Int
  unix : Int
  fuel : Nat
  secretRand : crypto.RandReader
  nonceRand : crypto.RandReader
  codeRand : recovery.RandSource

/-- The struct `EnrollRequest`. -/
structure EnrollRequest where
  UserID : String
deriving DecidableEq, Repr

/-- The struct `VerifyRequest`. -/
structure VerifyRequest where
  UserID : String
  Code : String
deriving DecidableEq, Repr

/-- An HTTP request: its method and its decoded JSON body, `none` when decoding fails. -/
structure Request (α : Type) where
  Method : String
  Body : Option α

/-- The value a handler encodes as the body of its answer: the map with the one key
`error`, a map of strings with its entries in the order of their keys (the order in which
`encoding/json` writes them), or the enrollment response. -/
inductive Body where
  | error : String → Body
  | status : List (String × String) → Body
  | enrollment : enroll.EnrollmentResponse → Body
deriving DecidableEq, Repr

/-- The answer of a handler: status code and body.  A handler that panics answers
nothing: this is shown as the status 0 with the message of the panic. -/
structure Reply where
  status : Nat
  body : Body
deriving DecidableEq, Repr

/-- A call to a collaborator. -/
inductive Event where
  | allow : String → Bool → Event
  | enroll : String → Event
  | getUser : String → Event
  | decrypt : String → Event
  | verify : String → Event
  | validateAndConsume : String → Event
  | saveUser : storage.User → Event
deriving DecidableEq, Repr

/-- The result of a handler: the state after the request, the answer and the calls. -/
structure Outcome where
  world : World
  reply : Reply
  events : List Event

/-- `Handlers.ErrorJSON(w, status, msg)`. -/
def errorJSON (w : World) (status : Nat) (msg : String) (events : List Event) : Outcome :=
  { world := w, reply := { status := status, body := Body.error msg }, events := events }

/-- `Handlers.EnrollHandler`. -/
def Handlers.EnrollHandler (h : Handlers) (w : World) (inp : Inputs)
    (r : Request EnrollRequest) : Outcome :=
  if r.Method ≠ "POST" then errorJSON w 405 "Method not allowed" []
  else
    match r.Body with
    | none => errorJSON w 400 "Invalid request body" []
    | some req =>
      match h.EnrollSvc.Enroll h.prim inp.secretRand inp.nonceRand inp.codeRand req.UserID with
      | Except.error _ =>
        errorJSON w 500 "Failed to generate secret" [Event.enroll req.UserID]
      | Except.ok resp =>
        let hashed := makeSlice w.mem resp.HashedCodes
        let user : storage.User :=
          { ID := req.UserID, EncryptedSecret := resp.EncryptedBlob,
            RecoveryCodes := hashed.2, Enabled := false }
        match w.repo.SaveUser user with
        | (repo, some _) =>
          errorJSON { w with repo := repo, mem := hashed.1 } 500 "Failed to save user"
            [Event.enroll req.UserID, Event.saveUser user]
        | (repo, none) =>
          { world := { w with repo := repo, mem := hashed.1 }
            reply := { status := 200, body := Body.enrollment resp }
            events := [Event.enroll req.UserID, Event.saveUser user] }

/-- `Handlers.VerifyHandler`. -/
def Handlers.VerifyHandler (h : Handlers) (w : World) (inp : Inputs)
    (r : Request VerifyRequest) : Outcome :=
  if r.Method ≠ "POST" then errorJSON w 405 "Method not allowed" []
  else
    match r.Body with
    | none => errorJSON w 400 "Invalid request body" []
    | some req =>
      let allowed := w.limiter.Allow inp.now req.UserID
      let w := { w with limiter := allowed.1 }
      let ev := [Event.allow req.UserID allowed.2]
      if ¬ allowed.2 then errorJSON w 429 "Rate limit exceeded" ev
      else
        let ev := ev ++ [Event.getUser req.UserID]
        match w.repo.GetUser req.UserID with
        | (_, some _) => errorJSON w 404 "User not found" ev
        | (none, none) => errorJSON w 0 "panic: nil pointer dereference" ev
        | (some user, none) =>
          if user.Enabled then errorJSON w 409 "TOTP already enabled" ev
          else
            let ev := ev ++ [Event.decrypt user.EncryptedSecret]
            match crypto.AESGCMEncryption.Decrypt h.prim h.Crypto user.EncryptedSecret with
            | (_, some _) => errorJSON w 500 "Failed to decrypt secret" ev
            | (secretBytes, none) =>
              let ev := ev ++ [Event.verify req.Code]
              match h.Verifier.Verify inp.unix inp.fuel (secretBytes.getD []) req.Code with
              | none => errorJSON w 500 "Verification error" ev
              | some (_, some _) => errorJSON w 500 "Verification error" ev
              | some (false, none) => errorJSON w 401 "Invalid code" ev
              | some (true, none) =>
                let user := { user with Enabled := true }
                match w.repo.SaveUser user with
                | (repo, some _) =>
                  errorJSON { w with repo := repo } 500 "Failed to update user"
                    (ev ++ [Event.saveUser user])
                | (repo, none) =>
                  { world := { w with repo := repo }
                    reply := { status := 200, body := Body.status [("status", "enabled")] }
                    events := ev ++ [Event.saveUser user] }

/-- `Handlers.ValidateHandler`. -/
def Handlers.ValidateHandler (h : Handlers) (w : World) (inp : Inputs)
    (r : Request VerifyRequest) : Outcome :=
  if r.Method ≠ "POST" then errorJSON w 405 "Method not allowed" []
  else
    match r.Body with
    | none => errorJSON w 400 "Invalid request body" []
    | some req =>
      let allowed := w.limiter.Allow inp.now req.UserID
      let w := { w with limiter := allowed.1 }
      let ev := [Event.allow req.UserID allowed.2]
      if ¬ allowed.2 then errorJSON w 429 "Rate limit exceeded" ev
      else
        let ev := ev ++ [Event.getUser req.UserID]
        match w.repo.GetUser req.UserID with
        | (_, some _) => errorJSON w 404 "User not found" ev
        | (none, none) => errorJSON w 0 "panic: nil pointer dereference" ev
        | (some user, none) =>
          if ¬ user.Enabled then errorJSON w 412 "TOTP not enabled" ev
          else
            let ev := ev ++ [Event.decrypt user.EncryptedSecret]
            match crypto.AESGCMEncryption.Decrypt h.prim h.Crypto user.EncryptedSecret with
            | (_, some _) => errorJSON w 500 "Failed to decrypt secret" ev
            | (secretBytes, none) =>
              let ev := ev ++ [Event.verify req.Code]
              match h.Verifier.Verify inp.unix inp.fuel (secretBytes.getD []) req.Code with
              | none => errorJSON w 500 "Verification error" ev
              | some (_, some _) => errorJSON w 500 "Verification error" ev
              | some (false, none) => errorJSON w 401 "Invalid code" ev
              | some (true, none) =>
                { world := w
                  reply := { status := 200, body := Body.status [("status", "valid")] }
                  events := ev }

/-- `Handlers.RecoverHandler`. -/
def Handlers.RecoverHandler (_h : Handlers) (w : World) (inp : Inputs)
    (r : Request VerifyRequest) : Outcome :=
  if r.Method ≠ "POST" then errorJSON w 405 "Method not allowed" []
  else
    match r.Body with
    | none => errorJSON w 400 "Invalid request body" []
    | some req =>
      let allowed := w.limiter.Allow inp.now req.UserID
      let w := { w with limiter := allowed.1 }
      let ev := [Event.allow req.UserID allowed.2]
      if ¬ allowed.2 then errorJSON w 429 "Rate limit exceeded" ev
      else
        let ev := ev ++ [Event.getUser req.UserID]
        match w.repo.GetUser req.UserID with
        | (_, some _) => errorJSON w 404 "User not found" ev
        | (none, none) => errorJSON w 0 "panic: nil pointer dereference" ev
        | (some user, none) =>
          if ¬ user.Enabled then errorJSON w 412 "TOTP not enabled" ev
          else
            let ev := ev ++ [Event.validateAndConsume req.Code]
            let consumed := recovery.ValidateAndConsume req.Code w.mem user.RecoveryCodes
            let w := { w with mem := consumed.mem }
            if ¬ consumed.matched then errorJSON w 401 "Invalid recovery code" ev
            else
              let user := { user with RecoveryCodes := consumed.hashes }
              match w.repo.SaveUser user with
              | (repo, some _) =>
                errorJSON { w with repo := repo } 500 "Failed to update user"
                  (ev ++ [Event.saveUser user])
              | (repo, none) =>
                { world := { w with repo := repo }
                  reply :=
                    { status := 200
                      body := Body.status
                        [("msg", "Recovery code accepted"), ("status", "recovered")] }
                  events := ev ++ [Event.saveUser user] }

end http

/-- Whether the call is a call to the rate limiter. -/
def http.Event.isAllow : http.Event → Bool
  | http.Event.allow _ _ => true
  | _ => false

/-- Whether the call is a call to `SaveUser`. -/
def http.Event.isSaveUser : http.Event → Bool
  | http.Event.saveUser _ => true
  | _ => false

/-- The handlers as wired in `cmd/api/main.go` (window 1, issuer `EnjoysAuthTOTP`), on the
stand-in for AES-GCM and the sample key. -/
def http.sampleHandlers : http.Handlers :=
  { prim := crypto.samplePrimitive
    Crypto := { masterKey := crypto.sampleKey }
    EnrollSvc := { issuer := "EnjoysAuthTOTP", crypto := { masterKey := crypto.sampleKey } }
    Verifier := { generator := NewGenerator, Window := 1 } }

/-- Sample readings: both clocks at the Unix time 1234567890, a random source whose secret
is `12345678901234567890`. -/
def http.sampleInputs : http.Inputs :=
  { now := 1234567890000000000
    unix := 1234567890
    fuel := 4
    secretRand := some (fun i => UInt8.ofNat (48 + (i + 1) % 10))
    nonceRand := some (fun i => UInt8.ofNat (17 * i + 3))
    codeRand := recovery.sampleRand }

/-- An empty repository and the limiter of `cmd/api/main.go` (3 tokens, one more every 30
seconds), not used yet. -/
def http.sampleWorld : http.World :=
  { repo := storage.NewInMemoryRepository
    limiter := ratelimit.NewInMemoryLimiter 30000000000 3
    mem := [] }

/-- The same, after three calls of `Allow` for `alice` at the time of `sampleInputs`: the
bucket of `alice` is empty. -/
def http.limitedWorld : http.World :=
  { http.sampleWorld with
    limiter := http.sampleWorld.limiter.runCalls
      [(1234567890000000000, "alice"), (1234567890000000000, "alice"),
        (1234567890000000000, "alice")] }

/-- A world in which `alice` is enabled and holds the hashes of the two recovery codes
`AHQX6DLT29` and `HQX6DLT29G`. -/
def http.enabledWorld (limiter : ratelimit.InMemoryLimiter) : http.World :=
  { repo :=
      { users := fun id =>
          if id = "alice" then
            some { ID := "alice", EncryptedSecret := "", Enabled := true,
                   RecoveryCodes := { off := 0, len := 2, cap := 2 } }
          else none }
    limiter := limiter
    mem := [recovery.hash "AHQX6DLT29", recovery.hash "HQX6DLT29G"] }

/-- What `Enroll` returns for `alice` on the sample readings. -/
def enroll.sampleResponse : enroll.EnrollmentResponse :=
  { Secret := "GEZDGNBVGY3TQOJQGEZDGNBVGY3TQOJQ"
    EncryptedBlob := "AxQlNkdYaXqLnK2+MDk4NzY1NDMyMTA5ODc2NTQzMjEXADEiW0R1Zp+IuaovOAka"
    OTPAuthURL := "otpauth://totp/EnjoysAuthTOTP:alice?algorithm=SHA1&digits=6"
      ++ "&issuer=EnjoysAuthTOTP&period=30&secret=GEZDGNBVGY3TQOJQGEZDGNBVGY3TQOJQ"
    RecoveryCodes := recovery.samplePlain
    HashedCodes :=
      ["8ac3f016ccbb366d4b827822c38b81b83a81237a3f8e1a78beffb69a6dd392cf",
        "a2e5e44b6f45c419a8e996579416540e73d1c95362cd606c9a0406f7b9552f7c",
        "bf4eb766a7e6fac39632a9a233f7c2a4d1e98940b001046ae50c7502a354cfa6",
        "80478bed123cf19e339c729cf567a4720d9eca333f6004bd87fe921eb166e6de",
        "09a5d0f26a766d3037bb755c899f270093823bc28c45163db87273b8bfeb7d00",
        "a3b0fa15119b9d32c19b3787cb85c73baaea035db201c0e840b7757ab8d1158f",
        "b203296319d6af8d93c797aaec0a11d3c3f52b5311f52bb35d06ee53548670a5",
        "6772fcd94b773bf994a833f2d8e1afb8902549a5e2323c5a8307c4177ae76e22"] }

/-- The record `EnrollHandler` saves for `alice` on the sample readings. -/
def storage.sampleUser : storage.User :=
  { ID := "alice"
    EncryptedSecret := enroll.sampleResponse.EncryptedBlob
    Enabled := false
    RecoveryCodes := { off := 0, len := 8, cap := 8 } }

/-- Whether the call works on a code or a secret: decryption, verification of a code, or
validation of a recovery code. -/
def http.Event.isCodeCheck : http.Event → Bool
  | http.Event.decrypt _ => true
  | http.Event.verify _ => true
  | http.Event.validateAndConsume _ => true
  | _ => false

/-- The state after `EnrollHandler` for `alice` on the given state with the sample
readings: her record is there, not enabled. -/
def http.enrolledWorld (w : http.World) : http.World :=
  (http.sampleHandlers.EnrollHandler w http.sampleInputs ⟨"POST", some ⟨"alice"⟩⟩).world

/-- Whether the byte is an unreserved character of RFC 3986: a letter, a digit, or one of
`-`, `.`, `_`, `~`. -/
def url.isUnreserved (c : Nat) : Bool :=
  decide ((97 ≤ c ∧ c ≤ 122) ∨ (65 ≤ c ∧ c ≤ 90) ∨ (48 ≤ c ∧ c ≤ 57) ∨ c = 45 ∨ c = 46 ∨ c = 95
    ∨ c = 126)

/-- The provisioning URI in the order in which the comment of `Enroll` and the
specification write it: `secret`, `issuer`, `algorithm`, `digits`, `period`. -/
def enroll.specOTPAuthURL (issuer account secret : String) : String :=
  "otpauth://totp/" ++ issuer ++ ":" ++ account ++ "?secret=" ++ secret ++ "&issuer=" ++ issuer
    ++ "&algorithm=SHA1&digits=6&period=30"

/-- The provisioning URI with its parameters in the order of their keys. -/
def enroll.sortedOTPAuthURL (issuer account secret : String) : String :=
  "otpauth://totp/" ++ issuer ++ ":" ++ account ++ "?algorithm=SHA1&digits=6&issuer=" ++ issuer
    ++ "&period=30&secret=" ++ secret

/-! # Theorems -/

/-! ## Lemmas on the Go built-ins and the code format -/

theorem lor_eq_zero (a b : Nat) : a ||| b = 0 ↔ a = 0 ∧ b = 0 := by
  constructor
  · intro h
    have key : ∀ i, a.testBit i = false ∧ b.testBit i = false := by
      intro i
      have := congrArg (fun n => Nat.testBit n i) h
      simpa [Nat.testBit_or] using this
    exact ⟨Nat.eq_of_testBit_eq (fun i => by simp [(key i).1]),
      Nat.eq_of_testBit_eq (fun i => by simp [(key i).2])⟩
  · rintro ⟨rfl, rfl⟩
    rfl

theorem foldl_lor_eq_zero (ds : List Nat) (v : Nat) :
    ds.foldl (fun v d => v ||| d) v = 0 ↔ v = 0 ∧ ∀ d ∈ ds, d = 0 := by
  induction ds generalizing v with
  | nil => simp
  | cons d ds ih =>
    simp only [List.foldl_cons, ih, List.mem_cons, forall_eq_or_imp, lor_eq_zero, and_assoc]

theorem zipWith_xor_all_zero (x y : List Nat) (hlen : x.length = y.length) :
    (∀ d ∈ List.zipWith (fun a b => a ^^^ b) x y, d = 0) ↔ x = y := by
  induction x generalizing y with
  | nil =>
    cases y with
    | nil => simp
    | cons b y => simp at hlen
  | cons a x ih =>
    cases y with
    | nil => simp at hlen
    | cons b y =>
      simp only [List.length_cons, add_left_inj] at hlen
      simp only [List.zipWith_cons_cons, List.mem_cons, forall_eq_or_imp, ih y hlen,
        Nat.xor_eq_zero, List.cons.injEq]

theorem ConstantTimeCompare_eq_one (x y : List Nat) :
    ConstantTimeCompare x y = 1 ↔ x = y := by
  unfold ConstantTimeCompare
  by_cases hlen : x.length = y.length
  · simp only [hlen, ne_eq, not_true_eq_false, if_false, foldl_lor_eq_zero, true_and,
      zipWith_xor_all_zero x y hlen]
    by_cases hxy : x = y <;> simp [hxy]
  · have hne : x ≠ y := fun h => hlen (by rw [h])
    simp [hlen, hne]

theorem utf8Bytes_append_inj (c d : Nat) (r s : List Nat) (hc : c < 1114112) (hd : d < 1114112)
    (h : utf8Bytes c ++ r = utf8Bytes d ++ s) : c = d ∧ r = s := by
  unfold utf8Bytes at h
  split_ifs at h <;> simp only [List.cons_append, List.nil_append, List.cons.injEq] at h <;>
    first
    | (obtain ⟨h1, h2, h3, h4, h5⟩ := h; exact ⟨by omega, h5⟩)
    | (obtain ⟨h1, h2, h3, h4⟩ := h; exact ⟨by omega, h4⟩)
    | (obtain ⟨h1, h2, h3⟩ := h; exact ⟨by omega, h3⟩)
    | (obtain ⟨h1, h2⟩ := h; exact ⟨by omega, h2⟩)
    | (exfalso; omega)


theorem char_toNat_lt (c : Char) : c.toNat < 1114112 := by
  have h := c.valid
  simp only [UInt32.isValidChar, Nat.isValidChar] at h
  show c.val.toNat < 1114112
  omega

theorem char_toNat_inj (c d : Char) (h : c.toNat = d.toNat) : c = d := by
  apply Char.ext
  apply UInt32.ext
  exact h

theorem utf8Bytes_ne_nil (c : Nat) : utf8Bytes c ≠ [] := by
  unfold utf8Bytes
  split_ifs <;> simp

theorem charsBytes_inj (xs ys : List Char)
    (h : xs.flatMap (fun c => utf8Bytes c.toNat) = ys.flatMap (fun c => utf8Bytes c.toNat)) :
    xs = ys := by
  induction xs generalizing ys with
  | nil =>
    cases ys with
    | nil => rfl
    | cons d ds =>
      simp only [List.flatMap_nil, List.flatMap_cons] at h
      have := utf8Bytes_ne_nil d.toNat
      cases hd : utf8Bytes d.toNat with
      | nil => exact absurd hd this
      | cons _ _ => rw [hd] at h; simp at h
  | cons c cs ih =>
    cases ys with
    | nil =>
      simp only [List.flatMap_nil, List.flatMap_cons] at h
      have := utf8Bytes_ne_nil c.toNat
      cases hc : utf8Bytes c.toNat with
      | nil => exact absurd hc this
      | cons _ _ => rw [hc] at h; simp at h
    | cons d ds =>
      simp only [List.flatMap_cons] at h
      obtain ⟨h1, h2⟩ := utf8Bytes_append_inj _ _ _ _ (char_toNat_lt c) (char_toNat_lt d) h
      rw [char_toNat_inj c d h1, ih ds h2]

theorem stringBytes_inj (a b : String) (h : stringBytes a = stringBytes b) : a = b := by
  cases a with
  | mk xs =>
    cases b with
    | mk ys =>
      unfold stringBytes at h
      simp only at h
      rw [charsBytes_inj xs ys h]

theorem ConstantTimeCompare_string (a b : String) :
    ConstantTimeCompare (stringBytes a) (stringBytes b) = 1 ↔ a = b := by
  rw [ConstantTimeCompare_eq_one]
  exact ⟨stringBytes_inj a b, fun h => by rw [h]⟩

theorem decimalDigits_digit (fuel n : Nat) : ∀ c ∈ decimalDigits fuel n, IsDigitChar c := by
  induction fuel generalizing n with
  | zero => simp [decimalDigits]
  | succ fuel ih =>
    intro c hc
    unfold decimalDigits at hc
    split_ifs at hc with hn
    · simp only [List.mem_singleton] at hc
      exact ⟨n, hn, hc⟩
    · simp only [List.mem_append, List.mem_singleton] at hc
      rcases hc with hc | hc
      · exact ih _ c hc
      · exact ⟨n % 10, Nat.mod_lt _ (by norm_num), hc⟩

theorem decimalDigits_length_le (fuel n k : Nat) (hn : n < 10 ^ (k + 1)) :
    (decimalDigits fuel n).length ≤ k + 1 := by
  induction fuel generalizing n k with
  | zero => simp [decimalDigits]
  | succ fuel ih =>
    unfold decimalDigits
    split_ifs with h10
    · simp
    · cases k with
      | zero => simp at hn; omega
      | succ k =>
        have : n / 10 < 10 ^ (k + 1) := by
          rw [Nat.div_lt_iff_lt_mul (by norm_num)]
          calc n < 10 ^ (k + 1 + 1) := hn
            _ = 10 ^ (k + 1) * 10 := by ring
        have := ih (n / 10) k this
        simp only [List.length_append, List.length_singleton]
        omega

theorem digitChar_toNat (d : Nat) (hd : d < 10) : (digitChar d).toNat = 48 + d := by
  interval_cases d <;> rfl

theorem stringBytes_digits (cs : List Char) (h : ∀ c ∈ cs, IsDigitChar c) :
    stringBytes (String.mk cs) = cs.map Char.toNat := by
  unfold stringBytes
  simp only
  induction cs with
  | nil => rfl
  | cons c cs ih =>
    simp only [List.flatMap_cons, List.map_cons]
    rw [ih (fun c hc => h c (List.mem_cons_of_mem _ hc))]
    obtain ⟨d, hd, rfl⟩ := h c (List.mem_cons_self _ _)
    rw [digitChar_toNat d hd]
    unfold utf8Bytes
    rw [if_pos (by omega)]
    rfl

theorem sprintfZeroPad_chars (w n : Nat) : ∀ c ∈ (sprintfZeroPad w n).data, IsDigitChar c := by
  intro c hc
  unfold sprintfZeroPad at hc
  simp only [List.mem_append, List.mem_replicate] at hc
  rcases hc with ⟨_, rfl⟩ | hc
  · exact ⟨0, by norm_num, rfl⟩
  · exact decimalDigits_digit _ _ c hc

theorem sprintfZeroPad_data_length (w n : Nat) (hw : 0 < w) (hn : n < 10 ^ w) :
    (sprintfZeroPad w n).data.length = w := by
  obtain ⟨k, rfl⟩ : ∃ k, w = k + 1 := ⟨w - 1, by omega⟩
  have := decimalDigits_length_le (n + 1) n k hn
  unfold sprintfZeroPad
  simp only [List.length_append, List.length_replicate]
  omega

theorem sprintfZeroPad_strLen (w n : Nat) (hw : 0 < w) (hn : n < 10 ^ w) :
    strLen (sprintfZeroPad w n) = w := by
  unfold strLen
  have h := stringBytes_digits (sprintfZeroPad w n).data (sprintfZeroPad_chars w n)
  rw [show String.mk (sprintfZeroPad w n).data = sprintfZeroPad w n from rfl] at h
  rw [h, List.length_map, sprintfZeroPad_data_length w n hw hn]

theorem generateHOTP_ok (secret : List Byte) (s : Nat) :
    ∃ n, n < 10 ^ 6 ∧ NewGenerator.generateHOTP secret s = Except.ok (sprintfZeroPad 6 n) := by
  refine ⟨_, ?_, rfl⟩
  exact Nat.mod_lt _ (by norm_num [pow10Int, NewGenerator])

theorem generateHOTP_strLen (secret : List Byte) (s : Nat) (code : String)
    (h : NewGenerator.generateHOTP secret s = Except.ok code) :
    strLen code = 6 ∧ code.length = 6 := by
  obtain ⟨n, hn, hc⟩ := generateHOTP_ok secret s
  rw [hc] at h
  cases h
  exact ⟨sprintfZeroPad_strLen 6 n (by norm_num) hn,
    sprintfZeroPad_data_length 6 n (by norm_num) hn⟩


theorem verifyLoop_spec (W : Nat) (secret : List Byte) (cand : String) (stop : Nat)
    (hstop : stop + 1 < uint64Size) (k : Nat) :
    ∀ (fuel step m : Nat), stop + 1 - step = k → step ≤ stop + 1 → k < fuel →
      ∃ b, Verifier.verifyLoop ⟨NewGenerator, W⟩ secret cand stop fuel step m = some (b, none) ∧
        (b = true ↔ m = 1 ∨ ∃ s, step ≤ s ∧ s ≤ stop ∧
          NewGenerator.generateHOTP secret s = Except.ok cand) := by
  induction k with
  | zero =>
    intro fuel step m hk hle hfuel
    obtain ⟨f, rfl⟩ : ∃ f, fuel = f + 1 := ⟨fuel - 1, by omega⟩
    have hgt : ¬ step ≤ stop := by omega
    refine ⟨decide (m = 1), ?_, ?_⟩
    · simp only [Verifier.verifyLoop, if_neg hgt]
    · simp only [decide_eq_true_eq]
      constructor
      · intro h; exact Or.inl h
      · rintro (h | ⟨s, h1, h2, _⟩)
        · exact h
        · omega
  | succ k ih =>
    intro fuel step m hk hle hfuel
    obtain ⟨f, rfl⟩ : ∃ f, fuel = f + 1 := ⟨fuel - 1, by omega⟩
    have hle' : step ≤ stop := by omega
    obtain ⟨n, hn, hcode⟩ := generateHOTP_ok secret step
    have hmod : (step + 1) % uint64Size = step + 1 := Nat.mod_eq_of_lt (by omega)
    simp only [Verifier.verifyLoop, if_pos hle', hcode, hmod]
    obtain ⟨b, hb, hiff⟩ := ih f (step + 1)
      (if ConstantTimeCompare (stringBytes (sprintfZeroPad 6 n)) (stringBytes cand) = 1 then 1
        else m) (by omega) (by omega) (by omega)
    refine ⟨b, hb, ?_⟩
    rw [hiff]
    constructor
    · rintro (h | ⟨s, h1, h2, h3⟩)
      · split_ifs at h with hc
        · rw [ConstantTimeCompare_string] at hc
          exact Or.inr ⟨step, le_refl _, hle', by rw [hcode, hc]⟩
        · exact Or.inl h
      · exact Or.inr ⟨s, by omega, h2, h3⟩
    · rintro (h | ⟨s, h1, h2, h3⟩)
      · left
        split_ifs <;> simp [h]
      · by_cases hs : s = step
        · subst hs
          rw [hcode] at h3
          cases h3
          left
          rw [if_pos ((ConstantTimeCompare_string _ _).2 rfl)]
        · exact Or.inr ⟨s, by omega, h2, h3⟩

/-! ## Code engine and window verifier -/

/-- C1: with the default generator (6 digits, period 30) and the secret
`12345678901234567890`, `GenerateCode` returns without error the RFC 6238 reference codes
at the six reference times. -/
theorem GenerateCode_rfc6238_vectors :
    NewGenerator.GenerateCode (bytesOfString "12345678901234567890") 59
        = Except.ok "287082" ∧
      NewGenerator.GenerateCode (bytesOfString "12345678901234567890") 1111111109
        = Except.ok "081804" ∧
      NewGenerator.GenerateCode (bytesOfString "12345678901234567890") 1111111111
        = Except.ok "050471" ∧
      NewGenerator.GenerateCode (bytesOfString "12345678901234567890") 1234567890
        = Except.ok "005924" ∧
      NewGenerator.GenerateCode (bytesOfString "12345678901234567890") 2000000000
        = Except.ok "279037" ∧
      NewGenerator.GenerateCode (bytesOfString "12345678901234567890") 20000000000
        = Except.ok "353130" := by
  decide!

/-- C2: for every secret, candidate, window `W` and clock reading `t` (an `int64`) with
`0 ≤ t`, `W ≤ t / 30` and `t / 30 + W < 2^64 - 1`, `Verify` ends (given `2 W + 2` loop
iterations or more) without error, and it returns `true` exactly when the candidate has
6 characters and is the generated code of a step `s` with
`t / 30 - W ≤ s ≤ t / 30 + W`. -/
theorem Verify_window_iff (secret : List Byte) (candidate : String) (W : Nat) (t : Int)
    (fuel : Nat) (h0 : 0 ≤ t) (h63 : t < 2 ^ 63) (hW : W ≤ t.toNat / 30)
    (hwrap : t.toNat / 30 + W < 2 ^ 64 - 1) (hfuel : 2 * W + 1 < fuel) :
    ∃ valid, Verifier.Verify ⟨NewGenerator, W⟩ t fuel secret candidate = some (valid, none) ∧
      (valid = true ↔ candidate.length = 6 ∧ ∃ s, t.toNat / 30 - W ≤ s ∧ s ≤ t.toNat / 30 + W ∧
        NewGenerator.generateHOTP secret s = Except.ok candidate) := by
  have hsz : uint64Size = 2 ^ 64 := by norm_num [uint64Size]
  unfold Verifier.Verify
  by_cases hlen : strLen candidate = 6
  · have hcur : (t % (uint64Size : Int)).toNat = t.toNat := by
      rw [Int.emod_eq_of_lt h0 (by rw [hsz]; push_cast; omega)]
    have hWlt : W < uint64Size := by omega
    have hstart : (t.toNat / 30 + uint64Size - W % uint64Size) % uint64Size = t.toNat / 30 - W := by
      rw [Nat.mod_eq_of_lt hWlt]
      have : t.toNat / 30 + uint64Size - W = (t.toNat / 30 - W) + uint64Size := by omega
      rw [this, Nat.add_mod_right, Nat.mod_eq_of_lt (by omega)]
    have hstop : (t.toNat / 30 + W) % uint64Size = t.toNat / 30 + W :=
      Nat.mod_eq_of_lt (by omega)
    simp only [NewGenerator, hlen, ne_eq, not_true_eq_false, if_false, hcur,
      show ((30 : Nat) = 0) = False from by simp, hstart, hstop]
    obtain ⟨b, hb, hiff⟩ := verifyLoop_spec W secret candidate (t.toNat / 30 + W) (by omega)
      (2 * W + 1) fuel (t.toNat / 30 - W) 0 (by omega) (by omega) hfuel
    refine ⟨b, hb, ?_⟩
    rw [hiff]
    constructor
    · rintro (h | ⟨s, h1, h2, h3⟩)
      · exact absurd h (by norm_num)
      · exact ⟨(generateHOTP_strLen secret s candidate h3).2, s, h1, h2, h3⟩
    · rintro ⟨_, s, h1, h2, h3⟩
      exact Or.inr ⟨s, h1, h2, h3⟩
  · refine ⟨false, ?_, ?_⟩
    · simp [NewGenerator, hlen]
    · constructor
      · intro h; exact absurd h (by simp)
      · rintro ⟨_, s, _, _, h3⟩
        exact absurd (generateHOTP_strLen secret s candidate h3).1 hlen

/-- Witness of C2, the test `TestVerifyWindow`: `W = 1`, `t = 1234567890`; the theorem at
the code of `t`, and the evaluated outcomes: the codes of `t - 30`, `t` and `t + 30` are
accepted, the code of `t - 60` is rejected. -/
theorem Verify_window_witness :
    (∃ valid, Verifier.Verify ⟨NewGenerator, 1⟩ 1234567890 4
          (bytesOfString "12345678901234567890") "005924" = some (valid, none) ∧
        (valid = true ↔ "005924".length = 6 ∧
          ∃ s, (1234567890 : Int).toNat / 30 - 1 ≤ s ∧ s ≤ (1234567890 : Int).toNat / 30 + 1 ∧
            NewGenerator.generateHOTP (bytesOfString "12345678901234567890") s
              = Except.ok "005924")) ∧
      NewGenerator.GenerateCode (bytesOfString "12345678901234567890") (1234567890 - 30)
        = Except.ok "980357" ∧
      NewGenerator.GenerateCode (bytesOfString "12345678901234567890") (1234567890 + 30)
        = Except.ok "590587" ∧
      NewGenerator.GenerateCode (bytesOfString "12345678901234567890") (1234567890 - 60)
        = Except.ok "186057" ∧
      Verifier.Verify ⟨NewGenerator, 1⟩ 1234567890 4 (bytesOfString "12345678901234567890")
        "980357" = some (true, none) ∧
      Verifier.Verify ⟨NewGenerator, 1⟩ 1234567890 4 (bytesOfString "12345678901234567890")
        "005924" = some (true, none) ∧
      Verifier.Verify ⟨NewGenerator, 1⟩ 1234567890 4 (bytesOfString "12345678901234567890")
        "590587" = some (true, none) ∧
      Verifier.Verify ⟨NewGenerator, 1⟩ 1234567890 4 (bytesOfString "12345678901234567890")
        "186057" = some (false, none) :=
  ⟨Verify_window_iff (bytesOfString "12345678901234567890") "005924" 1 1234567890 4
      (by decide) (by decide) (by decide) (by decide) (by decide),
    by decide!⟩

/-! ## Lemmas on slices and `ValidateAndConsume` -/

theorem Slice.decompose (s : Slice) (mem : Mem) (hv : s.Valid mem) :
    ∃ pre post, mem = pre ++ s.view mem ++ post ∧ pre.length = s.off ∧
      (s.view mem).length = s.len := by
  obtain ⟨h1, h2⟩ := hv
  refine ⟨mem.take s.off, mem.drop (s.off + s.len), ?_, ?_, ?_⟩
  · unfold Slice.view
    rw [List.append_assoc, ← List.drop_drop, List.take_append_drop, List.take_append_drop]
  · simp; omega
  · unfold Slice.view
    simp; omega

theorem view_of_decomposed (pre l post : List String) (s : Slice) (hoff : pre.length = s.off)
    (hlen : l.length = s.len) : s.view (pre ++ l ++ post) = l := by
  unfold Slice.view
  rw [List.append_assoc, ← hoff, List.drop_left, ← hlen, List.take_left]

theorem goAppend_delete (mem : Mem) (s : Slice) (i : Nat) (hv : s.Valid mem) (hi : i < s.len) :
    (goAppend mem (s.upTo i) ((s.from (i + 1)).view mem)).2
        = { off := s.off, len := s.len - 1, cap := s.cap } ∧
      (goAppend mem (s.upTo i) ((s.from (i + 1)).view mem)).1.length = mem.length ∧
      ({ off := s.off, len := s.len - 1, cap := s.cap } : Slice).view
        (goAppend mem (s.upTo i) ((s.from (i + 1)).view mem)).1 = (s.view mem).eraseIdx i := by
  obtain ⟨pre, post, hmem, hoff, hlen⟩ := s.decompose mem hv
  generalize hl : s.view mem = l at hmem hlen
  obtain ⟨l1, x, l2, rfl, hl1⟩ : ∃ l1 x l2, l = l1 ++ x :: l2 ∧ l1.length = i := by
    refine ⟨l.take i, l.get ⟨i, by omega⟩, l.drop (i + 1), ?_, ?_⟩
    · rw [List.get_eq_getElem, List.getElem_cons_drop, List.take_append_drop]
    · simp; omega
  have hsrc : (s.from (i + 1)).view mem = l2 := by
    rw [hmem]
    have : pre ++ (l1 ++ x :: l2) ++ post = (pre ++ l1 ++ [x]) ++ l2 ++ post := by simp
    rw [this]
    apply view_of_decomposed
    · simp [Slice.from]; omega
    · simp [Slice.from]; simp at hlen; omega
  subst hl1
  simp only [List.length_append, List.length_cons] at hlen
  have hcap := hv.1
  rw [hsrc]
  unfold goAppend
  have hfit : (s.upTo l1.length).len + l2.length ≤ (s.upTo l1.length).cap := by
    simp only [Slice.upTo]; omega
  rw [if_pos hfit]
  refine ⟨?_, ?_, ?_⟩
  · simp only [Slice.upTo, Slice.mk.injEq, true_and, and_true]; omega
  · simp only [Mem.write, Slice.upTo, List.length_append, List.length_take, List.length_drop]
    have := congrArg List.length hmem
    simp only [List.length_append, List.length_cons] at this
    omega
  · rw [List.eraseIdx_append_of_length_le (le_refl _), Nat.sub_self, List.eraseIdx_cons_zero]
    simp only [Mem.write, Slice.upTo]
    have h1 : mem.take (s.off + l1.length) = pre ++ l1 := by
      rw [hmem, ← hoff]
      have : pre ++ (l1 ++ x :: l2) ++ post = (pre ++ l1) ++ (x :: l2 ++ post) := by simp
      rw [this, ← List.length_append, List.take_left]
    rw [h1]
    have : pre ++ l1 ++ l2 ++ List.drop (s.off + l1.length + l2.length) mem
        = pre ++ (l1 ++ l2) ++ List.drop (s.off + l1.length + l2.length) mem := by simp
    rw [this]
    apply view_of_decomposed
    · exact hoff
    · simp; omega


theorem Slice.getD_mem (s : Slice) (mem : Mem) (hv : s.Valid mem) (i : Nat) (hi : i < s.len) :
    mem.getD (s.off + i) "" = (s.view mem).getD i "" := by
  obtain ⟨h1, h2⟩ := hv
  unfold Slice.view
  rw [List.getD_eq_getElem?_getD, List.getD_eq_getElem?_getD, List.getElem?_take_of_lt hi,
    List.getElem?_drop]

theorem split_at_index (l : List String) (i : Nat) (hi : i < l.length) :
    l = l.take i ++ l.getD i "" :: l.drop (i + 1) := by
  rw [List.getD_eq_getElem _ _ hi, List.getElem_cons_drop, List.take_append_drop]

theorem recovery.validateLoop_spec (h : String) (mem : Mem) (s : Slice) (hv : s.Valid mem)
    (n : Nat) : ∀ i, i + n = s.len → h ∉ (s.view mem).take i →
      ((recovery.validateLoop h mem s n i).matched = true ↔ h ∈ s.view mem) ∧
      (recovery.validateLoop h mem s n i).hashes.view (recovery.validateLoop h mem s n i).mem
        = (s.view mem).erase h ∧
      (recovery.validateLoop h mem s n i).hashes.Valid (recovery.validateLoop h mem s n i).mem ∧
      (h ∉ s.view mem → (recovery.validateLoop h mem s n i).mem = mem ∧
        (recovery.validateLoop h mem s n i).hashes = s) := by
  have hlen : (s.view mem).length = s.len := by
    obtain ⟨_, _, _, _, h⟩ := s.decompose mem hv
    exact h
  induction n with
  | zero =>
    intro i hi hnot
    have hall : h ∉ s.view mem := by
      rwa [List.take_of_length_le (by omega)] at hnot
    simp only [recovery.validateLoop, Bool.false_eq_true, false_iff]
    exact ⟨hall, (List.erase_of_not_mem hall).symm, hv, fun _ => ⟨trivial, trivial⟩⟩
  | succ n ih =>
    intro i hi hnot
    have hilt : i < s.len := by omega
    have hsplit := split_at_index (s.view mem) i (by omega)
    unfold recovery.validateLoop
    rw [s.getD_mem mem hv i hilt]
    by_cases hx : (s.view mem).getD i "" = h
    · rw [if_pos hx]
      obtain ⟨e1, e2, e3⟩ := goAppend_delete mem s i hv hilt
      have hmem : h ∈ s.view mem := by
        rw [hsplit, hx]; simp
      simp only [true_iff]
      refine ⟨hmem, ?_, ?_, fun hn => absurd hmem hn⟩
      · rw [e1, e3]
        conv_rhs => rw [hsplit, List.erase_append_right _ hnot, hx, List.erase_cons_head]
        conv_lhs => rw [hsplit]
        rw [List.eraseIdx_append_of_length_le (by simp)]
        have : i - (List.take i (s.view mem)).length = 0 := by simp; omega
        rw [this, List.eraseIdx_cons_zero]
      · rw [e1]
        exact ⟨by have := hv.1; show s.len - 1 ≤ s.cap; omega, by rw [e2]; exact hv.2⟩
    · rw [if_neg hx]
      apply ih (i + 1) (by omega)
      rw [List.take_succ, List.mem_append, not_or]
      refine ⟨hnot, ?_⟩
      rw [List.getD_eq_getElem?_getD] at hx
      cases hg : (s.view mem)[i]? with
      | none => simp
      | some y =>
        rw [hg] at hx
        simp only [Option.getD_some] at hx
        simp only [Option.toList_some, List.mem_singleton]
        exact fun h' => hx h'.symm

/-- The contract of `ValidateAndConsume` on the returned values, for a slice that lies
within the memory. -/
theorem recovery.ValidateAndConsume_spec (inputCode : String) (mem : Mem) (s : Slice)
    (hv : s.Valid mem) :
    ((recovery.ValidateAndConsume inputCode mem s).matched = true
        ↔ recovery.hash inputCode ∈ s.view mem) ∧
      (recovery.ValidateAndConsume inputCode mem s).hashes.view
          (recovery.ValidateAndConsume inputCode mem s).mem
        = (s.view mem).erase (recovery.hash inputCode) ∧
      (recovery.ValidateAndConsume inputCode mem s).hashes.Valid
        (recovery.ValidateAndConsume inputCode mem s).mem ∧
      (recovery.hash inputCode ∉ s.view mem →
        (recovery.ValidateAndConsume inputCode mem s).mem = mem ∧
        (recovery.ValidateAndConsume inputCode mem s).hashes = s) :=
  recovery.validateLoop_spec (recovery.hash inputCode) mem s hv s.len 0 (by omega) (by simp)


theorem recovery.generateLoop_length (rand : recovery.RandSource) (n : Nat) :
    ∀ k codes, recovery.generateLoop rand n k = Except.ok codes → codes.length = n := by
  induction n with
  | zero =>
    intro k codes h
    simp only [recovery.generateLoop, Except.ok.injEq] at h
    rw [← h]; rfl
  | succ n ih =>
    intro k codes h
    unfold recovery.generateLoop at h
    split at h
    · exact absurd h (by simp)
    · split at h
      · exact absurd h (by simp)
      · rename_i code _ cs hcs
        simp only [Except.ok.injEq] at h
        rw [← h, List.length_cons, ih _ _ hcs]

theorem recovery.GenerateCodes_ok (rand : recovery.RandSource) (plainCodes hashedCodes : List String)
    (h : recovery.GenerateCodes rand = Except.ok (plainCodes, hashedCodes)) :
    plainCodes.length = recovery.CodeCount ∧ hashedCodes = plainCodes.map recovery.hash := by
  unfold recovery.GenerateCodes at h
  split at h
  · exact absurd h (by simp)
  · rename_i codes hcodes
    simp only [Except.ok.injEq, Prod.mk.injEq] at h
    obtain ⟨rfl, rfl⟩ := h
    exact ⟨recovery.generateLoop_length rand _ _ _ hcodes, rfl⟩

theorem mem_erase_self_iff (l : List String) (a : String) :
    ∀ i : Nat, l[i]? = some a → (a ∈ l.erase a ↔ ∃ j : Nat, j ≠ i ∧ l[j]? = some a) := by
  induction l with
  | nil => intro i h; simp at h
  | cons x xs ih =>
    intro i h
    by_cases hx : x = a
    · subst hx
      rw [List.erase_cons_head]
      cases i with
      | zero =>
        rw [List.mem_iff_getElem?]
        constructor
        · rintro ⟨j, hj⟩
          exact ⟨j + 1, by omega, by simpa using hj⟩
        · rintro ⟨j, hj0, hj⟩
          obtain ⟨j', rfl⟩ : ∃ j', j = j' + 1 := ⟨j - 1, by omega⟩
          exact ⟨j', by simpa using hj⟩
      | succ i =>
        simp only [List.getElem?_cons_succ] at h
        constructor
        · intro _
          exact ⟨0, by omega, List.getElem?_cons_zero⟩
        · intro _
          exact List.mem_iff_getElem?.2 ⟨i, h⟩
    · have hne : ¬ (x == a) = true := by simpa using hx
      rw [List.erase_cons_tail hne, List.mem_cons]
      cases i with
      | zero => simp at h; exact absurd h hx
      | succ i =>
        simp only [List.getElem?_cons_succ] at h
        rw [ih i h]
        constructor
        · rintro (h' | ⟨j, hj, hj'⟩)
          · exact absurd h'.symm hx
          · exact ⟨j + 1, by omega, by simpa using hj'⟩
        · rintro ⟨j, hj, hj'⟩
          cases j with
          | zero => simp at hj'; exact absurd hj' hx
          | succ j =>
            right
            exact ⟨j, by omega, by simpa using hj'⟩

theorem makeSlice_valid (mem : Mem) (xs : List String) :
    (makeSlice mem xs).2.Valid (makeSlice mem xs).1 ∧
      (makeSlice mem xs).2.view (makeSlice mem xs).1 = xs := by
  constructor
  · simp [makeSlice, Slice.Valid]
  · simp [makeSlice, Slice.view]


/-! ## Recovery codes -/

/-- C3, as amended: for every batch returned by `GenerateCodes`, stored in a new slice, and
every index `i`: presenting `plainCodes[i]` matches; presenting `plainCodes[i]` again against
the returned reduced list does not match exactly when no other entry of `hashedCodes` is the
hash of `plainCodes[i]`; and every other `plainCodes[j]` still matches against the reduced
list. -/
theorem recovery_single_use (rand : recovery.RandSource) (plainCodes hashedCodes : List String)
    (mem : Mem) (i : Nat) (code : String) (r : recovery.Consumed)
    (hgen : recovery.GenerateCodes rand = Except.ok (plainCodes, hashedCodes))
    (hi : plainCodes[i]? = some code)
    (hr : r = recovery.ValidateAndConsume code (makeSlice mem hashedCodes).1
      (makeSlice mem hashedCodes).2) :
    r.matched = true ∧
      ((recovery.ValidateAndConsume code r.mem r.hashes).matched = false ↔
        ∀ j : Nat, j ≠ i → hashedCodes[j]? ≠ some (recovery.hash code)) ∧
      ∀ (j : Nat) (other : String), j ≠ i → plainCodes[j]? = some other →
        (recovery.ValidateAndConsume other r.mem r.hashes).matched = true := by
  obtain ⟨_, hmap⟩ := recovery.GenerateCodes_ok rand plainCodes hashedCodes hgen
  obtain ⟨hv, hview⟩ := makeSlice_valid mem hashedCodes
  obtain ⟨h1, h2, h3, _⟩ := recovery.ValidateAndConsume_spec code _ _ hv
  rw [← hr] at h1 h2 h3
  rw [hview] at h1 h2
  have hidx : hashedCodes[i]? = some (recovery.hash code) := by
    rw [hmap, List.getElem?_map, hi]; rfl
  have hmemi : recovery.hash code ∈ hashedCodes := List.mem_iff_getElem?.2 ⟨i, hidx⟩
  refine ⟨h1.2 hmemi, ?_, ?_⟩
  · obtain ⟨k1, k2, _, _⟩ := recovery.ValidateAndConsume_spec code r.mem r.hashes h3
    rw [h2] at k1
    rw [Bool.eq_false_iff, Ne, k1, mem_erase_self_iff hashedCodes _ i hidx]
    push_neg
    rfl
  · intro j other hj hjo
    obtain ⟨k1, _, _, _⟩ := recovery.ValidateAndConsume_spec other r.mem r.hashes h3
    rw [k1, h2]
    have hjdx : hashedCodes[j]? = some (recovery.hash other) := by
      rw [hmap, List.getElem?_map, hjo]; rfl
    by_cases he : recovery.hash other = recovery.hash code
    · rw [he, mem_erase_self_iff hashedCodes _ i hidx]
      exact ⟨j, hj, by rw [hjdx, he]⟩
    · exact (List.mem_erase_of_ne he).2 (List.mem_iff_getElem?.2 ⟨j, hjdx⟩)

/-- Witness of C3 as amended: the batch drawn from `sampleRand`, stored in an empty memory,
and its first code. -/
theorem recovery_single_use_witness :
    recovery.GenerateCodes recovery.sampleRand
        = Except.ok (recovery.samplePlain, recovery.samplePlain.map recovery.hash) ∧
      (recovery.ValidateAndConsume "AHQX6DLT29"
          (makeSlice [] (recovery.samplePlain.map recovery.hash)).1
          (makeSlice [] (recovery.samplePlain.map recovery.hash)).2).matched = true ∧
      ((recovery.ValidateAndConsume "AHQX6DLT29"
          (recovery.ValidateAndConsume "AHQX6DLT29"
            (makeSlice [] (recovery.samplePlain.map recovery.hash)).1
            (makeSlice [] (recovery.samplePlain.map recovery.hash)).2).mem
          (recovery.ValidateAndConsume "AHQX6DLT29"
            (makeSlice [] (recovery.samplePlain.map recovery.hash)).1
            (makeSlice [] (recovery.samplePlain.map recovery.hash)).2).hashes).matched = false ↔
        ∀ j : Nat, j ≠ 0 →
          (recovery.samplePlain.map recovery.hash)[j]? ≠ some (recovery.hash "AHQX6DLT29")) ∧
      (recovery.ValidateAndConsume "AHQX6DLT29"
          (recovery.ValidateAndConsume "AHQX6DLT29"
            (makeSlice [] (recovery.samplePlain.map recovery.hash)).1
            (makeSlice [] (recovery.samplePlain.map recovery.hash)).2).mem
          (recovery.ValidateAndConsume "AHQX6DLT29"
            (makeSlice [] (recovery.samplePlain.map recovery.hash)).1
            (makeSlice [] (recovery.samplePlain.map recovery.hash)).2).hashes).matched = false ∧
      (recovery.ValidateAndConsume "T29GPW5CKS"
          (recovery.ValidateAndConsume "AHQX6DLT29"
            (makeSlice [] (recovery.samplePlain.map recovery.hash)).1
            (makeSlice [] (recovery.samplePlain.map recovery.hash)).2).mem
          (recovery.ValidateAndConsume "AHQX6DLT29"
            (makeSlice [] (recovery.samplePlain.map recovery.hash)).1
            (makeSlice [] (recovery.samplePlain.map recovery.hash)).2).hashes).matched = true :=
  have hgen : recovery.GenerateCodes recovery.sampleRand
      = Except.ok (recovery.samplePlain, recovery.samplePlain.map recovery.hash) := by decide!
  have h := recovery_single_use recovery.sampleRand recovery.samplePlain
    (recovery.samplePlain.map recovery.hash) [] 0 "AHQX6DLT29" _ hgen (by decide) rfl
  ⟨hgen, h.1, h.2.1, by decide!, h.2.2 7 "T29GPW5CKS" (by decide) (by decide)⟩

/-- Counterexample to C3 as stated: when the random source answers `0` at every read, the
eight codes are all `AAAAAAAAAA`; the first one matches, and presented again against the
returned reduced list it matches again. -/
theorem recovery_single_use_counterexample :
    recovery.GenerateCodes (fun _ => some 0)
        = Except.ok (List.replicate 8 "AAAAAAAAAA",
            List.replicate 8 (recovery.hash "AAAAAAAAAA")) ∧
      (recovery.ValidateAndConsume "AAAAAAAAAA"
          (makeSlice [] (List.replicate 8 (recovery.hash "AAAAAAAAAA"))).1
          (makeSlice [] (List.replicate 8 (recovery.hash "AAAAAAAAAA"))).2).matched = true ∧
      (recovery.ValidateAndConsume "AAAAAAAAAA"
          (recovery.ValidateAndConsume "AAAAAAAAAA"
            (makeSlice [] (List.replicate 8 (recovery.hash "AAAAAAAAAA"))).1
            (makeSlice [] (List.replicate 8 (recovery.hash "AAAAAAAAAA"))).2).mem
          (recovery.ValidateAndConsume "AAAAAAAAAA"
            (makeSlice [] (List.replicate 8 (recovery.hash "AAAAAAAAAA"))).1
            (makeSlice [] (List.replicate 8 (recovery.hash "AAAAAAAAAA"))).2).hashes).matched
        = true := by
  decide!

/-- C5, the code at a failing input: the caller holds the slice `[hash A, hash B]`; the call
with the code `A` returns `[hash B]` and has overwritten the first cell, so that the
caller's slice now reads `[hash B, hash B]`. -/
theorem ValidateAndConsume_overwrites_caller :
    (recovery.ValidateAndConsume "AAAAAAAAAA"
        [recovery.hash "AAAAAAAAAA", recovery.hash "BBBBBBBBBB"]
        { off := 0, len := 2, cap := 2 }).matched = true ∧
      Slice.view { off := 0, len := 2, cap := 2 }
          [recovery.hash "AAAAAAAAAA", recovery.hash "BBBBBBBBBB"]
        = [recovery.hash "AAAAAAAAAA", recovery.hash "BBBBBBBBBB"] ∧
      Slice.view { off := 0, len := 2, cap := 2 }
          (recovery.ValidateAndConsume "AAAAAAAAAA"
            [recovery.hash "AAAAAAAAAA", recovery.hash "BBBBBBBBBB"]
            { off := 0, len := 2, cap := 2 }).mem
        = [recovery.hash "BBBBBBBBBB", recovery.hash "BBBBBBBBBB"] ∧
      recovery.hash "AAAAAAAAAA" ≠ recovery.hash "BBBBBBBBBB" := by
  decide!


/-! ## Lemmas on `float64` rounding -/

theorem Float64.log2Nat_spec : ∀ (fuel n : Nat), 0 < n → n ≤ fuel →
    2 ^ Float64.log2Nat fuel n ≤ n ∧ n < 2 ^ (Float64.log2Nat fuel n + 1) := by
  intro fuel
  induction fuel with
  | zero => intro n h0 h1; omega
  | succ f ih =>
    intro n h0 h1
    unfold Float64.log2Nat
    by_cases h2 : n < 2
    · rw [if_pos h2]
      constructor
      · simpa using h0
      · simpa using h2
    · rw [if_neg h2]
      obtain ⟨i1, i2⟩ := ih (n / 2) (by omega) (by omega)
      constructor
      · rw [pow_succ]
        omega
      · rw [pow_succ]
        omega

/-- The exponent of a positive rational brackets it, unless it is the least exponent. -/
theorem Float64.exponent_spec (q : ℚ) (hq : 0 < q) :
    -1022 ≤ Float64.exponent q ∧ q < (2 : ℚ) ^ (Float64.exponent q + 1) ∧
      (-1022 < Float64.exponent q → (2 : ℚ) ^ Float64.exponent q ≤ q) := by
  have hnum : 0 < q.num := Rat.num_pos.2 hq
  have hn0 : 0 < q.num.natAbs := Int.natAbs_pos.2 (ne_of_gt hnum)
  obtain ⟨a1, a2⟩ := Float64.log2Nat_spec q.num.natAbs q.num.natAbs hn0 (le_refl _)
  obtain ⟨b1, b2⟩ := Float64.log2Nat_spec q.den q.den q.den_pos (le_refl _)
  set a := Float64.log2Nat q.num.natAbs q.num.natAbs with ha
  set b := Float64.log2Nat q.den q.den with hb
  have hqeq : q = (q.num.natAbs : ℚ) / (q.den : ℚ) := by
    have h2 : (q.num.natAbs : ℚ) = (q.num : ℚ) := by
      rw [Nat.cast_natAbs, abs_of_pos hnum]
    rw [h2]
    exact (Rat.num_div_den q).symm
  have hd : (0 : ℚ) < (q.den : ℚ) := by exact_mod_cast q.den_pos
  have two : (2 : ℚ) ≠ 0 := by norm_num
  have A1 : ((2 : ℚ) ^ a) ≤ (q.num.natAbs : ℚ) := by exact_mod_cast a1
  have A2 : (q.num.natAbs : ℚ) < (2 : ℚ) ^ (a + 1) := by exact_mod_cast a2
  have B1 : ((2 : ℚ) ^ b) ≤ (q.den : ℚ) := by exact_mod_cast b1
  have B2 : (q.den : ℚ) < (2 : ℚ) ^ (b + 1) := by exact_mod_cast b2
  have hup : q < (2 : ℚ) ^ ((a : Int) - (b : Int) + 1) := by
    rw [hqeq, div_lt_iff₀ hd]
    have : (2 : ℚ) ^ ((a : Int) - (b : Int) + 1) = (2 : ℚ) ^ (a + 1) / (2 : ℚ) ^ b := by
      rw [show (a : Int) - (b : Int) + 1 = ((a + 1 : Nat) : Int) - (b : Int) by push_cast; ring,
        zpow_sub₀ two, zpow_natCast, zpow_natCast]
    rw [this, div_mul_eq_mul_div, lt_div_iff₀ (by positivity)]
    calc (q.num.natAbs : ℚ) * (2 : ℚ) ^ b < (2 : ℚ) ^ (a + 1) * (2 : ℚ) ^ b := by
          apply mul_lt_mul_of_pos_right A2 (by positivity)
      _ ≤ (2 : ℚ) ^ (a + 1) * (q.den : ℚ) := by
          apply mul_le_mul_of_nonneg_left B1 (by positivity)
  have hlow : (2 : ℚ) ^ ((a : Int) - (b : Int) - 1) ≤ q := by
    rw [hqeq, le_div_iff₀ hd]
    have : (2 : ℚ) ^ ((a : Int) - (b : Int) - 1) = (2 : ℚ) ^ a / (2 : ℚ) ^ (b + 1) := by
      rw [show (a : Int) - (b : Int) - 1 = (a : Int) - ((b + 1 : Nat) : Int) by push_cast; ring,
        zpow_sub₀ two, zpow_natCast, zpow_natCast]
    rw [this, div_mul_eq_mul_div, div_le_iff₀ (by positivity)]
    calc (2 : ℚ) ^ a * (q.den : ℚ) ≤ (2 : ℚ) ^ a * (2 : ℚ) ^ (b + 1) := by
          apply mul_le_mul_of_nonneg_left B2.le (by positivity)
      _ ≤ (q.num.natAbs : ℚ) * (2 : ℚ) ^ (b + 1) := by
          apply mul_le_mul_of_nonneg_right A1 (by positivity)
  unfold Float64.exponent
  rw [← ha, ← hb]
  by_cases hc : (2 : ℚ) ^ ((a : Int) - (b : Int)) ≤ q
  · rw [if_pos hc]
    refine ⟨le_max_right _ _, ?_, ?_⟩
    · exact lt_of_lt_of_le hup (zpow_le_zpow_right₀ (by norm_num) (by
        have := le_max_left ((a : Int) - (b : Int)) (-1022); omega))
    · intro hgt
      have : max ((a : Int) - (b : Int)) (-1022) = (a : Int) - (b : Int) := by
        apply max_eq_left
        by_contra hcon
        rw [max_eq_right (by omega)] at hgt
        omega
      rw [this]
      exact hc
  · rw [if_neg hc]
    refine ⟨le_max_right _ _, ?_, ?_⟩
    · have h1 : q < (2 : ℚ) ^ ((a : Int) - (b : Int) - 1 + 1) := by
        rw [sub_add_cancel]; exact lt_of_not_le hc
      exact lt_of_lt_of_le h1 (zpow_le_zpow_right₀ (by norm_num) (by
        have := le_max_left ((a : Int) - (b : Int) - 1) (-1022); omega))
    · intro hgt
      have : max ((a : Int) - (b : Int) - 1) (-1022) = (a : Int) - (b : Int) - 1 := by
        apply max_eq_left
        by_contra hcon
        rw [max_eq_right (by omega)] at hgt
        omega
      rw [this]
      exact hlow

theorem Float64.roundEven_bounds (x : ℚ) :
    ⌊x⌋ ≤ Float64.roundEven x ∧ Float64.roundEven x ≤ ⌊x⌋ + 1 := by
  unfold Float64.roundEven
  split_ifs <;> constructor <;> omega

theorem Float64.roundEven_intCast (n : Int) : Float64.roundEven (n : ℚ) = n := by
  unfold Float64.roundEven
  rw [Int.floor_intCast, if_pos (by norm_num)]

theorem Float64.roundEven_error (x : ℚ) :
    |(Float64.roundEven x : ℚ) - x| ≤ 1 / 2 := by
  have h1 : (⌊x⌋ : ℚ) ≤ x := Int.floor_le x
  have h2 : x < (⌊x⌋ : ℚ) + 1 := Int.lt_floor_add_one x
  unfold Float64.roundEven
  rw [abs_le]
  split_ifs with a b c
  · constructor <;> linarith
  · push_cast; constructor <;> linarith
  · constructor <;> linarith
  · push_cast; constructor <;> linarith

theorem Float64.roundEven_mono (x y : ℚ) (h : x ≤ y) :
    Float64.roundEven x ≤ Float64.roundEven y := by
  have hf : ⌊x⌋ ≤ ⌊y⌋ := Int.floor_mono h
  rcases lt_or_eq_of_le hf with hlt | heq
  · have := (Float64.roundEven_bounds x).2
    have := (Float64.roundEven_bounds y).1
    omega
  · unfold Float64.roundEven
    rw [← heq]
    split_ifs <;> first | omega | (exfalso; linarith)

theorem Float64.roundEven_nonneg (x : ℚ) (h : 0 ≤ x) : 0 ≤ Float64.roundEven x := by
  have := Float64.roundEven_mono 0 x h
  rwa [show (0 : ℚ) = ((0 : Int) : ℚ) by norm_num, Float64.roundEven_intCast] at this

theorem Float64.exponent_lt (q : ℚ) (hq : 0 < q) (k : Int) (h : q < (2 : ℚ) ^ k)
    (hk : -1022 < k) : Float64.exponent q < k := by
  obtain ⟨h1, _, h3⟩ := Float64.exponent_spec q hq
  by_contra hcon
  have hge : k ≤ Float64.exponent q := not_lt.1 hcon
  have := h3 (by omega)
  have h4 : (2 : ℚ) ^ k ≤ (2 : ℚ) ^ Float64.exponent q := zpow_le_zpow_right₀ (by norm_num) hge
  linarith

theorem Float64.exponent_ge (q : ℚ) (hq : 0 < q) (k : Int) (h : (2 : ℚ) ^ k ≤ q) :
    k ≤ Float64.exponent q := by
  obtain ⟨_, h2, _⟩ := Float64.exponent_spec q hq
  by_contra hcon
  have hlt : Float64.exponent q + 1 ≤ k := by omega
  have h4 : (2 : ℚ) ^ (Float64.exponent q + 1) ≤ (2 : ℚ) ^ k :=
    zpow_le_zpow_right₀ (by norm_num) hlt
  linarith

theorem Float64.exponent_mono (x y : ℚ) (hx : 0 < x) (h : x ≤ y) :
    Float64.exponent x ≤ Float64.exponent y := by
  obtain ⟨h1, _, h3⟩ := Float64.exponent_spec x hx
  obtain ⟨k1, _, _⟩ := Float64.exponent_spec y (lt_of_lt_of_le hx h)
  by_cases hm : -1022 < Float64.exponent x
  · exact Float64.exponent_ge y (lt_of_lt_of_le hx h) _ (le_trans (h3 hm) h)
  · omega

/-- The unit in the last place is positive. -/
theorem Float64.ulp_pos (e : Int) : (0 : ℚ) < (2 : ℚ) ^ (e - 52) := zpow_pos (by norm_num) _

theorem Float64.roundPos_upper (q : ℚ) (hq : 0 < q) :
    Float64.roundPos q ≤ (2 : ℚ) ^ (Float64.exponent q + 1) := by
  obtain ⟨_, h2, _⟩ := Float64.exponent_spec q hq
  have hu := Float64.ulp_pos (Float64.exponent q)
  have two : (2 : ℚ) ≠ 0 := by norm_num
  have hsplit : (2 : ℚ) ^ (Float64.exponent q + 1)
      = (2 : ℚ) ^ (53 : Nat) * (2 : ℚ) ^ (Float64.exponent q - 52) := by
    rw [← zpow_natCast, ← zpow_add₀ two]
    congr 1
    push_cast
    ring
  have hle : q / (2 : ℚ) ^ (Float64.exponent q - 52) ≤ (((2 : Int) ^ (53 : Nat) : Int) : ℚ) := by
    rw [div_le_iff₀ hu, Int.cast_pow, Int.cast_ofNat, ← hsplit]
    exact h2.le
  have := Float64.roundEven_mono _ _ hle
  rw [Float64.roundEven_intCast] at this
  unfold Float64.roundPos
  rw [hsplit]
  apply mul_le_mul_of_nonneg_right _ hu.le
  have hc : (((2 : Int) ^ (53 : Nat) : Int) : ℚ) = (2 : ℚ) ^ (53 : Nat) := by
    rw [Int.cast_pow, Int.cast_ofNat]
  rw [← hc]
  exact_mod_cast this

theorem Float64.roundPos_lower (q : ℚ) (hq : 0 < q) (hn : -1022 < Float64.exponent q) :
    (2 : ℚ) ^ Float64.exponent q ≤ Float64.roundPos q := by
  obtain ⟨_, _, h3⟩ := Float64.exponent_spec q hq
  have hu := Float64.ulp_pos (Float64.exponent q)
  have two : (2 : ℚ) ≠ 0 := by norm_num
  have hsplit : (2 : ℚ) ^ (Float64.exponent q)
      = (2 : ℚ) ^ (52 : Nat) * (2 : ℚ) ^ (Float64.exponent q - 52) := by
    rw [← zpow_natCast, ← zpow_add₀ two]
    congr 1
    push_cast
    ring
  have hle : (((2 : Int) ^ (52 : Nat) : Int) : ℚ) ≤ q / (2 : ℚ) ^ (Float64.exponent q - 52) := by
    rw [le_div_iff₀ hu, Int.cast_pow, Int.cast_ofNat, ← hsplit]
    exact h3 hn
  have := Float64.roundEven_mono _ _ hle
  rw [Float64.roundEven_intCast] at this
  unfold Float64.roundPos
  rw [hsplit]
  apply mul_le_mul_of_nonneg_right _ hu.le
  have hc : (((2 : Int) ^ (52 : Nat) : Int) : ℚ) = (2 : ℚ) ^ (52 : Nat) := by
    rw [Int.cast_pow, Int.cast_ofNat]
  rw [← hc]
  exact_mod_cast this

theorem Float64.roundPos_nonneg (q : ℚ) (hq : 0 < q) : 0 ≤ Float64.roundPos q := by
  unfold Float64.roundPos
  apply mul_nonneg _ (Float64.ulp_pos _).le
  have := Float64.roundEven_nonneg (q / (2 : ℚ) ^ (Float64.exponent q - 52))
    (div_nonneg hq.le (Float64.ulp_pos _).le)
  exact_mod_cast this

theorem Float64.roundPos_mono (x y : ℚ) (hx : 0 < x) (h : x ≤ y) :
    Float64.roundPos x ≤ Float64.roundPos y := by
  have hy : 0 < y := lt_of_lt_of_le hx h
  rcases lt_or_eq_of_le (Float64.exponent_mono x y hx h) with hlt | heq
  · have h1 := Float64.roundPos_upper x hx
    obtain ⟨k1, _, _⟩ := Float64.exponent_spec x hx
    have h2 := Float64.roundPos_lower y hy (by omega)
    have h3 : (2 : ℚ) ^ (Float64.exponent x + 1) ≤ (2 : ℚ) ^ Float64.exponent y :=
      zpow_le_zpow_right₀ (by norm_num) (by omega)
    linarith
  · unfold Float64.roundPos
    rw [heq]
    apply mul_le_mul_of_nonneg_right _ (Float64.ulp_pos _).le
    have := Float64.roundEven_mono (x / (2 : ℚ) ^ (Float64.exponent y - 52))
      (y / (2 : ℚ) ^ (Float64.exponent y - 52))
      (div_le_div_of_nonneg_right h (Float64.ulp_pos _).le)
    exact_mod_cast this

theorem Float64.roundPos_error (q : ℚ) :
    |Float64.roundPos q - q| ≤ (2 : ℚ) ^ (Float64.exponent q - 53) := by
  have hu := Float64.ulp_pos (Float64.exponent q)
  have two : (2 : ℚ) ≠ 0 := by norm_num
  have hhalf : (2 : ℚ) ^ (Float64.exponent q - 53)
      = 1 / 2 * (2 : ℚ) ^ (Float64.exponent q - 52) := by
    rw [show Float64.exponent q - 53 = (Float64.exponent q - 52) - 1 by ring,
      zpow_sub_one₀ two]
    ring
  have he := Float64.roundEven_error (q / (2 : ℚ) ^ (Float64.exponent q - 52))
  have key : Float64.roundPos q - q
      = ((Float64.roundEven (q / (2 : ℚ) ^ (Float64.exponent q - 52)) : ℚ)
          - q / (2 : ℚ) ^ (Float64.exponent q - 52)) * (2 : ℚ) ^ (Float64.exponent q - 52) := by
    unfold Float64.roundPos
    field_simp
  rw [key, hhalf, abs_mul, abs_of_pos hu]
  exact mul_le_mul_of_nonneg_right he hu.le

/-- A positive multiple of a power of two not below the unit in the last place is a
`float64` value. -/
theorem Float64.roundPos_dyadic (q : ℚ) (m j : Int)
    (h : q = (m : ℚ) * (2 : ℚ) ^ j) (hj : Float64.exponent q - 52 ≤ j) :
    Float64.roundPos q = q := by
  have two : (2 : ℚ) ≠ 0 := by norm_num
  obtain ⟨k, hk⟩ : ∃ k : Nat, j = Float64.exponent q - 52 + (k : Int) :=
    ⟨(j - (Float64.exponent q - 52)).toNat, by omega⟩
  have hdiv : q / (2 : ℚ) ^ (Float64.exponent q - 52) = ((m * 2 ^ k : Int) : ℚ) := by
    rw [div_eq_iff (Float64.ulp_pos _).ne']
    conv_lhs => rw [h, hk, zpow_add₀ two, zpow_natCast]
    push_cast
    ring
  unfold Float64.roundPos
  rw [hdiv, Float64.roundEven_intCast, ← hdiv]
  field_simp

theorem Float64.roundQ_neg (q : ℚ) : Float64.roundQ (- q) = - Float64.roundQ q := by
  unfold Float64.roundQ
  rcases lt_trichotomy q 0 with h | h | h
  · rw [if_neg (by linarith : ¬ -q = 0), if_pos (by linarith : 0 < -q),
      if_neg (by linarith : ¬ q = 0), if_neg (by linarith : ¬ 0 < q), neg_neg]
  · subst h; simp
  · rw [if_neg (by linarith : ¬ -q = 0), if_neg (by linarith : ¬ 0 < -q),
      if_neg (by linarith : ¬ q = 0), if_pos h, neg_neg]

theorem Float64.roundQ_pos (q : ℚ) (h : 0 < q) : Float64.roundQ q = Float64.roundPos q := by
  unfold Float64.roundQ
  rw [if_neg h.ne', if_pos h]

theorem Float64.roundQ_nonneg (q : ℚ) (h : 0 ≤ q) : 0 ≤ Float64.roundQ q := by
  rcases lt_or_eq_of_le h with h | h
  · rw [Float64.roundQ_pos q h]; exact Float64.roundPos_nonneg q h
  · subst h; simp [Float64.roundQ]

theorem Float64.roundQ_mono (x y : ℚ) (h : x ≤ y) : Float64.roundQ x ≤ Float64.roundQ y := by
  rcases lt_trichotomy x 0 with hx | hx | hx
  · rcases lt_or_le y 0 with hy | hy
    · have := Float64.roundPos_mono (- y) (- x) (by linarith) (by linarith)
      have e1 := Float64.roundQ_neg x
      have e2 := Float64.roundQ_neg y
      rw [Float64.roundQ_pos _ (by linarith)] at e1 e2
      linarith
    · have h1 := Float64.roundQ_nonneg y hy
      have h2 := Float64.roundQ_nonneg (- x) (by linarith)
      rw [Float64.roundQ_neg] at h2
      linarith
  · subst hx
    have := Float64.roundQ_nonneg y h
    simpa [Float64.roundQ] using this
  · rw [Float64.roundQ_pos x hx, Float64.roundQ_pos y (by linarith)]
    exact Float64.roundPos_mono x y hx h

/-- The rounding error is at most `M * 2^-53` for values of size at most `M`. -/
theorem Float64.roundQ_error (x M : ℚ) (hx : |x| ≤ M) (hM : (2 : ℚ) ^ (-1022 : Int) ≤ M) :
    |Float64.roundQ x - x| ≤ M * (2 : ℚ) ^ (-53 : Int) := by
  have two : (2 : ℚ) ≠ 0 := by norm_num
  have hpos : ∀ q : ℚ, 0 < q → q ≤ M →
      |Float64.roundPos q - q| ≤ M * (2 : ℚ) ^ (-53 : Int) := by
    intro q hq hqM
    obtain ⟨h1, _, h3⟩ := Float64.exponent_spec q hq
    have he := Float64.roundPos_error q
    have hsplit : (2 : ℚ) ^ (Float64.exponent q - 53)
        = (2 : ℚ) ^ Float64.exponent q * (2 : ℚ) ^ (-53 : Int) := by
      rw [← zpow_add₀ two]; rfl
    have hle : (2 : ℚ) ^ Float64.exponent q ≤ M := by
      by_cases hn : -1022 < Float64.exponent q
      · exact le_trans (h3 hn) hqM
      · have : Float64.exponent q = -1022 := by omega
        rw [this]; exact hM
    rw [hsplit] at he
    exact le_trans he (mul_le_mul_of_nonneg_right hle (zpow_pos (by norm_num) _).le)
  have hM0 : 0 ≤ M := le_trans (abs_nonneg _) hx
  rcases lt_trichotomy x 0 with h | h | h
  · have := hpos (- x) (by linarith) (by rw [abs_of_neg h] at hx; exact hx)
    have e1 := Float64.roundQ_neg x
    rw [Float64.roundQ_pos _ (by linarith)] at e1
    rw [e1, ← abs_neg] at this
    convert this using 2
    ring
  · subst h
    simp only [Float64.roundQ, if_true, sub_self, abs_zero]
    exact mul_nonneg hM0 (zpow_pos (by norm_num) _).le
  · rw [Float64.roundQ_pos x h]
    exact hpos x h (by rw [abs_of_pos h] at hx; exact hx)

theorem Float64.roundQ_pow2 (k : Nat) : Float64.roundQ ((2 : ℚ) ^ k) = (2 : ℚ) ^ k := by
  have hp : (0 : ℚ) < (2 : ℚ) ^ k := by positivity
  rw [Float64.roundQ_pos _ hp]
  apply Float64.roundPos_dyadic _ 1 (k : Int)
  · rw [zpow_natCast]; simp
  · have := Float64.exponent_lt ((2 : ℚ) ^ k) hp ((k : Int) + 1) (by
      rw [← zpow_natCast]
      exact zpow_lt_zpow_right₀ (by norm_num) (by omega)) (by omega)
    omega

/-- The integers up to `2^53` are `float64` values. -/
theorem Float64.roundQ_natCast (n : Nat) (h : n ≤ 2 ^ 53) : Float64.roundQ (n : ℚ) = n := by
  rcases Nat.eq_zero_or_pos n with h0 | h0
  · subst h0; simp [Float64.roundQ]
  rcases lt_or_eq_of_le h with hlt | heq
  · have hp : (0 : ℚ) < (n : ℚ) := by exact_mod_cast h0
    rw [Float64.roundQ_pos _ hp]
    apply Float64.roundPos_dyadic _ (n : Int) 0
    · simp
    · have hq : (n : ℚ) < (2 : ℚ) ^ (53 : Int) := by
        rw [show (53 : Int) = ((53 : Nat) : Int) by rfl, zpow_natCast]
        exact_mod_cast hlt
      have := Float64.exponent_lt (n : ℚ) hp 53 hq (by norm_num)
      omega
  · have := Float64.roundQ_pow2 53
    rw [heq]
    exact_mod_cast this

theorem Float64.roundQ_intCast (n : Int) (h : |n| ≤ 2 ^ 53) : Float64.roundQ (n : ℚ) = n := by
  rcases le_or_lt 0 n with h0 | h0
  · obtain ⟨m, rfl⟩ := Int.eq_ofNat_of_zero_le h0
    rw [abs_of_nonneg h0] at h
    have := Float64.roundQ_natCast m (by exact_mod_cast h)
    exact_mod_cast this
  · obtain ⟨m, hm⟩ := Int.eq_ofNat_of_zero_le (by omega : 0 ≤ - n)
    rw [abs_of_neg h0] at h
    have := Float64.roundQ_natCast m (by rw [hm] at h; exact_mod_cast h)
    have hn : (n : ℚ) = - (m : ℚ) := by
      have : n = - (m : Int) := by omega
      rw [this]; push_cast; ring
    rw [hn, Float64.roundQ_neg, this]

theorem Float64.roundQ_abs_le (q : ℚ) (k : Nat) (h : |q| ≤ (2 : ℚ) ^ k) :
    |Float64.roundQ q| ≤ (2 : ℚ) ^ k := by
  rw [abs_le] at h ⊢
  constructor
  · have := Float64.roundQ_mono _ _ h.1
    rwa [Float64.roundQ_neg, Float64.roundQ_pow2] at this
  · have := Float64.roundQ_mono _ _ h.2
    rwa [Float64.roundQ_pow2] at this

/-- No overflow below `2^1023`. -/
theorem Float64.round_finite (q : ℚ) (k : Nat) (h : |q| ≤ (2 : ℚ) ^ k) (hk : k ≤ 1023) :
    Float64.round q = Float64.finite (Float64.roundQ q) := by
  have h1 := Float64.roundQ_abs_le q k h
  have h2 : (2 : ℚ) ^ k < (2 : ℚ) ^ (1024 : Nat) :=
    pow_lt_pow_right₀ (by norm_num) (by omega)
  unfold Float64.round
  rw [if_neg (by linarith)]

theorem Float64.round_nonneg (q : ℚ) (h : 0 ≤ q) :
    Float64.ge (Float64.round q) (Float64.finite 0) = true := by
  unfold Float64.round
  split_ifs
  · simp [Float64.ge, not_lt.2 h]
  · simp [Float64.ge, Float64.roundQ_nonneg q h]

theorem Float64.round_ge_one (q : ℚ) (h : 1 ≤ q) :
    Float64.ge (Float64.round q) (Float64.finite 1) = true := by
  have h1 : (1 : ℚ) ≤ Float64.roundQ q := by
    have := Float64.roundQ_mono 1 q h
    have e := Float64.roundQ_pow2 0
    simp only [pow_zero] at e
    rwa [e] at this
  unfold Float64.round
  split_ifs
  · simp [Float64.ge, not_lt.2 (by linarith : (0 : ℚ) ≤ q)]
  · simp [Float64.ge, h1]

/-! ## Lemmas on the token bucket -/

theorem ratelimit.store_counters (l : ratelimit.InMemoryLimiter) (key : String)
    (b : ratelimit.bucket) :
    (l.store key b).counters key = some b ∧ (l.store key b).rate = l.rate ∧
      (l.store key b).capacity = l.capacity ∧
      ∀ k, k ≠ key → (l.store key b).counters k = l.counters k := by
  refine ⟨by simp [ratelimit.InMemoryLimiter.store], rfl, rfl, ?_⟩
  intro k hk
  simp [ratelimit.InMemoryLimiter.store, hk]

theorem ratelimit.timeSub_small (t u r : Int) (h0 : u ≤ t) (h1 : t - u < r)
    (hr : r ≤ ratelimit.maxDuration) : ratelimit.timeSub t u = t - u := by
  unfold ratelimit.timeSub
  have : ratelimit.minDuration ≤ 0 := by decide
  rw [if_neg (by omega), if_neg (by omega)]

theorem ratelimit.timeSub_large (t u r : Int) (h1 : r ≤ t - u)
    (hr : r ≤ ratelimit.maxDuration) : r ≤ ratelimit.timeSub t u := by
  unfold ratelimit.timeSub
  have : ratelimit.minDuration ≤ 0 := by decide
  have : 0 ≤ ratelimit.maxDuration := by decide
  split_ifs <;> omega

theorem ratelimit.timeSub_nonneg (t u : Int) (h0 : u ≤ t) : 0 ≤ ratelimit.timeSub t u := by
  unfold ratelimit.timeSub
  have : 0 ≤ ratelimit.maxDuration := by decide
  split_ifs <;> omega


/-! ## Lemmas on the `float64` operations of the limiter -/

theorem Float64.ofInt_nonneg (n : Int) (h : 0 ≤ n) :
    Float64.ge (Float64.ofInt n) (Float64.finite 0) = true :=
  Float64.round_nonneg _ (by exact_mod_cast h)

theorem Float64.ofInt_ge_one (n : Int) (h : 1 ≤ n) :
    Float64.ge (Float64.ofInt n) (Float64.finite 1) = true :=
  Float64.round_ge_one _ (by exact_mod_cast h)

/-- The `float64` of an integer that fits 64 bits is finite. -/
theorem Float64.ofInt_finite (n : Int) (h : |n| ≤ 2 ^ 63) :
    Float64.ofInt n = Float64.finite (Float64.roundQ (n : ℚ)) :=
  Float64.round_finite _ 63 (by exact_mod_cast h) (by norm_num)

theorem Float64.add_nonneg (x y : Float64) (hx : Float64.ge x (Float64.finite 0) = true)
    (hy : Float64.ge y (Float64.finite 0) = true) :
    Float64.ge (Float64.add x y) (Float64.finite 0) = true := by
  cases x with
  | nan => simp [Float64.ge] at hx
  | inf s =>
    cases y with
    | nan => simp [Float64.ge] at hy
    | inf s' =>
      simp only [Float64.ge, Bool.not_eq_true'] at hx hy
      subst hx hy
      simp [Float64.add, Float64.ge]
    | finite b =>
      simp only [Float64.ge, Bool.not_eq_true'] at hx
      subst hx
      simp [Float64.add, Float64.ge]
  | finite a =>
    cases y with
    | nan => simp [Float64.ge] at hy
    | inf s' =>
      simp only [Float64.ge, Bool.not_eq_true'] at hy
      subst hy
      simp [Float64.add, Float64.ge]
    | finite b =>
      simp only [Float64.ge, decide_eq_true_eq] at hx hy
      exact Float64.round_nonneg _ (by linarith)

theorem Float64.add_ge_one (x y : Float64) (hx : Float64.ge x (Float64.finite 0) = true)
    (hy : Float64.ge y (Float64.finite 1) = true) :
    Float64.ge (Float64.add x y) (Float64.finite 1) = true := by
  cases x with
  | nan => simp [Float64.ge] at hx
  | inf s =>
    cases y with
    | nan => simp [Float64.ge] at hy
    | inf s' =>
      simp only [Float64.ge, Bool.not_eq_true'] at hx hy
      subst hx hy
      simp [Float64.add, Float64.ge]
    | finite b =>
      simp only [Float64.ge, Bool.not_eq_true'] at hx
      subst hx
      simp [Float64.add, Float64.ge]
  | finite a =>
    cases y with
    | nan => simp [Float64.ge] at hy
    | inf s' =>
      simp only [Float64.ge, Bool.not_eq_true'] at hy
      subst hy
      simp [Float64.add, Float64.ge]
    | finite b =>
      simp only [Float64.ge, decide_eq_true_eq] at hx hy
      exact Float64.round_ge_one _ (by linarith)

theorem Float64.sub_one_nonneg (x : Float64) (hx : Float64.ge x (Float64.finite 1) = true) :
    Float64.ge (Float64.sub x (Float64.finite 1)) (Float64.finite 0) = true := by
  cases x with
  | nan => simp [Float64.ge] at hx
  | inf s =>
    simp only [Float64.ge, Bool.not_eq_true'] at hx
    subst hx
    simp [Float64.sub, Float64.neg, Float64.add, Float64.ge]
  | finite a =>
    simp only [Float64.ge, decide_eq_true_eq] at hx
    exact Float64.round_nonneg _ (by linarith)

/-- The refill of a time that did not go back, at a positive rate, is not below zero. -/
theorem Float64.div_ofInt_nonneg (e r : Int) (he : 0 ≤ e) (he' : e ≤ 2 ^ 63) (hr : 0 < r) :
    Float64.ge (Float64.div (Float64.ofInt e) (Float64.ofInt r)) (Float64.finite 0) = true := by
  rw [Float64.ofInt_finite e (by rw [abs_of_nonneg he]; exact he')]
  have ha : (0 : ℚ) ≤ Float64.roundQ (e : ℚ) := Float64.roundQ_nonneg _ (by exact_mod_cast he)
  have hb := Float64.ofInt_ge_one r (by omega)
  cases hr' : Float64.ofInt r with
  | nan => rw [hr'] at hb; simp [Float64.ge] at hb
  | inf s => simp [Float64.div, Float64.ge]
  | finite b =>
    rw [hr'] at hb
    simp only [Float64.ge, decide_eq_true_eq] at hb
    simp only [Float64.div, if_neg (by linarith : ¬ b = 0)]
    exact Float64.round_nonneg _ (div_nonneg ha (by linarith))

/-- The refill of a time of at least `rate` is at least one token. -/
theorem Float64.div_ofInt_ge_one (e r : Int) (hr : 0 < r) (hre : r ≤ e) (he' : e ≤ 2 ^ 63) :
    Float64.ge (Float64.div (Float64.ofInt e) (Float64.ofInt r)) (Float64.finite 1) = true := by
  rw [Float64.ofInt_finite e (by rw [abs_of_nonneg (by omega)]; exact he'),
    Float64.ofInt_finite r (by rw [abs_of_nonneg (by omega)]; omega)]
  have hb : (1 : ℚ) ≤ Float64.roundQ (r : ℚ) := by
    have := Float64.roundQ_mono 1 (r : ℚ) (by exact_mod_cast (by omega : 1 ≤ r))
    have e1 := Float64.roundQ_pow2 0
    simp only [pow_zero] at e1
    rwa [e1] at this
  have hab : Float64.roundQ (r : ℚ) ≤ Float64.roundQ (e : ℚ) :=
    Float64.roundQ_mono _ _ (by exact_mod_cast hre)
  simp only [Float64.div, if_neg (by linarith : ¬ Float64.roundQ (r : ℚ) = 0)]
  apply Float64.round_ge_one
  rw [le_div_iff₀ (by linarith)]
  linarith

/-! ## Lemmas on the limiter -/

/-- `Allow` on an existing bucket, in terms of the tokens after the refill. -/
theorem ratelimit.Allow_some (l : ratelimit.InMemoryLimiter) (now : Int) (key : String)
    (b : ratelimit.bucket) (hb : l.counters key = some b) :
    l.Allow now key
      = if Float64.ge (ratelimit.refill l now b) (Float64.finite 1) then
          (l.store key
            { tokens := Float64.sub (ratelimit.refill l now b) (Float64.finite 1)
              lastUpdate := now }, true)
        else (l.store key { tokens := ratelimit.refill l now b, lastUpdate := now }, false) := by
  unfold ratelimit.InMemoryLimiter.Allow
  rw [hb]
  rfl

theorem ratelimit.Allow_none (l : ratelimit.InMemoryLimiter) (now : Int) (key : String)
    (hb : l.counters key = none) :
    l.Allow now key
      = (l.store key { tokens := Float64.ofInt (l.capacity - 1), lastUpdate := now }, true) := by
  unfold ratelimit.InMemoryLimiter.Allow
  rw [hb]

theorem ratelimit.timeSub_le (t u : Int) : ratelimit.timeSub t u ≤ 2 ^ 63 := by
  unfold ratelimit.timeSub
  have h1 : ratelimit.maxDuration = 9223372036854775807 := rfl
  have h2 : ratelimit.minDuration = -9223372036854775808 := rfl
  split_ifs <;> omega

theorem ratelimit.refill_nonneg (l : ratelimit.InMemoryLimiter) (now : Int)
    (b : ratelimit.bucket) (hcap : 1 ≤ l.capacity) (hrate : 0 < l.rate)
    (htok : Float64.ge b.tokens (Float64.finite 0) = true) (hnow : b.lastUpdate ≤ now) :
    Float64.ge (ratelimit.refill l now b) (Float64.finite 0) = true := by
  unfold ratelimit.refill
  split_ifs
  · exact Float64.ofInt_nonneg _ (by omega)
  · exact Float64.add_nonneg _ _ htok
      (Float64.div_ofInt_nonneg _ _ (ratelimit.timeSub_nonneg now b.lastUpdate hnow)
        (ratelimit.timeSub_le _ _) hrate)

theorem ratelimit.refill_ge_one (l : ratelimit.InMemoryLimiter) (now : Int)
    (b : ratelimit.bucket) (hcap : 1 ≤ l.capacity) (hrate : 0 < l.rate)
    (hdur : l.rate ≤ ratelimit.maxDuration)
    (htok : Float64.ge b.tokens (Float64.finite 0) = true)
    (hnow : b.lastUpdate + l.rate ≤ now) :
    Float64.ge (ratelimit.refill l now b) (Float64.finite 1) = true := by
  unfold ratelimit.refill
  split_ifs
  · exact Float64.ofInt_ge_one _ hcap
  · exact Float64.add_ge_one _ _ htok
      (Float64.div_ofInt_ge_one _ _ hrate
        (ratelimit.timeSub_large now b.lastUpdate l.rate (by omega) hdur)
        (ratelimit.timeSub_le _ _))

theorem ratelimit.Allow_frame (l : ratelimit.InMemoryLimiter) (now : Int) (key : String) :
    (l.Allow now key).1.rate = l.rate ∧ (l.Allow now key).1.capacity = l.capacity ∧
      ∀ k, k ≠ key → (l.Allow now key).1.counters k = l.counters k := by
  cases hb : l.counters key with
  | none =>
    rw [ratelimit.Allow_none l now key hb]
    exact ⟨rfl, rfl, (ratelimit.store_counters l key _).2.2.2⟩
  | some b =>
    rw [ratelimit.Allow_some l now key b hb]
    split_ifs <;> exact ⟨rfl, rfl, (ratelimit.store_counters l key _).2.2.2⟩

theorem ratelimit.runCalls_frame (key : String) (calls : List (Int × String))
    (hother : ∀ c ∈ calls, c.2 ≠ key) :
    ∀ l : ratelimit.InMemoryLimiter, (l.runCalls calls).rate = l.rate ∧
      (l.runCalls calls).capacity = l.capacity ∧
      (l.runCalls calls).counters key = l.counters key := by
  induction calls with
  | nil => intro l; exact ⟨rfl, rfl, rfl⟩
  | cons c cs ih =>
    intro l
    obtain ⟨h1, h2, h3⟩ := ih (fun d hd => hother d (List.mem_cons_of_mem _ hd))
      (l.Allow c.1 c.2).1
    obtain ⟨f1, f2, f3⟩ := ratelimit.Allow_frame l c.1 c.2
    simp only [ratelimit.InMemoryLimiter.runCalls]
    exact ⟨h1.trans f1, h2.trans f2,
      h3.trans (f3 key (Ne.symm (hother c (List.mem_cons_self _ _))))⟩

theorem ratelimit.runCalls_rate (calls : List (Int × String)) :
    ∀ l : ratelimit.InMemoryLimiter, (l.runCalls calls).rate = l.rate ∧
      (l.runCalls calls).capacity = l.capacity := by
  induction calls with
  | nil => intro l; exact ⟨rfl, rfl⟩
  | cons c cs ih =>
    intro l
    obtain ⟨h1, h2⟩ := ih (l.Allow c.1 c.2).1
    obtain ⟨f1, f2, _⟩ := ratelimit.Allow_frame l c.1 c.2
    simp only [ratelimit.InMemoryLimiter.runCalls]
    exact ⟨h1.trans f1, h2.trans f2⟩

/-- The bucket of `key` after a call: updated at `now`, with tokens not below zero when the
buckets before the call were so and the clock did not go back. -/
theorem ratelimit.Allow_bucket (l : ratelimit.InMemoryLimiter) (now clock : Int) (key : String)
    (hcap : 1 ≤ l.capacity) (hrate : 0 < l.rate) (hinv : l.Inv clock) (hclock : clock ≤ now) :
    ∃ b, (l.Allow now key).1.counters key = some b ∧ b.lastUpdate = now ∧
      Float64.ge b.tokens (Float64.finite 0) = true := by
  cases hb : l.counters key with
  | none =>
    rw [ratelimit.Allow_none l now key hb]
    exact ⟨_, (ratelimit.store_counters l key _).1, rfl, Float64.ofInt_nonneg _ (by omega)⟩
  | some b =>
    obtain ⟨i1, i2⟩ := hinv key b hb
    have hre := ratelimit.refill_nonneg l now b hcap hrate i1 (by omega)
    rw [ratelimit.Allow_some l now key b hb]
    split_ifs with h1
    · exact ⟨_, (ratelimit.store_counters l key _).1, rfl, Float64.sub_one_nonneg _ h1⟩
    · exact ⟨_, (ratelimit.store_counters l key _).1, rfl, hre⟩

theorem ratelimit.Inv_Allow (l : ratelimit.InMemoryLimiter) (now clock : Int) (key : String)
    (hcap : 1 ≤ l.capacity) (hrate : 0 < l.rate) (hinv : l.Inv clock) (hclock : clock ≤ now) :
    (l.Allow now key).1.Inv now := by
  intro k b hk
  obtain ⟨f1, f2, f3⟩ := ratelimit.Allow_frame l now key
  by_cases hkey : k = key
  · subst hkey
    obtain ⟨b', hb', h1, h2⟩ := ratelimit.Allow_bucket l now clock k hcap hrate hinv hclock
    rw [hb'] at hk
    cases hk
    exact ⟨h2, by omega⟩
  · rw [f3 k hkey] at hk
    obtain ⟨i1, i2⟩ := hinv k b hk
    exact ⟨i1, by omega⟩

theorem ratelimit.Inv_runCalls (calls : List (Int × String)) (t : Int) :
    ∀ (l : ratelimit.InMemoryLimiter) (clock : Int), 1 ≤ l.capacity → 0 < l.rate →
      l.Inv clock → List.Chain (· ≤ ·) clock (calls.map Prod.fst ++ [t]) →
      ∃ clock', clock' ≤ t ∧ (l.runCalls calls).Inv clock' := by
  induction calls with
  | nil =>
    intro l clock _ _ hinv hch
    refine ⟨clock, ?_, hinv⟩
    cases hch with
    | cons h _ => exact h
  | cons c cs ih =>
    intro l clock hcap hrate hinv hch
    obtain ⟨h1, hch'⟩ : clock ≤ c.1 ∧ List.Chain (· ≤ ·) c.1 (cs.map Prod.fst ++ [t]) := by
      cases hch with
      | cons h h' => exact ⟨h, h'⟩
    obtain ⟨f1, f2, _⟩ := ratelimit.Allow_frame l c.1 c.2
    exact ih (l.Allow c.1 c.2).1 c.1 (by rw [f2]; exact hcap) (by rw [f1]; exact hrate)
      (ratelimit.Inv_Allow l c.1 clock c.2 hcap hrate hinv h1) hch'


/-! ## One call with bounded capacity -/

/-- The refill `float64(elapsed) / float64(rate)` of a time that did not go back, at a
positive rate: a finite value, the rounded quotient when both integers are at most
`2^53`. -/
theorem Float64.div_ofInt_finite (e r : Int) (he : 0 ≤ e) (he' : e ≤ 2 ^ 63) (hr : 0 < r) :
    ∃ a, Float64.div (Float64.ofInt e) (Float64.ofInt r) = Float64.finite a ∧ 0 ≤ a ∧
      a ≤ (2 : ℚ) ^ (63 : Nat) ∧
      (e ≤ 2 ^ 53 → r ≤ 2 ^ 53 → a = Float64.roundQ ((e : ℚ) / (r : ℚ))) := by
  have hfe := Float64.ofInt_finite e (by rw [abs_of_nonneg he]; exact he')
  have hfe0 : (0 : ℚ) ≤ Float64.roundQ (e : ℚ) := Float64.roundQ_nonneg _ (by exact_mod_cast he)
  have hfe1 : Float64.roundQ (e : ℚ) ≤ (2 : ℚ) ^ (63 : Nat) := by
    have := Float64.roundQ_abs_le (e : ℚ) 63 (by
      rw [abs_of_nonneg (by exact_mod_cast he)]; exact_mod_cast he')
    exact (abs_le.1 this).2
  have hfr1 : (1 : ℚ) ≤ Float64.roundQ (r : ℚ) := by
    have := Float64.roundQ_mono 1 (r : ℚ) (by exact_mod_cast (by omega : 1 ≤ r))
    have e1 := Float64.roundQ_pow2 0
    simp only [pow_zero] at e1
    rwa [e1] at this
  rw [hfe]
  by_cases hover : (2 : ℚ) ^ (1024 : Nat) ≤ |Float64.roundQ (r : ℚ)|
  · have hfr : Float64.ofInt r = Float64.inf (decide ((r : ℚ) < 0)) := by
      unfold Float64.ofInt Float64.round
      rw [if_pos hover]
    rw [hfr]
    refine ⟨0, rfl, le_refl _, by positivity, ?_⟩
    intro _ h53
    exfalso
    have := Float64.roundQ_abs_le (r : ℚ) 53 (by
      rw [abs_of_nonneg (by exact_mod_cast hr.le)]; exact_mod_cast h53)
    have h2 : (2 : ℚ) ^ (53 : Nat) < (2 : ℚ) ^ (1024 : Nat) :=
      pow_lt_pow_right₀ (by norm_num) (by norm_num)
    linarith
  · have hfr : Float64.ofInt r = Float64.finite (Float64.roundQ (r : ℚ)) := by
      unfold Float64.ofInt Float64.round
      rw [if_neg hover]
    rw [hfr]
    have hq0 : (0 : ℚ) ≤ Float64.roundQ (e : ℚ) / Float64.roundQ (r : ℚ) :=
      div_nonneg hfe0 (by linarith)
    have hq1 : Float64.roundQ (e : ℚ) / Float64.roundQ (r : ℚ) ≤ (2 : ℚ) ^ (63 : Nat) := by
      rw [div_le_iff₀ (by linarith)]
      calc Float64.roundQ (e : ℚ) ≤ (2 : ℚ) ^ (63 : Nat) := hfe1
        _ = (2 : ℚ) ^ (63 : Nat) * 1 := by ring
        _ ≤ (2 : ℚ) ^ (63 : Nat) * Float64.roundQ (r : ℚ) :=
          mul_le_mul_of_nonneg_left hfr1 (by positivity)
    have hfin := Float64.round_finite (Float64.roundQ (e : ℚ) / Float64.roundQ (r : ℚ)) 63
      (by rw [abs_of_nonneg hq0]; exact hq1) (by norm_num)
    refine ⟨Float64.roundQ (Float64.roundQ (e : ℚ) / Float64.roundQ (r : ℚ)), ?_,
      Float64.roundQ_nonneg _ hq0, ?_, ?_⟩
    · simp only [Float64.div, if_neg (by linarith : ¬ Float64.roundQ (r : ℚ) = 0), hfin]
    · have := Float64.roundQ_abs_le _ 63 (by rw [abs_of_nonneg hq0]; exact hq1)
      exact (abs_le.1 this).2
    · intro h1 h2
      rw [Float64.roundQ_intCast e (by rw [abs_of_nonneg he]; exact h1),
        Float64.roundQ_intCast r (by rw [abs_of_nonneg hr.le]; exact h2)]

/-- The tokens after the refill, for a capacity of at most `2^53` and a bucket with tokens
between zero and the capacity: a finite value between zero and the capacity, not below a
whole number of tokens that the bucket held. -/
theorem ratelimit.refill_small (l : ratelimit.InMemoryLimiter) (now last : Int) (q : ℚ)
    (hcap : 1 ≤ l.capacity) (hcap53 : l.capacity ≤ 2 ^ 53) (hrate : 0 < l.rate)
    (hq0 : 0 ≤ q) (hqC : q ≤ (l.capacity : ℚ)) (hnow : last ≤ now) :
    ∃ a s, Float64.div (Float64.ofInt (ratelimit.timeSub now last)) (Float64.ofInt l.rate)
        = Float64.finite a ∧ 0 ≤ a ∧
      ratelimit.refill l now { tokens := Float64.finite q, lastUpdate := last }
        = Float64.finite s ∧
      0 ≤ s ∧ s ≤ (l.capacity : ℚ) ∧ s ≤ Float64.roundQ (q + a) ∧
      (∀ m : Nat, (m : ℚ) ≤ q → (m : ℚ) ≤ (l.capacity : ℚ) → (m : ℚ) ≤ s) ∧
      (s = (l.capacity : ℚ) ∨ s = Float64.roundQ (q + a)) ∧
      (ratelimit.timeSub now last ≤ 2 ^ 53 → l.rate ≤ 2 ^ 53 →
        a = Float64.roundQ ((ratelimit.timeSub now last : ℚ) / (l.rate : ℚ))) := by
  obtain ⟨a, ha, ha0, ha1, haeq⟩ := Float64.div_ofInt_finite (ratelimit.timeSub now last) l.rate
    (ratelimit.timeSub_nonneg now last hnow) (ratelimit.timeSub_le _ _) hrate
  have hC0 : (0 : ℚ) ≤ (l.capacity : ℚ) := by exact_mod_cast (by omega : 0 ≤ l.capacity)
  have hC53 : (l.capacity : ℚ) ≤ (2 : ℚ) ^ (53 : Nat) := by exact_mod_cast hcap53
  have hcapf : Float64.ofInt l.capacity = Float64.finite (l.capacity : ℚ) := by
    rw [Float64.ofInt_finite l.capacity (by rw [abs_of_nonneg (by omega)]; omega),
      Float64.roundQ_intCast l.capacity (by rw [abs_of_nonneg (by omega)]; exact hcap53)]
  have hsum : |q + a| ≤ (2 : ℚ) ^ (64 : Nat) := by
    rw [abs_of_nonneg (by linarith)]
    have : (2 : ℚ) ^ (64 : Nat) = (2 : ℚ) ^ (63 : Nat) + (2 : ℚ) ^ (63 : Nat) := by norm_num
    have h53 : (2 : ℚ) ^ (53 : Nat) ≤ (2 : ℚ) ^ (63 : Nat) :=
      pow_le_pow_right₀ (by norm_num) (by norm_num)
    linarith
  have hadd : Float64.add (Float64.finite q) (Float64.finite a)
      = Float64.finite (Float64.roundQ (q + a)) := by
    simp only [Float64.add]
    exact Float64.round_finite _ 64 hsum (by norm_num)
  have hs0 : (0 : ℚ) ≤ Float64.roundQ (q + a) := Float64.roundQ_nonneg _ (by linarith)
  refine ⟨a, if (l.capacity : ℚ) < Float64.roundQ (q + a) then (l.capacity : ℚ)
    else Float64.roundQ (q + a), ha, ha0, ?_, ?_, ?_, ?_, ?_, ?_, haeq⟩
  · unfold ratelimit.refill
    simp only [ha, hadd, hcapf, Float64.gt]
    by_cases hc : (l.capacity : ℚ) < Float64.roundQ (q + a)
    · simp [hc]
    · simp [hc]
  · split_ifs
    · exact hC0
    · exact hs0
  · split_ifs with hc
    · exact le_refl _
    · exact not_lt.1 hc
  · split_ifs with hc
    · exact hc.le
    · exact le_refl _
  · intro m hm hmC
    have hmono : (m : ℚ) ≤ Float64.roundQ (q + a) := by
      have h1 := Float64.roundQ_mono (m : ℚ) (q + a) (by linarith)
      have hm53 : m ≤ 2 ^ 53 := by
        have : (m : ℚ) ≤ (2 : ℚ) ^ (53 : Nat) := le_trans hmC hC53
        exact_mod_cast this
      rwa [Float64.roundQ_natCast m hm53] at h1
    split_ifs
    · exact hmC
    · exact hmono
  · split_ifs
    · exact Or.inl rfl
    · exact Or.inr rfl

/-- Taking one token from at least one and at most `capacity ≤ 2^53` tokens. -/
theorem ratelimit.sub_one_small (s C : ℚ) (h1 : 1 ≤ s) (hsC : s ≤ C)
    (hC : C ≤ (2 : ℚ) ^ (53 : Nat)) (hCint : ∃ n : Nat, C = n) :
    Float64.sub (Float64.finite s) (Float64.finite 1) = Float64.finite (Float64.roundQ (s - 1)) ∧
      0 ≤ Float64.roundQ (s - 1) ∧ Float64.roundQ (s - 1) ≤ C ∧
      Float64.roundQ (s - 1) ≤ s - 1 + (C + 1) * (2 : ℚ) ^ (-53 : Int) ∧
      (∀ m : Nat, (m : ℚ) + 1 ≤ s → (m : ℚ) ≤ Float64.roundQ (s - 1)) := by
  obtain ⟨n, hn⟩ := hCint
  have hn53 : n ≤ 2 ^ 53 := by
    rw [hn] at hC
    exact_mod_cast hC
  have habs : |s - 1| ≤ (2 : ℚ) ^ (53 : Nat) := by
    rw [abs_of_nonneg (by linarith)]; linarith
  refine ⟨?_, Float64.roundQ_nonneg _ (by linarith), ?_, ?_, ?_⟩
  · simp only [Float64.sub, Float64.neg, Float64.add]
    rw [show s + -1 = s - 1 by ring]
    exact Float64.round_finite _ 53 habs (by norm_num)
  · have := Float64.roundQ_mono (s - 1) C (by linarith)
    rwa [hn, Float64.roundQ_natCast n hn53, ← hn] at this
  · have herr := Float64.roundQ_error (s - 1) (C + 1) (by
      rw [abs_of_nonneg (by linarith)]; linarith) (by
      have : (2 : ℚ) ^ (-1022 : Int) ≤ 1 := zpow_le_one_of_nonpos₀ (by norm_num) (by norm_num)
      linarith)
    have := (abs_le.1 herr).2
    linarith
  · intro m hm
    have hm53 : m ≤ 2 ^ 53 := by
      have : (m : ℚ) ≤ (2 : ℚ) ^ (53 : Nat) := by linarith
      exact_mod_cast this
    have := Float64.roundQ_mono (m : ℚ) (s - 1) (by linarith)
    rwa [Float64.roundQ_natCast m hm53] at this

/-! ## The rounding error of one call -/

/-- The tokens after the refill when `(capacity + 1) * rate ≤ 2^53`: within
`3 (capacity + 1) / 2^53` of the tokens before plus `elapsed / rate`, or cut at the
capacity. -/
theorem ratelimit.refill_bounds (l : ratelimit.InMemoryLimiter) (now last : Int) (q : ℚ)
    (hcap : 1 ≤ l.capacity) (hrate : 0 < l.rate) (hsmall : (l.capacity + 1) * l.rate ≤ 2 ^ 53)
    (hq0 : 0 ≤ q) (hqC : q ≤ (l.capacity : ℚ)) (hnow : last ≤ now) :
    ∃ s, ratelimit.refill l now { tokens := Float64.finite q, lastUpdate := last }
        = Float64.finite s ∧
      0 ≤ s ∧ s ≤ (l.capacity : ℚ) ∧
      s ≤ q + ((now : ℚ) - (last : ℚ)) / (l.rate : ℚ) + 3 * ((l.capacity : ℚ) + 1) / 2 ^ 53 ∧
      (∀ m : Nat, (m : ℚ) ≤ q → (m : ℚ) ≤ (l.capacity : ℚ) → (m : ℚ) ≤ s) ∧
      (now - last < l.rate → s = (l.capacity : ℚ) ∨
        q + ((now : ℚ) - (last : ℚ)) / (l.rate : ℚ) - 3 * ((l.capacity : ℚ) + 1) / 2 ^ 53
          ≤ s) := by
  have hC53 : l.capacity + 1 ≤ 2 ^ 53 := by nlinarith
  have hr53 : l.rate ≤ 2 ^ 53 := by nlinarith
  have hr : (0 : ℚ) < (l.rate : ℚ) := by exact_mod_cast hrate
  have hC1 : (1 : ℚ) ≤ (l.capacity : ℚ) := by exact_mod_cast hcap
  have hz : (2 : ℚ) ^ (-53 : Int) = 1 / 2 ^ 53 := by
    rw [zpow_neg, one_div]
    norm_cast
  have hM1 : (2 : ℚ) ^ (-1022 : Int) ≤ (l.capacity : ℚ) + 1 := by
    have : (2 : ℚ) ^ (-1022 : Int) ≤ 1 := zpow_le_one_of_nonpos₀ (by norm_num) (by norm_num)
    linarith
  have hM2 : (2 : ℚ) ^ (-1022 : Int) ≤ 2 * ((l.capacity : ℚ) + 1) := by linarith
  obtain ⟨a, s, -, ha0, hs, hs0, hsC, hsle, hm, hseq, haeq⟩ :=
    ratelimit.refill_small l now last q hcap (by omega) hrate hq0 hqC hnow
  have he0 : (0 : ℚ) ≤ (ratelimit.timeSub now last : ℚ) := by
    exact_mod_cast ratelimit.timeSub_nonneg now last hnow
  have he1 : (ratelimit.timeSub now last : ℚ) ≤ (now : ℚ) - (last : ℚ) := by
    have : ratelimit.timeSub now last ≤ now - last := by
      unfold ratelimit.timeSub
      have : ratelimit.minDuration ≤ 0 := by decide
      split_ifs <;> omega
    exact_mod_cast this
  have hx1 : (ratelimit.timeSub now last : ℚ) / (l.rate : ℚ)
      ≤ ((now : ℚ) - (last : ℚ)) / (l.rate : ℚ) := div_le_div_of_nonneg_right he1 hr.le
  have hx0 : (0 : ℚ) ≤ (ratelimit.timeSub now last : ℚ) / (l.rate : ℚ) := div_nonneg he0 hr.le
  -- the two roundings, when the refill is at most capacity + 1
  have hround : ratelimit.timeSub now last ≤ (l.capacity + 1) * l.rate →
      |Float64.roundQ (q + a) - (q + (ratelimit.timeSub now last : ℚ) / (l.rate : ℚ))|
        ≤ 3 * ((l.capacity : ℚ) + 1) / 2 ^ 53 := by
    intro he
    have hxle : (ratelimit.timeSub now last : ℚ) / (l.rate : ℚ) ≤ (l.capacity : ℚ) + 1 := by
      rw [div_le_iff₀ hr]
      exact_mod_cast he
    have ha := haeq (by omega) hr53
    have herr1 := Float64.roundQ_error _ ((l.capacity : ℚ) + 1)
      (by rw [abs_of_nonneg hx0]; exact hxle) hM1
    rw [← ha] at herr1
    have haC : a ≤ (l.capacity : ℚ) + 1 := by
      have h1 := Float64.roundQ_mono _ _ hxle
      have h2 := Float64.roundQ_intCast (l.capacity + 1)
        (by rw [abs_of_nonneg (by omega)]; exact hC53)
      rw [← ha] at h1
      push_cast at h2
      rwa [h2] at h1
    have herr2 := Float64.roundQ_error (q + a) (2 * ((l.capacity : ℚ) + 1))
      (by rw [abs_of_nonneg (by linarith)]; linarith) hM2
    rw [hz] at herr1 herr2
    rw [abs_le] at herr1 herr2 ⊢
    constructor
    · linarith [herr1.1, herr2.1]
    · linarith [herr1.2, herr2.2]
  refine ⟨s, hs, hs0, hsC, ?_, hm, ?_⟩
  · by_cases he : ratelimit.timeSub now last ≤ (l.capacity + 1) * l.rate
    · have := (abs_le.1 (hround he)).2
      linarith
    · have hlt : ((l.capacity : ℚ) + 1) * (l.rate : ℚ) < (ratelimit.timeSub now last : ℚ) := by
        exact_mod_cast not_le.1 he
      have : (l.capacity : ℚ) + 1 < (ratelimit.timeSub now last : ℚ) / (l.rate : ℚ) := by
        rwa [lt_div_iff₀ hr]
      have hpos : (0 : ℚ) ≤ 3 * ((l.capacity : ℚ) + 1) / 2 ^ 53 := by positivity
      linarith
  · intro hlt
    have hts : ratelimit.timeSub now last = now - last :=
      ratelimit.timeSub_small now last l.rate hnow hlt (by
        have : ratelimit.maxDuration = 9223372036854775807 := rfl
        omega)
    have he : ratelimit.timeSub now last ≤ (l.capacity + 1) * l.rate := by
      rw [hts]; nlinarith
    have hx : (ratelimit.timeSub now last : ℚ) = (now : ℚ) - (last : ℚ) := by
      rw [hts]; push_cast; ring
    rcases hseq with h | h
    · exact Or.inl h
    · right
      have := (abs_le.1 (hround he)).1
      rw [h, ← hx]
      linarith

/-- One call on a bucket with a finite number of tokens between zero and the capacity, when
`(capacity + 1) * rate ≤ 2^53`: the tokens left, plus one for an allowed call, are at most
the tokens before plus `(now - last) / rate` plus `(capacity + 1) / 2^51`; a whole token in
the bucket is spent by an allowed call; and a call less than `rate` after the last one is
allowed or leaves at least the tokens before plus `(now - last) / rate` minus
`(capacity + 1) / 2^51`. -/
theorem ratelimit.Allow_finite (l : ratelimit.InMemoryLimiter) (key : String) (now last : Int)
    (q : ℚ) (hcap : 1 ≤ l.capacity) (hrate : 0 < l.rate)
    (hsmall : (l.capacity + 1) * l.rate ≤ 2 ^ 53) (hq0 : 0 ≤ q) (hqC : q ≤ (l.capacity : ℚ))
    (hnow : last ≤ now)
    (hb : l.counters key = some { tokens := Float64.finite q, lastUpdate := last }) :
    ∃ q', (l.Allow now key).1 = l.store key { tokens := Float64.finite q', lastUpdate := now } ∧
      0 ≤ q' ∧ q' ≤ (l.capacity : ℚ) ∧
      (if (l.Allow now key).2 = true then (1 : ℚ) else 0) + q'
        ≤ q + ((now : ℚ) - (last : ℚ)) / (l.rate : ℚ) + ((l.capacity : ℚ) + 1) / 2 ^ 51 ∧
      (∀ m : Nat, (m : ℚ) + 1 ≤ q → (m : ℚ) + 1 ≤ (l.capacity : ℚ) →
        (l.Allow now key).2 = true ∧ (m : ℚ) ≤ q') ∧
      ((l.Allow now key).2 = false → q' < 1) ∧
      (now - last < l.rate → (l.Allow now key).2 = true ∨
        q + ((now : ℚ) - (last : ℚ)) / (l.rate : ℚ) - ((l.capacity : ℚ) + 1) / 2 ^ 51 ≤ q') := by
  have hC53 : l.capacity + 1 ≤ 2 ^ 53 := by nlinarith
  have hC1 : (1 : ℚ) ≤ (l.capacity : ℚ) := by exact_mod_cast hcap
  have hCq : (l.capacity : ℚ) ≤ (2 : ℚ) ^ (53 : Nat) := by
    have : l.capacity ≤ 2 ^ 53 := by omega
    exact_mod_cast this
  have hz : (2 : ℚ) ^ (-53 : Int) = 1 / 2 ^ 53 := by
    rw [zpow_neg, one_div]
    norm_cast
  have h51 : ((l.capacity : ℚ) + 1) / 2 ^ 51 = 4 * ((l.capacity : ℚ) + 1) / 2 ^ 53 := by
    rw [div_eq_div_iff (by positivity) (by positivity)]
    ring
  have hpos : (0 : ℚ) ≤ ((l.capacity : ℚ) + 1) / 2 ^ 53 := by positivity
  obtain ⟨s, hs, hs0, hsC, hup, hm, hlow⟩ :=
    ratelimit.refill_bounds l now last q hcap hrate hsmall hq0 hqC hnow
  rw [ratelimit.Allow_some l now key _ hb, hs, h51]
  by_cases h1 : 1 ≤ s
  · obtain ⟨e1, e2, e3, e4, e5⟩ := ratelimit.sub_one_small s (l.capacity : ℚ) h1 hsC hCq
      ⟨l.capacity.toNat, by
        have : l.capacity = (l.capacity.toNat : Int) := by omega
        exact_mod_cast this⟩
    rw [if_pos (by simp [Float64.ge, h1]), e1]
    rw [hz] at e4
    refine ⟨_, rfl, e2, e3, ?_, ?_, ?_, ?_⟩
    · simp only [if_true]
      linarith
    · intro m hmq hmC
      exact ⟨rfl, e5 m (by
        have := hm (m + 1) (by push_cast; exact hmq) (by push_cast; exact hmC)
        push_cast at this
        exact this)⟩
    · intro h; cases h
    · intro _; exact Or.inl rfl
  · rw [if_neg (by simp [Float64.ge, h1])]
    refine ⟨s, rfl, hs0, hsC, ?_, ?_, ?_, ?_⟩
    · simp only [Bool.false_eq_true, if_false]
      linarith
    · intro m hmq hmC
      exfalso
      have := hm (m + 1) (by push_cast; exact hmq) (by push_cast; exact hmC)
      push_cast at this
      have hm0 : (0 : ℚ) ≤ (m : ℚ) := Nat.cast_nonneg m
      linarith
    · intro _; exact not_le.1 h1
    · intro hlt
      right
      rcases hlow hlt with h | h
      · exfalso; linarith
      · linarith

/-- The precision bound in rational form: `n` roundings of `(capacity + 1) / 2^51` stay
within `1 / rate`. -/
theorem ratelimit.precision (n C r : Int) (hr : 0 < r)
    (h : n * (C + 1) * r ≤ 2 ^ 51) :
    (n : ℚ) * (((C : ℚ) + 1) / 2 ^ 51) ≤ 1 / (r : ℚ) := by
  have hrq : (0 : ℚ) < (r : ℚ) := by exact_mod_cast hr
  have hq : (n : ℚ) * ((C : ℚ) + 1) * (r : ℚ) ≤ 2 ^ 51 := by exact_mod_cast h
  rw [le_div_iff₀ hrq, mul_div_assoc', div_mul_eq_mul_div, div_le_iff₀ (by positivity)]
  linarith

theorem ratelimit.runAllow_within (key : String) (t0 : Int) (m : Nat) :
    ∀ (ts : List Int) (l : ratelimit.InMemoryLimiter) (last : Int) (q : ℚ),
      ts.length = m + 1 → 0 < l.rate → (m : Int) + 1 ≤ l.capacity →
      (l.capacity + 1) * (l.capacity + 1) * l.rate ≤ 2 ^ 51 →
      l.counters key = some { tokens := Float64.finite q, lastUpdate := last } →
      (m : ℚ) ≤ q →
      q ≤ (m : ℚ) + ((last : ℚ) - (t0 : ℚ)) / (l.rate : ℚ)
        + ((l.capacity : ℚ) - 1 - (m : ℚ)) * (((l.capacity : ℚ) + 1) / 2 ^ 51) →
      t0 ≤ last → List.Chain (· ≤ ·) last ts → (∀ t ∈ ts, t < t0 + l.rate) →
      (l.runAllow key ts).2 = List.replicate m true ++ [false] := by
  induction m with
  | zero =>
    intro ts l last q hlen hrate hm hprec hb hq0 hq1 h0 hch hw
    match ts, hlen with
    | [t], _ =>
      have h1 : last ≤ t := by
        cases hch with
        | cons h _ => exact h
      have ht := hw t (List.mem_singleton.2 rfl)
      have hcap : 1 ≤ l.capacity := by simpa using hm
      have hr : (0 : ℚ) < (l.rate : ℚ) := by exact_mod_cast hrate
      have hC1 : (1 : ℚ) ≤ (l.capacity : ℚ) := by exact_mod_cast hcap
      have hsmall : (l.capacity + 1) * l.rate ≤ 2 ^ 53 := by nlinarith
      have hp := ratelimit.precision (l.capacity + 1) l.capacity l.rate hrate hprec
      have heta : (0 : ℚ) < ((l.capacity : ℚ) + 1) / 2 ^ 51 := by positivity
      push_cast at hp hq0 hq1
      have hlast : ((last : ℚ) - (t0 : ℚ)) / (l.rate : ℚ) + 1 / (l.rate : ℚ) ≤ 1 := by
        rw [← add_div, div_le_one hr]
        have : last - t0 + 1 ≤ l.rate := by omega
        exact_mod_cast this
      have htq : ((t : ℚ) - (t0 : ℚ)) / (l.rate : ℚ) + 1 / (l.rate : ℚ) ≤ 1 := by
        rw [← add_div, div_le_one hr]
        have : t - t0 + 1 ≤ l.rate := by omega
        exact_mod_cast this
      have hsplit : ((t : ℚ) - (t0 : ℚ)) / (l.rate : ℚ)
          = ((last : ℚ) - (t0 : ℚ)) / (l.rate : ℚ) + ((t : ℚ) - (last : ℚ)) / (l.rate : ℚ) := by
        rw [← add_div]; congr 1; ring
      obtain ⟨q', -, hq'0, -, hsum, -, -, -⟩ := ratelimit.Allow_finite l key t last q hcap hrate
        hsmall hq0 (by nlinarith) h1 hb
      have hres : (l.Allow t key).2 = false := by
        cases hres : (l.Allow t key).2
        · rfl
        · exfalso
          rw [hres, if_pos rfl] at hsum
          nlinarith
      simp only [ratelimit.InMemoryLimiter.runAllow, hres]
      rfl
  | succ m ih =>
    intro ts l last q hlen hrate hm hprec hb hq0 hq1 h0 hch hw
    match ts, hlen with
    | t :: ts', hlen' =>
      obtain ⟨h1, hch'⟩ : last ≤ t ∧ List.Chain (· ≤ ·) t ts' := by
        cases hch with
        | cons h h' => exact ⟨h, h'⟩
      have ht := hw t (List.mem_cons_self _ _)
      have hcap : 1 ≤ l.capacity := by omega
      have hr : (0 : ℚ) < (l.rate : ℚ) := by exact_mod_cast hrate
      have hC1 : (1 : ℚ) ≤ (l.capacity : ℚ) := by exact_mod_cast hcap
      have hmC : (m : ℚ) + 1 + 1 ≤ (l.capacity : ℚ) := by exact_mod_cast hm
      have hsmall : (l.capacity + 1) * l.rate ≤ 2 ^ 53 := by nlinarith
      have hp := ratelimit.precision (l.capacity + 1) l.capacity l.rate hrate hprec
      have heta : (0 : ℚ) < ((l.capacity : ℚ) + 1) / 2 ^ 51 := by positivity
      have hm0 : (0 : ℚ) ≤ (m : ℚ) := Nat.cast_nonneg m
      push_cast at hp hq0 hq1
      have hlast : ((last : ℚ) - (t0 : ℚ)) / (l.rate : ℚ) + 1 / (l.rate : ℚ) ≤ 1 := by
        rw [← add_div, div_le_one hr]
        have : last - t0 + 1 ≤ l.rate := by omega
        exact_mod_cast this
      have hsplit : ((t : ℚ) - (t0 : ℚ)) / (l.rate : ℚ)
          = ((last : ℚ) - (t0 : ℚ)) / (l.rate : ℚ) + ((t : ℚ) - (last : ℚ)) / (l.rate : ℚ) := by
        rw [← add_div]; congr 1; ring
      obtain ⟨q', hst, hq'0, -, hsum, hwhole, -, -⟩ := ratelimit.Allow_finite l key t last q hcap
        hrate hsmall (by linarith) (by nlinarith) h1 hb
      obtain ⟨hres, hmq'⟩ := hwhole m hq0 (by linarith)
      rw [hres, if_pos rfl] at hsum
      have hrec := ih ts' (l.store key { tokens := Float64.finite q', lastUpdate := t }) t q'
        (by simpa using hlen') hrate (by show (m : Int) + 1 ≤ l.capacity; omega) hprec
        (ratelimit.store_counters l key _).1 hmq'
        (by
          show q' ≤ (m : ℚ) + ((t : ℚ) - (t0 : ℚ)) / (l.rate : ℚ)
            + ((l.capacity : ℚ) - 1 - (m : ℚ)) * (((l.capacity : ℚ) + 1) / 2 ^ 51)
          rw [hsplit]
          nlinarith)
        (by omega) hch' (fun u hu => hw u (List.mem_cons_of_mem _ hu))
      have hrun : (l.runAllow key (t :: ts')).2
          = (l.Allow t key).2 :: ((l.Allow t key).1.runAllow key ts').2 := rfl
      rw [hrun, hst, hrec, hres]
      simp [List.replicate_succ]

/-- C6, as amended: for every limiter with capacity ≥ 1 and rate > 0 such that
`(capacity + 1)^2 * rate ≤ 2^51` and every identity without a bucket, `capacity + 1` calls
at non-decreasing times, all less than one `rate` after the first call: the first
`capacity` calls return true, the first one leaving `capacity - 1` tokens, and the last
call returns false. -/
theorem Allow_burst (l : ratelimit.InMemoryLimiter) (key : String) (t0 : Int) (rest : List Int)
    (hcap : 1 ≤ l.capacity) (hrate : 0 < l.rate)
    (hprec : (l.capacity + 1) * (l.capacity + 1) * l.rate ≤ 2 ^ 51)
    (hfresh : l.counters key = none) (hlen : (rest.length : Int) = l.capacity)
    (hmono : List.Chain (· ≤ ·) t0 rest) (hwithin : ∀ t ∈ rest, t < t0 + l.rate) :
    (l.runAllow key (t0 :: rest)).2 = List.replicate rest.length true ++ [false] ∧
      (l.Allow t0 key).1.counters key
        = some { tokens := Float64.finite ((l.capacity : ℚ) - 1), lastUpdate := t0 } := by
  have hC53 : l.capacity ≤ 2 ^ 53 := by nlinarith
  have htok : Float64.ofInt (l.capacity - 1) = Float64.finite ((l.capacity : ℚ) - 1) := by
    rw [Float64.ofInt_finite _ (by rw [abs_of_nonneg (by omega)]; omega),
      Float64.roundQ_intCast _ (by rw [abs_of_nonneg (by omega)]; omega)]
    push_cast
    rfl
  have hfirst : l.Allow t0 key
      = (l.store key { tokens := Float64.finite ((l.capacity : ℚ) - 1), lastUpdate := t0 },
          true) := by
    rw [ratelimit.Allow_none l t0 key hfresh, htok]
  obtain ⟨m, hm⟩ : ∃ m : Nat, rest.length = m + 1 := ⟨rest.length - 1, by omega⟩
  have hcapm : l.capacity = (m : Int) + 1 := by rw [← hlen, hm]; push_cast; ring
  have hcapq : (l.capacity : ℚ) = (m : ℚ) + 1 := by rw [hcapm]; push_cast; ring
  have hrec := ratelimit.runAllow_within key t0 m rest
    (l.store key { tokens := Float64.finite ((l.capacity : ℚ) - 1), lastUpdate := t0 }) t0
    ((l.capacity : ℚ) - 1) hm hrate (by show (m : Int) + 1 ≤ l.capacity; omega) hprec
    (ratelimit.store_counters l key _).1 (by rw [hcapq]; linarith)
    (by
      show (l.capacity : ℚ) - 1 ≤ (m : ℚ) + ((t0 : ℚ) - (t0 : ℚ)) / (l.rate : ℚ)
        + ((l.capacity : ℚ) - 1 - (m : ℚ)) * (((l.capacity : ℚ) + 1) / 2 ^ 51)
      rw [hcapq]
      simp)
    (le_refl _) hmono hwithin
  constructor
  · have hrun : (l.runAllow key (t0 :: rest)).2
        = (l.Allow t0 key).2 :: ((l.Allow t0 key).1.runAllow key rest).2 := rfl
    rw [hrun, hfirst, hrec, hm]
    simp [List.replicate_succ]
  · rw [hfirst, (ratelimit.store_counters l key _).1]

/-- Witness of C6: capacity 3, rate 30 s, four calls at the same instant. -/
theorem Allow_burst_witness :
    ((ratelimit.NewInMemoryLimiter 30000000000 3).runAllow "alice" [0, 0, 0, 0]).2
        = [true, true, true, false] ∧
      ((ratelimit.NewInMemoryLimiter 30000000000 3).Allow 0 "alice").1.counters "alice"
        = some { tokens := Float64.finite 2, lastUpdate := 0 } := by
  have h := Allow_burst (ratelimit.NewInMemoryLimiter 30000000000 3) "alice" 0 [0, 0, 0]
    (by decide) (by decide) (by decide) rfl rfl (by simp)
    (by simp [ratelimit.NewInMemoryLimiter])
  refine ⟨h.1, h.2.trans ?_⟩
  norm_num [ratelimit.NewInMemoryLimiter]

/-- Counterexample to C6 as stated: capacity 1, rate `2^62` ns; the second call, one
nanosecond less than one `rate` after the first, is allowed, because
`float64(2^62 - 1) / float64(2^62)` is 1. -/
theorem Allow_burst_counterexample :
    (1 : Int) ≤ (ratelimit.NewInMemoryLimiter 4611686018427387904 1).capacity ∧
      (0 : Int) < (ratelimit.NewInMemoryLimiter 4611686018427387904 1).rate ∧
      (ratelimit.NewInMemoryLimiter 4611686018427387904 1).counters "alice" = none ∧
      (([4611686018427387903] : List Int).length : Int)
        = (ratelimit.NewInMemoryLimiter 4611686018427387904 1).capacity ∧
      List.Chain (· ≤ ·) (0 : Int) [4611686018427387903] ∧
      (∀ t ∈ ([4611686018427387903] : List Int),
        t < 0 + (ratelimit.NewInMemoryLimiter 4611686018427387904 1).rate) ∧
      ((ratelimit.NewInMemoryLimiter 4611686018427387904 1).runAllow "alice"
        (0 :: [4611686018427387903])).2 = [true, true] ∧
      ((ratelimit.NewInMemoryLimiter 4611686018427387904 1).runAllow "alice"
        (0 :: [4611686018427387903])).2
        ≠ List.replicate ([4611686018427387903] : List Int).length true ++ [false] := by
  refine ⟨by decide, by decide, rfl, rfl, by simp, by simp [ratelimit.NewInMemoryLimiter],
    by decide!, by decide!⟩

/-! ## An empty bucket -/

/-- C8: in every limiter state reached from `NewInMemoryLimiter(rate, capacity)`
(capacity ≥ 1, rate > 0) by calls at non-decreasing times: if `Allow(key)` returns false
at time `t`, then the next `Allow(key)`, made at any time `≥ t + rate` (calls for other
identities may come in between), returns true.  This holds of the `float64` arithmetic:
rounding keeps the order, so the tokens left by a call are not below zero and the refill
of a time of at least `rate` is at least one. -/
theorem Allow_after_wait (rate capacity : Int) (calls others : List (Int × String))
    (key : String) (t t' : Int) (hcap : 1 ≤ capacity) (hrate : 0 < rate)
    (hdur : rate ≤ ratelimit.maxDuration)
    (hmono : List.Chain' (· ≤ ·) (calls.map Prod.fst ++ [t]))
    (hdenied :
      (((ratelimit.NewInMemoryLimiter rate capacity).runCalls calls).Allow t key).2 = false)
    (hothers : ∀ c ∈ others, c.2 ≠ key) (hwait : t + rate ≤ t') :
    (((((ratelimit.NewInMemoryLimiter rate capacity).runCalls calls).Allow t key).1.runCalls
      others).Allow t' key).2 = true := by
  have hinit : ∀ clock, (ratelimit.NewInMemoryLimiter rate capacity).Inv clock := by
    intro clock k b hk
    simp [ratelimit.NewInMemoryLimiter] at hk
  obtain ⟨clock, hchain⟩ : ∃ clock, List.Chain (· ≤ ·) clock (calls.map Prod.fst ++ [t]) := by
    cases calls with
    | nil => exact ⟨t, List.Chain.cons (le_refl _) List.Chain.nil⟩
    | cons c cs => exact ⟨c.1, List.Chain.cons (le_refl _) hmono⟩
  obtain ⟨r1, r2⟩ := ratelimit.runCalls_rate calls (ratelimit.NewInMemoryLimiter rate capacity)
  obtain ⟨clock', hclock', hinv⟩ := ratelimit.Inv_runCalls calls t
    (ratelimit.NewInMemoryLimiter rate capacity) clock hcap hrate (hinit clock) hchain
  generalize (ratelimit.NewInMemoryLimiter rate capacity).runCalls calls = l1 at *
  have hr1 : l1.rate = rate := r1
  have hc1 : l1.capacity = capacity := r2
  obtain ⟨b, hb, hlast, htok0⟩ := ratelimit.Allow_bucket l1 t clock' key
    (by rw [hc1]; exact hcap) (by rw [hr1]; exact hrate) hinv hclock'
  obtain ⟨f1, f2, _⟩ := ratelimit.Allow_frame l1 t key
  obtain ⟨g1, g2, g3⟩ := ratelimit.runCalls_frame key others hothers (l1.Allow t key).1
  generalize ((l1.Allow t key).1.runCalls others) = l3 at *
  have hb3 : l3.counters key = some b := by rw [g3, hb]
  have hr3 : l3.rate = rate := by rw [g1, f1, hr1]
  have hc3 : l3.capacity = capacity := by rw [g2, f2, hc1]
  have hge := ratelimit.refill_ge_one l3 t' b (by rw [hc3]; exact hcap)
    (by rw [hr3]; exact hrate) (by rw [hr3]; exact hdur) htok0 (by rw [hlast, hr3]; exact hwait)
  rw [ratelimit.Allow_some l3 t' key b hb3, if_pos hge]

/-- Witness of C8: capacity 3, rate 30 s; three calls at time 0, the call at 5 s is denied,
another identity calls at 6 s, and the call at 35 s is allowed. -/
theorem Allow_after_wait_witness :
    (((((ratelimit.NewInMemoryLimiter 30000000000 3).runCalls
        [(0, "alice"), (0, "alice"), (0, "alice")]).Allow 5000000000 "alice").1.runCalls
          [(6000000000, "bob")]).Allow 35000000000 "alice").2 = true :=
  Allow_after_wait 30000000000 3 [(0, "alice"), (0, "alice"), (0, "alice")]
    [(6000000000, "bob")] "alice" 5000000000 35000000000 (by decide) (by decide) (by decide)
    (by simp) (by decide!) (by decide) (by decide)

/-! ## Lemmas on `encoding/base64` -/

theorem stringBytes_ascii (cs : List Char) (h : ∀ c ∈ cs, c.toNat < 128) :
    stringBytes (String.mk cs) = cs.map Char.toNat := by
  unfold stringBytes
  simp only
  induction cs with
  | nil => rfl
  | cons c cs ih =>
    simp only [List.flatMap_cons, List.map_cons]
    rw [ih (fun c hc => h c (List.mem_cons_of_mem _ hc))]
    unfold utf8Bytes
    rw [if_pos (h c (List.mem_cons_self _ _))]
    rfl

theorem base64.encodeChar_spec : ∀ v, v < 64 →
    base64.decodeByte (base64.encodeChar v).toNat = some v ∧
      (base64.encodeChar v).toNat ≠ 61 ∧ (base64.encodeChar v).toNat ≠ 10 ∧
      (base64.encodeChar v).toNat ≠ 13 ∧ (base64.encodeChar v).toNat < 128 := by
  decide!

theorem base64.encodeChars_spec (ns : List Nat) (h : ∀ n ∈ ns, n < 256) :
    (∀ c ∈ base64.encodeChars ns, c.toNat < 128 ∧ c.toNat ≠ 10 ∧ c.toNat ≠ 13) ∧
      base64.decodeQuanta ((base64.encodeChars ns).map Char.toNat) = Except.ok ns := by
  induction ns using base64.encodeChars.induct with
  | case1 => simp [base64.encodeChars, base64.decodeQuanta]
  | case2 a =>
    have ha := h a (by simp)
    obtain ⟨d0, p0, q0, r0, s0⟩ := base64.encodeChar_spec (a / 4) (by omega)
    obtain ⟨d1, p1, q1, r1, s1⟩ := base64.encodeChar_spec (a % 4 * 16) (by omega)
    constructor
    · intro c hc
      simp only [base64.encodeChars, List.mem_cons, List.mem_singleton, List.not_mem_nil,
        or_false] at hc
      rcases hc with rfl | rfl | rfl | rfl
      · exact ⟨s0, q0, r0⟩
      · exact ⟨s1, q1, r1⟩
      · decide
      · decide
    · have e : ('='.toNat) = base64.padChar := rfl
      simp only [base64.encodeChars, List.map_cons, List.map_nil, base64.decodeQuanta, d0, d1, e,
        and_self, if_true, Except.ok.injEq, List.cons.injEq, and_true]
      omega
  | case3 a b =>
    have ha := h a (by simp)
    have hb := h b (by simp)
    obtain ⟨d0, p0, q0, r0, s0⟩ := base64.encodeChar_spec (a / 4) (by omega)
    obtain ⟨d1, p1, q1, r1, s1⟩ := base64.encodeChar_spec (a % 4 * 16 + b / 16) (by omega)
    obtain ⟨d2, p2, q2, r2, s2⟩ := base64.encodeChar_spec (b % 16 * 4) (by omega)
    constructor
    · intro c hc
      simp only [base64.encodeChars, List.mem_cons, List.mem_singleton, List.not_mem_nil,
        or_false] at hc
      rcases hc with rfl | rfl | rfl | rfl
      · exact ⟨s0, q0, r0⟩
      · exact ⟨s1, q1, r1⟩
      · exact ⟨s2, q2, r2⟩
      · decide
    · have e : ('='.toNat) = base64.padChar := rfl
      have p2' : ¬ (base64.encodeChar (b % 16 * 4)).toNat = base64.padChar := p2
      simp only [base64.encodeChars, List.map_cons, List.map_nil, base64.decodeQuanta, d0, d1, d2,
        e, p2', false_and, if_false, and_self, if_true, Except.ok.injEq, List.cons.injEq,
        and_true]
      omega
  | case4 a b c rest ih =>
    have ha := h a (by simp)
    have hb := h b (by simp)
    have hc := h c (by simp)
    obtain ⟨d0, p0, q0, r0, s0⟩ := base64.encodeChar_spec (a / 4) (by omega)
    obtain ⟨d1, p1, q1, r1, s1⟩ := base64.encodeChar_spec (a % 4 * 16 + b / 16) (by omega)
    obtain ⟨d2, p2, q2, r2, s2⟩ := base64.encodeChar_spec (b % 16 * 4 + c / 64) (by omega)
    obtain ⟨d3, p3, q3, r3, s3⟩ := base64.encodeChar_spec (c % 64) (by omega)
    obtain ⟨ih1, ih2⟩ := ih (fun n hn => h n (by simp [hn]))
    constructor
    · intro x hx
      simp only [base64.encodeChars, List.mem_cons] at hx
      rcases hx with rfl | rfl | rfl | rfl | hx
      · exact ⟨s0, q0, r0⟩
      · exact ⟨s1, q1, r1⟩
      · exact ⟨s2, q2, r2⟩
      · exact ⟨s3, q3, r3⟩
      · exact ih1 x hx
    · have p2' : ¬ (base64.encodeChar (b % 16 * 4 + c / 64)).toNat = base64.padChar := p2
      have p3' : ¬ (base64.encodeChar (c % 64)).toNat = base64.padChar := p3
      simp only [base64.encodeChars, List.map_cons, base64.decodeQuanta, d0, d1, d2, d3,
        p2', p3', false_and, if_false, ih2, Except.ok.injEq, List.cons.injEq, and_true]
      omega

theorem map_ofNat_toNat (bs : List Byte) : (bs.map UInt8.toNat).map UInt8.ofNat = bs := by
  induction bs with
  | nil => rfl
  | cons b bs ih =>
    simp only [List.map_cons, ih, List.cons.injEq, and_true]
    apply UInt8.ext
    show b.toNat % 256 = b.toNat
    exact Nat.mod_eq_of_lt b.toNat_lt

/-- Decoding inverts encoding. -/
theorem base64.DecodeString_EncodeToString (bs : List Byte) :
    base64.DecodeString (base64.EncodeToString bs) = Except.ok bs := by
  have hb : ∀ n ∈ bs.map UInt8.toNat, n < 256 := by
    intro n hn
    obtain ⟨b, _, rfl⟩ := List.mem_map.1 hn
    exact b.toNat_lt
  obtain ⟨h1, h2⟩ := base64.encodeChars_spec (bs.map UInt8.toNat) hb
  unfold base64.DecodeString base64.EncodeToString
  rw [stringBytes_ascii _ (fun c hc => (h1 c hc).1)]
  have hf : ((base64.encodeChars (bs.map UInt8.toNat)).map Char.toNat).filter
      (fun c => decide (c ≠ 10 ∧ c ≠ 13)) = (base64.encodeChars (bs.map UInt8.toNat)).map Char.toNat := by
    rw [List.filter_eq_self]
    intro x hx
    obtain ⟨c, hc, rfl⟩ := List.mem_map.1 hx
    simp [(h1 c hc).2.1, (h1 c hc).2.2]
  rw [hf, h2]
  simp only [map_ofNat_toNat]


/-! ## Secret confidentiality wrapper -/

/-- C9: for every 32-byte master key, every plaintext and every nonce drawn by `Encrypt`,
`Encrypt` returns without error the blob `base64(nonce ‖ Seal(nonce, x))` and `Decrypt` of
that blob returns `x` without error, given that the AEAD's `Open` inverts `Seal` (base64
decoding inverts encoding: `base64.DecodeString_EncodeToString`). -/
theorem Decrypt_Encrypt_roundtrip (prim : crypto.GCMPrimitive) (key plaintext : List Byte)
    (rand : Nat → Byte) (hkey : key.length = 32)
    (hopen : ∀ nonce : List Byte, nonce.length = 12 →
      prim.gcmOpen key nonce (prim.gcmSeal key nonce plaintext) = some plaintext) :
    crypto.AESGCMEncryption.Encrypt prim { masterKey := key } (some rand) plaintext
        = (base64.EncodeToString ((List.range 12).map rand
            ++ prim.gcmSeal key ((List.range 12).map rand) plaintext), none) ∧
      crypto.AESGCMEncryption.Decrypt prim { masterKey := key }
          (crypto.AESGCMEncryption.Encrypt prim { masterKey := key } (some rand) plaintext).1
        = (some plaintext, none) := by
  have hnew : crypto.aesNewCipher key = Except.ok key := by
    simp [crypto.aesNewCipher, hkey]
  have hlen : ((List.range 12).map rand).length = 12 := by simp
  have henc : crypto.AESGCMEncryption.Encrypt prim { masterKey := key } (some rand) plaintext
      = (base64.EncodeToString ((List.range 12).map rand
          ++ prim.gcmSeal key ((List.range 12).map rand) plaintext), none) := by
    simp only [crypto.AESGCMEncryption.Encrypt, hnew, crypto.cipherNewGCM, crypto.readFull]
  refine ⟨henc, ?_⟩
  rw [henc]
  simp only [crypto.AESGCMEncryption.Decrypt, base64.DecodeString_EncodeToString, hnew,
    crypto.cipherNewGCM]
  have hshort : ¬ ((List.range 12).map rand
      ++ prim.gcmSeal key ((List.range 12).map rand) plaintext).length < 12 := by
    rw [List.length_append, hlen]; omega
  rw [if_neg hshort]
  have htake : ((List.range 12).map rand
      ++ prim.gcmSeal key ((List.range 12).map rand) plaintext).take 12
      = (List.range 12).map rand := by
    conv_lhs => rw [← hlen]
    exact List.take_left _ _
  have hdrop : ((List.range 12).map rand
      ++ prim.gcmSeal key ((List.range 12).map rand) plaintext).drop 12
      = prim.gcmSeal key ((List.range 12).map rand) plaintext := by
    conv_lhs => rw [← hlen]
    exact List.drop_left _ _
  rw [htake, hdrop, hopen _ hlen]

/-- C10: `Decrypt` fails closed.  It returns no plaintext and an error when the blob is not
valid base64, when it decodes to fewer than 12 bytes, and when the AEAD open of the
remainder under the 12-byte nonce prefix fails; it never returns both plaintext and an
error; and it returns plaintext only when the blob decodes to at least 12 bytes whose
remainder opens to that plaintext under the nonce prefix. -/
theorem Decrypt_fails_closed (prim : crypto.GCMPrimitive) (a : crypto.AESGCMEncryption)
    (blob : String) :
    (∀ err, base64.DecodeString blob = Except.error err →
        crypto.AESGCMEncryption.Decrypt prim a blob = (none, some err)) ∧
      (∀ ct, base64.DecodeString blob = Except.ok ct → ct.length < 12 →
        ∃ err, crypto.AESGCMEncryption.Decrypt prim a blob = (none, some err)) ∧
      (∀ ct, base64.DecodeString blob = Except.ok ct →
        prim.gcmOpen a.masterKey (ct.take 12) (ct.drop 12) = none →
        ∃ err, crypto.AESGCMEncryption.Decrypt prim a blob = (none, some err)) ∧
      (∀ plaintext err,
        crypto.AESGCMEncryption.Decrypt prim a blob ≠ (some plaintext, some err)) ∧
      (∀ plaintext, (crypto.AESGCMEncryption.Decrypt prim a blob).1 = some plaintext →
        (crypto.AESGCMEncryption.Decrypt prim a blob).2 = none ∧
        ∃ ct, base64.DecodeString blob = Except.ok ct ∧ 12 ≤ ct.length ∧
          prim.gcmOpen a.masterKey (ct.take 12) (ct.drop 12) = some plaintext) := by
  unfold crypto.AESGCMEncryption.Decrypt
  cases hdec : base64.DecodeString blob with
  | error e => simp
  | ok ct =>
    cases hkey : crypto.aesNewCipher a.masterKey with
    | error e => simp
    | ok block =>
      have hblock : block = a.masterKey := by
        unfold crypto.aesNewCipher at hkey
        split_ifs at hkey
        cases hkey
        rfl
      subst hblock
      simp only [crypto.cipherNewGCM]
      by_cases hshort : ct.length < 12
      · simp [hshort]
      · cases hopen : prim.gcmOpen a.masterKey (ct.take 12) (ct.drop 12) with
        | none => simp [hshort, hopen]
        | some p => simp [hshort, hopen]; omega


theorem crypto.samplePrimitive_open_seal (key nonce plaintext : List Byte) :
    crypto.samplePrimitive.gcmOpen key nonce (crypto.samplePrimitive.gcmSeal key nonce plaintext)
      = some plaintext := by
  simp only [crypto.samplePrimitive]
  have hlen : (plaintext.reverse ++ (List.range 16).map (fun i =>
      key.getD i 0 ^^^ nonce.getD (i % 12) 0 ^^^ UInt8.ofNat (plaintext.length + i))).length - 16
      = plaintext.reverse.length := by simp
  rw [hlen, List.drop_left, List.take_left, List.length_reverse, List.reverse_reverse]
  simp

/-- Witness of C9: the 20-byte secret `12345678901234567890` under the key of bytes 0 to 31,
the nonce bytes 3, 20, 37, ..., and the stand-in AEAD. -/
theorem Decrypt_Encrypt_roundtrip_witness :
    crypto.AESGCMEncryption.Encrypt crypto.samplePrimitive { masterKey := crypto.sampleKey }
        (some (fun i => UInt8.ofNat (17 * i + 3))) (bytesOfString "12345678901234567890")
      = ("AxQlNkdYaXqLnK2+MDk4NzY1NDMyMTA5ODc2NTQzMjEXADEiW0R1Zp+IuaovOAka", none) ∧
      crypto.AESGCMEncryption.Decrypt crypto.samplePrimitive { masterKey := crypto.sampleKey }
        "AxQlNkdYaXqLnK2+MDk4NzY1NDMyMTA5ODc2NTQzMjEXADEiW0R1Zp+IuaovOAka"
      = (some (bytesOfString "12345678901234567890"), none) :=
  have h := Decrypt_Encrypt_roundtrip crypto.samplePrimitive crypto.sampleKey
    (bytesOfString "12345678901234567890") (fun i => UInt8.ofNat (17 * i + 3)) (by decide)
    (fun nonce _ => crypto.samplePrimitive_open_seal _ nonce _)
  have he : crypto.AESGCMEncryption.Encrypt crypto.samplePrimitive
      { masterKey := crypto.sampleKey } (some (fun i => UInt8.ofNat (17 * i + 3)))
      (bytesOfString "12345678901234567890")
      = ("AxQlNkdYaXqLnK2+MDk4NzY1NDMyMTA5ODc2NTQzMjEXADEiW0R1Zp+IuaovOAka", none) := by
    decide!
  ⟨he, by have h2 := h.2; rw [he] at h2; exact h2⟩

/-- Witness of C10 with the stand-in AEAD: a blob that is not base64, a blob of 3 bytes,
and the blob of the witness of C9 with its last byte changed, all give an error and no
plaintext. -/
theorem Decrypt_fails_closed_witness :
    crypto.AESGCMEncryption.Decrypt crypto.samplePrimitive { masterKey := crypto.sampleKey }
        "not base64!" = (none, some "illegal base64 data") ∧
      crypto.AESGCMEncryption.Decrypt crypto.samplePrimitive { masterKey := crypto.sampleKey }
        "AxQl" = (none, some "ciphertext too short") ∧
      crypto.AESGCMEncryption.Decrypt crypto.samplePrimitive { masterKey := crypto.sampleKey }
        "AxQlNkdYaXqLnK2+MDk4NzY1NDMyMTA5ODc2NTQzMjEXADEiW0R1Zp+IuaovOAkb"
        = (none, some "cipher: message authentication failed") :=
  ⟨(Decrypt_fails_closed crypto.samplePrimitive { masterKey := crypto.sampleKey }
      "not base64!").1 "illegal base64 data" (by decide!),
    by decide!, by decide!⟩

/-! ## Lemmas on the hash lengths and the code format -/

theorem bigEndian_length (k n : Nat) : (bigEndian k n).length = k := by
  induction k generalizing n with
  | zero => rfl
  | succ k ih => simp [bigEndian, ih]

theorem bigEndian_lt (k n : Nat) : ∀ b ∈ bigEndian k n, b < 256 := by
  induction k generalizing n with
  | zero => simp [bigEndian]
  | succ k ih =>
    intro b hb
    simp only [bigEndian, List.mem_append, List.mem_singleton] at hb
    rcases hb with hb | rfl
    · exact ih _ b hb
    · exact Nat.mod_lt _ (by norm_num)

theorem sha1.sum_length (msg : List Nat) : (sha1.sum msg).length = 20 := by
  simp [sha1.sum, bigEndian_length]

theorem sha1.sum_lt (msg : List Nat) : ∀ b ∈ sha1.sum msg, b < 256 := by
  intro b hb
  simp only [sha1.sum, List.mem_append] at hb
  rcases hb with (((hb | hb) | hb) | hb) | hb <;> exact bigEndian_lt _ _ b hb

theorem hmacSha1_length (key msg : List Nat) :
    (hmacSha1 key msg).length = 20 ∧ ∀ b ∈ hmacSha1 key msg, b < 256 :=
  ⟨sha1.sum_length _, sha1.sum_lt _⟩

theorem getD_lt_of_all (l : List Nat) (h : ∀ b ∈ l, b < 256) (i : Nat) : l.getD i 0 < 256 := by
  rw [List.getD_eq_getElem?_getD]
  cases hi : l[i]? with
  | none => simp
  | some b => exact h b (List.mem_iff_getElem?.2 ⟨i, hi⟩)

/-- The bit operations of `generateHOTP` compute the integer the specification describes. -/
theorem binaryCode_eq_specTruncate (mac : List Nat) (h : ∀ b ∈ mac, b < 256) :
    binaryCode mac = specTruncate mac := by
  unfold binaryCode specTruncate
  simp only
  have e16 : ∀ x : Nat, x &&& 15 = x % 16 := fun x => Nat.and_pow_two_sub_one_eq_mod x 4
  have e128 : ∀ x : Nat, x &&& 127 = x % 128 := fun x => Nat.and_pow_two_sub_one_eq_mod x 7
  have e256 : ∀ x : Nat, x &&& 255 = x % 256 := fun x => Nat.and_pow_two_sub_one_eq_mod x 8
  rw [e16]
  generalize mac.getD (mac.length - 1) 0 % 16 = off
  have h0 := getD_lt_of_all mac h off
  have h1 := getD_lt_of_all mac h (off + 1)
  have h2 := getD_lt_of_all mac h (off + 2)
  have h3 := getD_lt_of_all mac h (off + 3)
  generalize mac.getD off 0 = b0 at *
  generalize mac.getD (off + 1) 0 = b1 at *
  generalize mac.getD (off + 2) 0 = b2 at *
  generalize mac.getD (off + 3) 0 = b3 at *
  rw [e128, e256, e256, e256, Nat.mod_eq_of_lt h1, Nat.mod_eq_of_lt h2, Nat.mod_eq_of_lt h3,
    Nat.shiftLeft_eq, Nat.shiftLeft_eq, Nat.shiftLeft_eq]
  have s1 : b0 % 128 * 2 ^ 24 ||| b1 * 2 ^ 16 = b0 % 128 * 2 ^ 24 + b1 * 2 ^ 16 := by
    have := Nat.mul_add_lt_is_or (i := 24) (b := b1 * 2 ^ 16) (by omega) (b0 % 128)
    rw [Nat.mul_comm (2 ^ 24)] at this
    exact this.symm
  have s2 : (b0 % 128 * 2 ^ 24 + b1 * 2 ^ 16) ||| b2 * 2 ^ 8
      = b0 % 128 * 2 ^ 24 + b1 * 2 ^ 16 + b2 * 2 ^ 8 := by
    have := Nat.mul_add_lt_is_or (i := 16) (b := b2 * 2 ^ 8) (by omega) (b0 % 128 * 2 ^ 8 + b1)
    have e : 2 ^ 16 * (b0 % 128 * 2 ^ 8 + b1) = b0 % 128 * 2 ^ 24 + b1 * 2 ^ 16 := by ring
    rw [e] at this
    exact this.symm
  have s3 : (b0 % 128 * 2 ^ 24 + b1 * 2 ^ 16 + b2 * 2 ^ 8) ||| b3
      = b0 % 128 * 2 ^ 24 + b1 * 2 ^ 16 + b2 * 2 ^ 8 + b3 := by
    have := Nat.mul_add_lt_is_or (i := 8) (b := b3) (by omega)
      (b0 % 128 * 2 ^ 16 + b1 * 2 ^ 8 + b2)
    have e : 2 ^ 8 * (b0 % 128 * 2 ^ 16 + b1 * 2 ^ 8 + b2)
        = b0 % 128 * 2 ^ 24 + b1 * 2 ^ 16 + b2 * 2 ^ 8 := by ring
    rw [e] at this
    exact this.symm
  rw [s1, s2, s3]
  norm_num

theorem sprintfZeroPad_eq_spec (k : Nat) :
    ∀ (n fuel : Nat), n < 10 ^ (k + 1) → n < fuel →
      List.replicate (k + 1 - (decimalDigits fuel n).length) '0' ++ decimalDigits fuel n
        = specZeroPadded (k + 1) n := by
  induction k with
  | zero =>
    intro n fuel hn hf
    obtain ⟨f, rfl⟩ : ∃ f, fuel = f + 1 := ⟨fuel - 1, by omega⟩
    have h10 : n < 10 := by simpa using hn
    simp [decimalDigits, h10, specZeroPadded, Nat.mod_eq_of_lt h10]
  | succ k ih =>
    intro n fuel hn hf
    obtain ⟨f, rfl⟩ : ∃ f, fuel = f + 1 := ⟨fuel - 1, by omega⟩
    by_cases h10 : n < 10
    · have hz : ∀ j, specZeroPadded j 0 = List.replicate j '0' := by
        intro j
        induction j with
        | zero => rfl
        | succ j ihj =>
          simp only [specZeroPadded, Nat.zero_div, ihj, Nat.zero_mod]
          rw [List.replicate_succ']
          rfl
      simp only [decimalDigits, h10, if_true, List.length_singleton, specZeroPadded,
        Nat.div_eq_of_lt h10, hz, Nat.mod_eq_of_lt h10]
      simp [List.replicate_succ']
      rfl
    · have hdiv : n / 10 < 10 ^ (k + 1) := by
        rw [Nat.div_lt_iff_lt_mul (by norm_num)]
        calc n < 10 ^ (k + 1 + 1) := hn
          _ = 10 ^ (k + 1) * 10 := by ring
      have hrec := ih (n / 10) f hdiv (by omega)
      have hlen := decimalDigits_length_le f (n / 10) k hdiv
      simp only [decimalDigits, h10, if_false, List.length_append, List.length_singleton]
      rw [show specZeroPadded (k + 1 + 1) n
        = specZeroPadded (k + 1) (n / 10) ++ [digitChar (n % 10)] from rfl, ← hrec,
        List.append_assoc]
      congr 2
      omega


theorem specZeroPadded_length (width n : Nat) : (specZeroPadded width n).length = width := by
  induction width generalizing n with
  | zero => rfl
  | succ w ih => simp [specZeroPadded, ih]

theorem specZeroPadded_isDigit (width n : Nat) :
    ∀ c ∈ specZeroPadded width n, c.isDigit = true := by
  induction width generalizing n with
  | zero => simp [specZeroPadded]
  | succ w ih =>
    intro c hc
    simp only [specZeroPadded, List.mem_append, List.mem_singleton] at hc
    rcases hc with hc | rfl
    · exact ih _ c hc
    · have h : n % 10 < 10 := Nat.mod_lt _ (by norm_num)
      generalize n % 10 = d at h
      interval_cases d <;> rfl

theorem sprintfZeroPad_spec (w n : Nat) (hn : n < 10 ^ (w + 1)) :
    sprintfZeroPad (w + 1) n = String.mk (specZeroPadded (w + 1) n) := by
  unfold sprintfZeroPad
  simp only
  rw [sprintfZeroPad_eq_spec w n (n + 1) hn (Nat.lt_succ_self n)]

/-! ## The code engine is total and fixed-width -/

/-- C12: for every secret and every `uint64` counter, `generateHOTP` with `Digits = 6`
returns no error and the string of the six decimal digits, zero-padded on the left, of the
truncated MAC modulo `10^6`, where the truncated MAC is the 31-bit big-endian integer read
from the four bytes of the 20-byte HMAC-SHA1 value at `offset = last byte & 0x0F`; the read
stays inside the MAC (`offset + 3 ≤ 18`). -/
theorem generateHOTP_fixed_width (secret : List Byte) (counter : Nat) :
    (hmacSha1 (secret.map UInt8.toNat) (bigEndian 8 (counter % uint64Size))).length = 20 ∧
      (hmacSha1 (secret.map UInt8.toNat) (bigEndian 8 (counter % uint64Size))).getD 19 0 % 16
        + 3 ≤ 18 ∧
      NewGenerator.generateHOTP secret counter
        = Except.ok (String.mk (specZeroPadded 6
            (specTruncate (hmacSha1 (secret.map UInt8.toNat)
              (bigEndian 8 (counter % uint64Size))) % 10 ^ 6))) ∧
      (String.mk (specZeroPadded 6
          (specTruncate (hmacSha1 (secret.map UInt8.toNat)
            (bigEndian 8 (counter % uint64Size))) % 10 ^ 6))).length = 6 ∧
      ∀ c ∈ specZeroPadded 6
          (specTruncate (hmacSha1 (secret.map UInt8.toNat)
            (bigEndian 8 (counter % uint64Size))) % 10 ^ 6),
        c.isDigit = true := by
  obtain ⟨hlen, hlt⟩ := hmacSha1_length (secret.map UInt8.toNat)
    (bigEndian 8 (counter % uint64Size))
  refine ⟨hlen, by omega, ?_, specZeroPadded_length 6 _, specZeroPadded_isDigit 6 _⟩
  unfold Generator.generateHOTP
  simp only [NewGenerator, pow10Int]
  rw [binaryCode_eq_specTruncate _ hlt,
    sprintfZeroPad_spec 5 _ (Nat.mod_lt _ (by norm_num))]


/-! ## The work `Verify` performs -/

theorem verifyLoopTraced_fst (v : Verifier) (secret : List Byte) (cand : String) (stop : Nat)
    (fuel : Nat) : ∀ step m, (v.verifyLoopTraced secret cand stop fuel step m).1
      = v.verifyLoop secret cand stop fuel step m := by
  induction fuel with
  | zero => intro step m; rfl
  | succ fuel ih =>
    intro step m
    unfold Verifier.verifyLoopTraced Verifier.verifyLoop
    split_ifs with h
    · cases v.generator.generateHOTP secret step with
      | error e => rfl
      | ok code => exact ih _ _
    · rfl

/-- The traced `Verify` returns what `Verify` returns. -/
theorem VerifyTraced_fst (v : Verifier) (now : Int) (fuel : Nat) (secret : List Byte)
    (cand : String) : (v.VerifyTraced now fuel secret cand).1 = v.Verify now fuel secret cand := by
  unfold Verifier.VerifyTraced Verifier.Verify
  split_ifs
  · rfl
  · rfl
  · exact verifyLoopTraced_fst v secret cand _ fuel _ _

theorem verifyLoopTraced_events (W : Nat) (secret : List Byte) (cand : String) (stop : Nat)
    (hstop : stop + 1 < uint64Size) (k : Nat) :
    ∀ (fuel step m : Nat), stop + 1 - step = k → step ≤ stop + 1 → k < fuel →
      (Verifier.verifyLoopTraced ⟨NewGenerator, W⟩ secret cand stop fuel step m).2
        = (List.range k).map (fun i => VerifyEvent.generate (step + i)) := by
  induction k with
  | zero =>
    intro fuel step m hk hle hfuel
    obtain ⟨f, rfl⟩ : ∃ f, fuel = f + 1 := ⟨fuel - 1, by omega⟩
    have hgt : ¬ step ≤ stop := by omega
    simp only [Verifier.verifyLoopTraced, if_neg hgt, List.range_zero, List.map_nil]
  | succ k ih =>
    intro fuel step m hk hle hfuel
    obtain ⟨f, rfl⟩ : ∃ f, fuel = f + 1 := ⟨fuel - 1, by omega⟩
    have hle' : step ≤ stop := by omega
    obtain ⟨n, hn, hcode⟩ := generateHOTP_ok secret step
    have hmod : (step + 1) % uint64Size = step + 1 := Nat.mod_eq_of_lt (by omega)
    simp only [Verifier.verifyLoopTraced, if_pos hle', hcode, hmod]
    rw [ih f (step + 1) _ (by omega) (by omega) (by omega), List.range_succ_eq_map,
      List.map_cons, List.map_map]
    simp only [Nat.add_zero, List.cons.injEq, true_and]
    apply List.map_congr_left
    intro i _
    simp only [Function.comp, VerifyEvent.generate.injEq]
    omega

theorem generations_map (k step : Nat) :
    generations ((List.range k).map (fun i => VerifyEvent.generate (step + i))) = k := by
  unfold generations
  rw [List.filter_eq_self.2, List.length_map, List.length_range]
  intro e he
  obtain ⟨i, _, rfl⟩ := List.mem_map.1 he
  simp

/-- C13, as amended: for every secret, every candidate of 6 bytes, every window `W` and
every clock reading `t ≥ 0` with `W ≤ t / 30` and no `uint64` wrap-around, `Verify` reads
the clock once and then generates the code of each step from `t / 30 - W` to `t / 30 + W`,
in order: exactly `2 W + 1` generations, whatever the candidate is (whether and where it
matches), and it returns what `Verify` returns. -/
theorem Verify_generations (secret : List Byte) (candidate : String) (W : Nat) (t : Int)
    (fuel : Nat) (hlen : strLen candidate = 6) (h0 : 0 ≤ t) (h63 : t < 2 ^ 63)
    (hW : W ≤ t.toNat / 30) (hwrap : t.toNat / 30 + W < 2 ^ 64 - 1) (hfuel : 2 * W + 1 < fuel) :
    (Verifier.VerifyTraced ⟨NewGenerator, W⟩ t fuel secret candidate).2
        = VerifyEvent.clockNow ::
          (List.range (2 * W + 1)).map (fun i => VerifyEvent.generate (t.toNat / 30 - W + i)) ∧
      generations (Verifier.VerifyTraced ⟨NewGenerator, W⟩ t fuel secret candidate).2
        = 2 * W + 1 ∧
      (Verifier.VerifyTraced ⟨NewGenerator, W⟩ t fuel secret candidate).1
        = Verifier.Verify ⟨NewGenerator, W⟩ t fuel secret candidate := by
  have hsz : uint64Size = 2 ^ 64 := by norm_num [uint64Size]
  have hcur : (t % (uint64Size : Int)).toNat = t.toNat := by
    rw [Int.emod_eq_of_lt h0 (by rw [hsz]; push_cast; omega)]
  have hWlt : W < uint64Size := by omega
  have hstart : (t.toNat / 30 + uint64Size - W % uint64Size) % uint64Size = t.toNat / 30 - W := by
    rw [Nat.mod_eq_of_lt hWlt]
    have : t.toNat / 30 + uint64Size - W = (t.toNat / 30 - W) + uint64Size := by omega
    rw [this, Nat.add_mod_right, Nat.mod_eq_of_lt (by omega)]
  have hstop : (t.toNat / 30 + W) % uint64Size = t.toNat / 30 + W :=
    Nat.mod_eq_of_lt (by omega)
  have hev : (Verifier.VerifyTraced ⟨NewGenerator, W⟩ t fuel secret candidate).2
      = VerifyEvent.clockNow ::
        (List.range (2 * W + 1)).map (fun i => VerifyEvent.generate (t.toNat / 30 - W + i)) := by
    unfold Verifier.VerifyTraced
    simp only [NewGenerator, hlen, ne_eq, not_true_eq_false, if_false, hcur,
      show ((30 : Nat) = 0) = False from by simp, hstart, hstop]
    exact congrArg (List.cons VerifyEvent.clockNow)
      (verifyLoopTraced_events W secret candidate (t.toNat / 30 + W) (by omega) (2 * W + 1)
        fuel (t.toNat / 30 - W) 0 (by omega) (by omega) hfuel)
  refine ⟨hev, ?_, VerifyTraced_fst _ _ _ _ _⟩
  rw [hev]
  have := generations_map (2 * W + 1) (t.toNat / 30 - W)
  unfold generations at this ⊢
  rw [List.filter_cons_of_neg (by simp)]
  exact this

/-- Witness of C13 as amended: `W = 1`, `t = 1234567890`, the code of the current step. -/
theorem Verify_generations_witness :
    (Verifier.VerifyTraced ⟨NewGenerator, 1⟩ 1234567890 4
        (bytesOfString "12345678901234567890") "005924").2
      = [VerifyEvent.clockNow, VerifyEvent.generate 41152262, VerifyEvent.generate 41152263,
          VerifyEvent.generate 41152264] ∧
      generations (Verifier.VerifyTraced ⟨NewGenerator, 1⟩ 1234567890 4
        (bytesOfString "12345678901234567890") "005924").2 = 3 :=
  have h := Verify_generations (bytesOfString "12345678901234567890") "005924" 1 1234567890 4
    (by decide) (by decide) (by decide) (by decide) (by decide) (by decide)
  ⟨h.1.trans (by decide), h.2.1⟩

/-- Counterexample to C13 as stated: with the clock at `t = 0` and `W = 1` the step
`0 - 1` wraps around and no code is generated, though `2 W + 1 = 3`; and the candidate
`éééééé` has 6 characters and 12 bytes, so it is rejected before any code is generated. -/
theorem Verify_generations_counterexample :
    generations (Verifier.VerifyTraced ⟨NewGenerator, 1⟩ 0 10
        (bytesOfString "12345678901234567890") "000000").2 = 0 ∧
      "éééééé".length = 6 ∧
      generations (Verifier.VerifyTraced ⟨NewGenerator, 1⟩ 1234567890 10
        (bytesOfString "12345678901234567890") "éééééé").2 = 0 := by
  decide!

/-- C14: for every secret, clock reading and window, and every candidate whose length
`len(candidate)` is not 6, `Verify` returns `(false, nil)` at once: with no iteration at all
allowed, without reading the clock and without generating any code. -/
theorem Verify_wrong_length (secret : List Byte) (candidate : String) (W : Nat) (t : Int)
    (fuel : Nat) (hlen : strLen candidate ≠ 6) :
    Verifier.VerifyTraced ⟨NewGenerator, W⟩ t fuel secret candidate = (some (false, none), []) ∧
      Verifier.Verify ⟨NewGenerator, W⟩ t fuel secret candidate = some (false, none) ∧
      Verifier.Verify ⟨NewGenerator, W⟩ t 0 secret candidate = some (false, none) := by
  refine ⟨?_, ?_, ?_⟩
  · simp [Verifier.VerifyTraced, NewGenerator, hlen]
  · simp [Verifier.Verify, NewGenerator, hlen]
  · simp [Verifier.Verify, NewGenerator, hlen]

/-- Witness of C14: the candidates `12345` and `1234567`. -/
theorem Verify_wrong_length_witness :
    Verifier.VerifyTraced ⟨NewGenerator, 1⟩ 1234567890 0 (bytesOfString "12345678901234567890")
        "12345" = (some (false, none), []) ∧
      Verifier.VerifyTraced ⟨NewGenerator, 1⟩ 1234567890 0 (bytesOfString "12345678901234567890")
        "1234567" = (some (false, none), []) :=
  ⟨(Verify_wrong_length (bytesOfString "12345678901234567890") "12345" 1 1234567890 0
      (by decide)).1,
    (Verify_wrong_length (bytesOfString "12345678901234567890") "1234567" 1 1234567890 0
      (by decide)).1⟩


/-! ## The invariant of the bucket -/

theorem ratelimit.Bounded_Allow (l : ratelimit.InMemoryLimiter) (now clock : Int) (key : String)
    (hcap : 1 ≤ l.capacity) (hcap53 : l.capacity ≤ 2 ^ 53) (hrate : 0 < l.rate)
    (hinv : l.Bounded clock) (hclock : clock ≤ now) : (l.Allow now key).1.Bounded now := by
  have hC53 : (l.capacity : ℚ) ≤ (2 : ℚ) ^ (53 : Nat) := by exact_mod_cast hcap53
  obtain ⟨f1, f2, f3⟩ := ratelimit.Allow_frame l now key
  intro k b hk
  rw [f2]
  by_cases hkey : k = key
  · subst hkey
    cases hb : l.counters k with
    | none =>
      rw [ratelimit.Allow_none l now k hb, (ratelimit.store_counters l k _).1] at hk
      cases hk
      refine ⟨((l.capacity - 1 : Int) : ℚ), ?_, ?_, ?_, le_refl _⟩
      · show Float64.ofInt (l.capacity - 1) = _
        rw [Float64.ofInt_finite _ (by rw [abs_of_nonneg (by omega)]; omega),
          Float64.roundQ_intCast _ (by rw [abs_of_nonneg (by omega)]; omega)]
      · exact_mod_cast (by omega : 0 ≤ l.capacity - 1)
      · push_cast; linarith
    | some b0 =>
      obtain ⟨q, hq, hq0, hqC, hlast⟩ := hinv k b0 hb
      obtain ⟨a, s, -, -, hs, hs0, hsC, -, -, -, -⟩ := ratelimit.refill_small l now b0.lastUpdate q
        hcap hcap53 hrate hq0 hqC (by omega)
      have hb0 : b0 = { tokens := Float64.finite q, lastUpdate := b0.lastUpdate } := by
        cases b0; simp only at hq; rw [hq]
      rw [← hb0] at hs
      rw [ratelimit.Allow_some l now k b0 hb, hs] at hk
      by_cases h1 : 1 ≤ s
      · rw [if_pos (by simp [Float64.ge, h1]), (ratelimit.store_counters l k _).1] at hk
        cases hk
        obtain ⟨e1, e2, e3, -, -⟩ := ratelimit.sub_one_small s (l.capacity : ℚ) h1 hsC hC53
          ⟨l.capacity.toNat, by
            have : l.capacity = (l.capacity.toNat : Int) := by omega
            exact_mod_cast this⟩
        exact ⟨_, e1, e2, e3, le_refl _⟩
      · rw [if_neg (by simp [Float64.ge, h1]), (ratelimit.store_counters l k _).1] at hk
        cases hk
        exact ⟨s, rfl, hs0, hsC, le_refl _⟩
  · rw [f3 k hkey] at hk
    obtain ⟨q, hq, hq0, hqC, hlast⟩ := hinv k b hk
    exact ⟨q, hq, hq0, hqC, by omega⟩

theorem ratelimit.Bounded_runCalls (calls : List (Int × String)) :
    ∀ (l : ratelimit.InMemoryLimiter) (clock : Int), 1 ≤ l.capacity → l.capacity ≤ 2 ^ 53 →
      0 < l.rate → l.Bounded clock → List.Chain (· ≤ ·) clock (calls.map Prod.fst) →
      ∃ clock', (l.runCalls calls).Bounded clock' ∧
        (l.runCalls calls).capacity = l.capacity := by
  induction calls with
  | nil => intro l clock _ _ _ hinv _; exact ⟨clock, hinv, rfl⟩
  | cons c cs ih =>
    intro l clock hcap hcap53 hrate hinv hch
    obtain ⟨h1, hch'⟩ : clock ≤ c.1 ∧ List.Chain (· ≤ ·) c.1 (cs.map Prod.fst) := by
      cases hch with
      | cons h h' => exact ⟨h, h'⟩
    obtain ⟨f1, f2, _⟩ := ratelimit.Allow_frame l c.1 c.2
    obtain ⟨clock', hb, hc⟩ := ih (l.Allow c.1 c.2).1 c.1 (by rw [f2]; exact hcap)
      (by rw [f2]; exact hcap53) (by rw [f1]; exact hrate)
      (ratelimit.Bounded_Allow l c.1 clock c.2 hcap hcap53 hrate hinv h1) hch'
    exact ⟨clock', hb, hc.trans f2⟩

/-- C15, as amended: in every limiter state reached from `NewInMemoryLimiter(rate, capacity)`
with `1 ≤ capacity ≤ 2^53` and `rate > 0` by calls of `Allow`, for any identities, at
non-decreasing times, every bucket holds a finite number of tokens between 0 and the
capacity, after each call. -/
theorem limiter_tokens_invariant (rate capacity : Int) (calls : List (Int × String)) (k : Nat)
    (key : String) (b : ratelimit.bucket) (hcap : 1 ≤ capacity) (hcap53 : capacity ≤ 2 ^ 53)
    (hrate : 0 < rate) (hmono : List.Chain' (· ≤ ·) (calls.map Prod.fst))
    (hb : ((ratelimit.NewInMemoryLimiter rate capacity).runCalls (calls.take k)).counters key
      = some b) :
    ∃ q, b.tokens = Float64.finite q ∧ 0 ≤ q ∧ q ≤ (capacity : ℚ) := by
  have hinit : ∀ clock, (ratelimit.NewInMemoryLimiter rate capacity).Bounded clock := by
    intro clock k b hk
    simp [ratelimit.NewInMemoryLimiter] at hk
  have hmono' : List.Chain' (· ≤ ·) ((calls.take k).map Prod.fst) := by
    rw [List.map_take]
    exact hmono.take k
  obtain ⟨clock, hchain⟩ : ∃ clock, List.Chain (· ≤ ·) clock ((calls.take k).map Prod.fst) := by
    cases hc : (calls.take k).map Prod.fst with
    | nil => exact ⟨0, List.Chain.nil⟩
    | cons c cs =>
      rw [hc] at hmono'
      exact ⟨c, List.Chain.cons (le_refl _) hmono'⟩
  obtain ⟨clock', hbd, hc⟩ := ratelimit.Bounded_runCalls (calls.take k)
    (ratelimit.NewInMemoryLimiter rate capacity) clock hcap hcap53 hrate (hinit clock) hchain
  obtain ⟨q, hq, hq0, hqC, -⟩ := hbd key b hb
  rw [hc] at hqC
  exact ⟨q, hq, hq0, hqC⟩

/-- Witness of C15: capacity 3, rate 30 s, five calls for `alice`; her bucket holds 2 tokens
after the last one. -/
theorem limiter_tokens_invariant_witness :
    ((ratelimit.NewInMemoryLimiter 30000000000 3).runCalls
        ([(0, "alice"), (0, "alice"), (0, "alice"), (5000000000, "alice"),
          (100000000000, "alice")].take 5)).counters "alice"
        = some { tokens := Float64.finite 2, lastUpdate := 100000000000 } ∧
      ∃ q, Float64.finite 2 = Float64.finite q ∧ 0 ≤ q ∧ q ≤ ((3 : Int) : ℚ) :=
  have hb : ((ratelimit.NewInMemoryLimiter 30000000000 3).runCalls
      ([(0, "alice"), (0, "alice"), (0, "alice"), (5000000000, "alice"),
        (100000000000, "alice")].take 5)).counters "alice"
      = some { tokens := Float64.finite 2, lastUpdate := 100000000000 } := by decide!
  ⟨hb, limiter_tokens_invariant 30000000000 3 _ 5 "alice" _ (by decide) (by decide) (by decide)
    (by simp) hb⟩

/-- Counterexample to C15 as stated: with the capacity `2^54 + 7`, the tokens
`float64(capacity - 1)` left by the first call are `2^54 + 8`, more than the capacity. -/
theorem limiter_tokens_invariant_counterexample :
    (1 : Int) ≤ 18014398509481991 ∧ (0 : Int) < 1000000000 ∧
      ((ratelimit.NewInMemoryLimiter 1000000000 18014398509481991).runCalls
        [(0, "alice")]).counters "alice"
        = some { tokens := Float64.finite 18014398509481992, lastUpdate := 0 } ∧
      ¬ (18014398509481992 : ℚ) ≤ ((18014398509481991 : Int) : ℚ) := by
  decide!

/-! ## The shape of a batch of recovery codes -/

theorem sha256.round_length (s : List Nat) (kw : Nat) (h : s.length = 8) :
    (sha256.round s kw).length = 8 := by
  match s, h with
  | [a, b, c, d, e, f, g, hh], _ => simp [sha256.round]

theorem sha256.foldl_round_length (kws : List Nat) :
    ∀ s : List Nat, s.length = 8 → (kws.foldl sha256.round s).length = 8 := by
  induction kws with
  | nil => intro s h; exact h
  | cons kw kws ih => intro s h; exact ih _ (sha256.round_length s kw h)

theorem sha256.compress_length (h : List Nat) (block : List Nat) (hh : h.length = 8) :
    (sha256.compress h block).length = 8 := by
  unfold sha256.compress
  simp only [List.length_zipWith, hh, sha256.foldl_round_length _ h hh, min_self]

theorem sha256.foldl_compress_length (bs : List (List Nat)) :
    ∀ h : List Nat, h.length = 8 → (bs.foldl sha256.compress h).length = 8 := by
  induction bs with
  | nil => intro h hh; exact hh
  | cons b bs ih => intro h hh; exact ih _ (sha256.compress_length h b hh)

theorem flatMap_bigEndian_length (ws : List Nat) :
    (ws.flatMap (bigEndian 4)).length = 4 * ws.length := by
  induction ws with
  | nil => rfl
  | cons w ws ih =>
    simp only [List.flatMap_cons, List.length_append, bigEndian_length, ih, List.length_cons]
    omega

theorem sha256.Sum256_length (msg : List Nat) : (sha256.Sum256 msg).length = 32 := by
  unfold sha256.Sum256
  simp only
  rw [flatMap_bigEndian_length, sha256.foldl_compress_length _ sha256.init rfl]

theorem hexDigit_mem (d : Nat) (hd : d < 16) : hexDigit d ∈ "0123456789abcdef".data := by
  interval_cases d <;> decide

theorem hexEncodeToString_spec (bs : List Nat) :
    (hexEncodeToString bs).length = 2 * bs.length ∧
      ∀ c ∈ (hexEncodeToString bs).data, c ∈ "0123456789abcdef".data := by
  unfold hexEncodeToString
  induction bs with
  | nil => exact ⟨rfl, by simp⟩
  | cons b bs ih =>
    obtain ⟨h1, h2⟩ := ih
    constructor
    · simp only [String.length, List.flatMap_cons, List.length_append, List.length_cons,
        List.length_nil] at h1 ⊢
      omega
    · intro c hc
      simp only [List.flatMap_cons, List.mem_append, List.mem_cons, List.not_mem_nil,
        or_false] at hc
      rcases hc with (rfl | rfl) | hc
      · exact hexDigit_mem _ (by omega)
      · exact hexDigit_mem _ (Nat.mod_lt _ (by norm_num))
      · exact h2 c hc

theorem recovery.hash_spec (code : String) :
    (recovery.hash code).length = 64 ∧
      ∀ c ∈ (recovery.hash code).data, c ∈ "0123456789abcdef".data := by
  obtain ⟨h1, h2⟩ := hexEncodeToString_spec (sha256.Sum256 (stringBytes code))
  rw [sha256.Sum256_length] at h1
  exact ⟨h1, h2⟩

theorem recovery.generateRandomChars_spec (rand : recovery.RandSource) (n : Nat) :
    ∀ k, (∀ j, k ≤ j → j < k + n → rand j ≠ none) →
      ∃ cs, recovery.generateRandomChars rand n k = Except.ok cs ∧ cs.length = n ∧
        ∀ c ∈ cs, c ∈ recovery.Charset.data := by
  induction n with
  | zero => intro k _; exact ⟨[], rfl, rfl, by simp⟩
  | succ n ih =>
    intro k hk
    obtain ⟨cs, hcs, hlen, hmem⟩ := ih (k + 1) (fun j h1 h2 => hk j (by omega) (by omega))
    have hr := hk k (le_refl _) (by omega)
    cases hv : rand k with
    | none => exact absurd hv hr
    | some v =>
      have h32 : strLen recovery.Charset = 32 := by decide
      refine ⟨recovery.Charset.data.getD (v % 32) 'A' :: cs, ?_, by simp [hlen], ?_⟩
      · simp only [recovery.generateRandomChars, recovery.randInt, hv, hcs, h32]
      · intro c hc
        rcases List.mem_cons.1 hc with rfl | hc
        · have hlt : v % 32 < 32 := Nat.mod_lt _ (by norm_num)
          generalize v % 32 = i at hlt
          interval_cases i <;> decide
        · exact hmem c hc

theorem recovery.generateLoop_spec (rand : recovery.RandSource) (n : Nat) :
    ∀ k, (∀ j, k ≤ j → j < k + n * recovery.CodeLength → rand j ≠ none) →
      ∃ codes, recovery.generateLoop rand n k = Except.ok codes ∧ codes.length = n ∧
        ∀ code ∈ codes, code.length = 10 ∧ ∀ c ∈ code.data, c ∈ recovery.Charset.data := by
  induction n with
  | zero => intro k _; exact ⟨[], rfl, rfl, by simp⟩
  | succ n ih =>
    intro k hk
    have hcl : recovery.CodeLength = 10 := rfl
    obtain ⟨cs, hcs, hlen, hmem⟩ := recovery.generateRandomChars_spec rand recovery.CodeLength k
      (fun j h1 h2 => hk j h1 (by rw [hcl] at h2 ⊢; omega))
    obtain ⟨codes, hcodes, hclen, hcmem⟩ := ih (k + recovery.CodeLength)
      (fun j h1 h2 => hk j (by omega) (by rw [hcl] at h1 h2 ⊢; omega))
    refine ⟨String.mk cs :: codes, ?_, by simp [hclen], ?_⟩
    · simp only [recovery.generateLoop, recovery.generateRandomString, hcs, hcodes]
    · intro code hc
      rcases List.mem_cons.1 hc with rfl | hc
      · exact ⟨hlen, hmem⟩
      · exact hcmem code hc

/-- C16: whenever none of the eighty reads of the random source fails, `GenerateCodes`
returns 8 plaintext codes and 8 hashes; every code has 10 characters, all of the alphabet
`Charset` (32 different characters, none of `I`, `O`, `0`, `1`); and the `i`-th hash is the
lowercase-hex SHA-256 of the `i`-th code, a string of 64 characters among `0-9a-f`. -/
theorem GenerateCodes_shape (rand : recovery.RandSource) (hrand : ∀ k, k < 80 → rand k ≠ none) :
    ∃ plainCodes hashedCodes,
      recovery.GenerateCodes rand = Except.ok (plainCodes, hashedCodes) ∧
      plainCodes.length = 8 ∧ hashedCodes.length = 8 ∧
      (∀ code ∈ plainCodes, code.length = 10 ∧ ∀ c ∈ code.data, c ∈ recovery.Charset.data) ∧
      (∀ i : Nat, hashedCodes[i]? = plainCodes[i]?.map
        (fun code => hexEncodeToString (sha256.Sum256 (stringBytes code)))) ∧
      (∀ h ∈ hashedCodes, h.length = 64 ∧ ∀ c ∈ h.data, c ∈ "0123456789abcdef".data) ∧
      recovery.Charset = "ABCDEFGHJKLMNPQRSTUVWXYZ23456789" ∧
      recovery.Charset.length = 32 ∧ recovery.Charset.data.Nodup ∧
      'I' ∉ recovery.Charset.data ∧ 'O' ∉ recovery.Charset.data ∧
      '0' ∉ recovery.Charset.data ∧ '1' ∉ recovery.Charset.data := by
  obtain ⟨codes, hcodes, hlen, hmem⟩ := recovery.generateLoop_spec rand recovery.CodeCount 0
    (fun j _ h2 => hrand j (by simpa [recovery.CodeCount, recovery.CodeLength] using h2))
  refine ⟨codes, codes.map recovery.hash, ?_, hlen, by simp [hlen]; rfl, hmem, ?_, ?_, rfl,
    by decide, by decide, by decide, by decide, by decide, by decide⟩
  · simp only [recovery.GenerateCodes, hcodes]
  · intro i
    rw [List.getElem?_map]
    rfl
  · intro h hh
    obtain ⟨code, _, rfl⟩ := List.mem_map.1 hh
    exact recovery.hash_spec code

/-- Witness of C16: the random source `sampleRand`. -/
theorem GenerateCodes_shape_witness :
    ∃ plainCodes hashedCodes,
      recovery.GenerateCodes recovery.sampleRand = Except.ok (plainCodes, hashedCodes) ∧
      plainCodes.length = 8 ∧ hashedCodes.length = 8 :=
  have h := GenerateCodes_shape recovery.sampleRand (by intro k _; simp [recovery.sampleRand])
  h.elim fun p hp => hp.elim fun q hq => ⟨p, q, hq.1, hq.2.1, hq.2.2.1⟩


/-! ## Lemmas on `encoding/base32` -/

theorem base32.alphabet_spec : ∀ v, v < 32 →
    base32.decodeByte (base32.encodeChar v).toNat = some v ∧
      (base32.encodeChar v).toNat ≠ 255 ∧ (base32.encodeChar v).toNat ≠ 10 ∧
      (base32.encodeChar v).toNat ≠ 13 ∧ (base32.encodeChar v).toNat < 128 ∧
      asciiToUpper (base32.encodeChar v) = base32.encodeChar v ∧
      asciiToUpper (asciiToLower (base32.encodeChar v)) = base32.encodeChar v ∧
      (asciiToLower (base32.encodeChar v)).toNat < 128 := by
  decide!

theorem base32.readQuantum_cons (enc : base32.Encoding) (hpad : enc.padByte = 255)
    (slots : Nat) (dbuf src : List Nat) (c v : Nat) (hc : c ≠ 255)
    (hd : base32.decodeByte c = some v) :
    enc.readQuantum (slots + 1) dbuf (c :: src) = enc.readQuantum slots (dbuf ++ [v]) src := by
  have hne : ¬ (c = enc.padByte ∧ 2 ≤ dbuf.length ∧ src.length < 8) := by
    rw [hpad]; exact fun h => hc h.1
  rw [base32.Encoding.readQuantum, if_neg hne, hd]

/-- Reading characters of the alphabet fills the quantum. -/
theorem base32.readQuantum_valid (enc : base32.Encoding) (hpad : enc.padByte = 255)
    (vs : List Nat) (hvs : ∀ v ∈ vs, v < 32) :
    ∀ (slots : Nat) (dbuf src : List Nat), vs.length ≤ slots →
      enc.readQuantum slots dbuf (vs.map (fun v => (base32.encodeChar v).toNat) ++ src)
        = enc.readQuantum (slots - vs.length) (dbuf ++ vs) src := by
  induction vs with
  | nil => intro slots dbuf src _; simp
  | cons v vs ih =>
    intro slots dbuf src hle
    obtain ⟨s, rfl⟩ : ∃ s, slots = s + 1 := ⟨slots - 1, by simp at hle; omega⟩
    obtain ⟨d, p, _⟩ := base32.alphabet_spec v (hvs v (List.mem_cons_self _ _))
    rw [List.map_cons, List.cons_append, base32.readQuantum_cons enc hpad s dbuf _ _ v p d,
      ih (fun w hw => hvs w (List.mem_cons_of_mem _ hw)) s (dbuf ++ [v]) src
        (by simp at hle; omega)]
    simp only [List.length_cons, List.append_assoc, List.singleton_append]
    congr 1
    omega


theorem base32.decodeLoop_nil (enc : base32.Encoding) (fuel : Nat) :
    enc.decodeLoop fuel [] = Except.ok [] := by
  cases fuel <;> rfl

theorem base32.decodeLoop_partial (enc : base32.Encoding) (hpad : enc.padChar = base32.NoPadding)
    (fuel : Nat) (v : Nat) (vs : List Nat) (hvs : ∀ w ∈ v :: vs, w < 32) (hlen : vs.length < 7) :
    enc.decodeLoop (fuel + 1) ((v :: vs).map (fun v => (base32.encodeChar v).toNat))
      = Except.ok (base32.packQuantum (v :: vs)) := by
  have hb : enc.padByte = 255 := by
    unfold base32.Encoding.padByte
    rw [hpad]; rfl
  have h := base32.readQuantum_valid enc hb (v :: vs) hvs 8 [] []
    (by simp only [List.length_cons]; omega)
  rw [List.append_nil, List.nil_append] at h
  obtain ⟨s, hs⟩ : ∃ s, 8 - (v :: vs).length = s + 1 :=
    ⟨8 - (v :: vs).length - 1, by simp only [List.length_cons]; omega⟩
  rw [hs] at h
  have hq : enc.readQuantum (s + 1) (v :: vs) [] = Except.ok (v :: vs, true, []) := by
    rw [base32.Encoding.readQuantum, if_neg (by rw [hpad]; simp)]
  rw [hq] at h
  rw [List.map_cons] at h ⊢
  rw [base32.Encoding.decodeLoop, h]
  rfl

theorem base32.decodeLoop_full (enc : base32.Encoding) (hpad : enc.padChar = base32.NoPadding)
    (fuel : Nat) (v : Nat) (vs rest bs : List Nat) (hvs : ∀ w ∈ v :: vs, w < 32)
    (hlen : vs.length = 7) (hrest : enc.decodeLoop fuel rest = Except.ok bs) :
    enc.decodeLoop (fuel + 1) ((v :: vs).map (fun v => (base32.encodeChar v).toNat) ++ rest)
      = Except.ok (base32.packQuantum (v :: vs) ++ bs) := by
  have hb : enc.padByte = 255 := by
    unfold base32.Encoding.padByte
    rw [hpad]; rfl
  have h := base32.readQuantum_valid enc hb (v :: vs) hvs 8 [] rest
    (by simp only [List.length_cons]; omega)
  have h8 : 8 - (v :: vs).length = 0 := by simp only [List.length_cons]; omega
  rw [h8, List.nil_append] at h
  have hq : enc.readQuantum 0 (v :: vs) rest = Except.ok (v :: vs, false, rest) := by
    rw [base32.Encoding.readQuantum]
  rw [hq] at h
  rw [List.map_cons, List.cons_append] at h ⊢
  rw [base32.Encoding.decodeLoop, h]
  simp only [hrest, Bool.false_eq_true, if_false]


/-- The unpadded encoding: its characters are characters of the alphabet, it is at least as
long as the input, and decoding gives the bytes back. -/
theorem base32.decode_encode (enc : base32.Encoding) (hpad : enc.padChar = base32.NoPadding)
    (ns : List Nat) (h : ∀ n ∈ ns, n < 256) :
    (∀ c ∈ enc.encodeChars ns, ∃ v, v < 32 ∧ c = base32.encodeChar v) ∧
      ns.length ≤ (enc.encodeChars ns).length ∧
      ∀ fuel, ns.length ≤ fuel →
        enc.decodeLoop fuel ((enc.encodeChars ns).map Char.toNat) = Except.ok ns := by
  induction ns using base32.Encoding.encodeChars.induct enc with
  | case1 =>
    refine ⟨by simp [base32.Encoding.encodeChars], by simp, fun fuel _ => ?_⟩
    simp [base32.Encoding.encodeChars, base32.decodeLoop_nil]
  | case2 a =>
    have ha := h a (by simp)
    have e : enc.encodeChars [a]
        = [a / 8, a % 8 * 4 + 0 / 64].map base32.encodeChar := by
      simp [base32.Encoding.encodeChars, base32.Encoding.lastQuantum, hpad,
        base32.quantumChars]
    have hv : ∀ w ∈ [a / 8, a % 8 * 4 + 0 / 64], w < 32 := by
      intro w hw; simp at hw; omega
    refine ⟨?_, by rw [e]; simp, fun fuel hf => ?_⟩
    · intro c hc
      rw [e] at hc
      obtain ⟨w, hw, rfl⟩ := List.mem_map.1 hc
      exact ⟨w, hv w hw, rfl⟩
    · obtain ⟨f, rfl⟩ : ∃ f, fuel = f + 1 := ⟨fuel - 1, by simp at hf; omega⟩
      rw [e, List.map_map]
      rw [show (Char.toNat ∘ base32.encodeChar) = (fun v => (base32.encodeChar v).toNat) from rfl,
        base32.decodeLoop_partial enc hpad f _ _ hv (by simp)]
      simp [base32.packQuantum]
      omega
  | case3 a b =>
    have ha := h a (by simp)
    have hb := h b (by simp)
    have e : enc.encodeChars [a, b]
        = [a / 8, a % 8 * 4 + b / 64, b / 2 % 32, b % 2 * 16 + 0 / 16].map
          base32.encodeChar := by
      simp [base32.Encoding.encodeChars, base32.Encoding.lastQuantum, hpad,
        base32.quantumChars]
    have hv : ∀ w ∈ [a / 8, a % 8 * 4 + b / 64, b / 2 % 32, b % 2 * 16 + 0 / 16], w < 32 := by
      intro w hw; simp at hw; omega
    refine ⟨?_, by rw [e]; simp, fun fuel hf => ?_⟩
    · intro c hc
      rw [e] at hc
      obtain ⟨w, hw, rfl⟩ := List.mem_map.1 hc
      exact ⟨w, hv w hw, rfl⟩
    · obtain ⟨f, rfl⟩ : ∃ f, fuel = f + 1 := ⟨fuel - 1, by simp at hf; omega⟩
      rw [e, List.map_map]
      rw [show (Char.toNat ∘ base32.encodeChar) = (fun v => (base32.encodeChar v).toNat) from rfl,
        base32.decodeLoop_partial enc hpad f _ _ hv (by simp)]
      simp [base32.packQuantum]
      omega
  | case4 a b c =>
    have ha := h a (by simp)
    have hb := h b (by simp)
    have hc := h c (by simp)
    have e : enc.encodeChars [a, b, c]
        = [a / 8, a % 8 * 4 + b / 64, b / 2 % 32, b % 2 * 16 + c / 16,
            c % 16 * 2 + 0 / 128].map base32.encodeChar := by
      simp [base32.Encoding.encodeChars, base32.Encoding.lastQuantum, hpad,
        base32.quantumChars]
    have hv : ∀ w ∈ [a / 8, a % 8 * 4 + b / 64, b / 2 % 32, b % 2 * 16 + c / 16,
        c % 16 * 2 + 0 / 128], w < 32 := by
      intro w hw; simp at hw; omega
    refine ⟨?_, by rw [e]; simp, fun fuel hf => ?_⟩
    · intro x hx
      rw [e] at hx
      obtain ⟨w, hw, rfl⟩ := List.mem_map.1 hx
      exact ⟨w, hv w hw, rfl⟩
    · obtain ⟨f, rfl⟩ : ∃ f, fuel = f + 1 := ⟨fuel - 1, by simp at hf; omega⟩
      rw [e, List.map_map]
      rw [show (Char.toNat ∘ base32.encodeChar) = (fun v => (base32.encodeChar v).toNat) from rfl,
        base32.decodeLoop_partial enc hpad f _ _ hv (by simp)]
      simp [base32.packQuantum]
      omega
  | case5 a b c d =>
    have ha := h a (by simp)
    have hb := h b (by simp)
    have hc := h c (by simp)
    have hd := h d (by simp)
    have e : enc.encodeChars [a, b, c, d]
        = [a / 8, a % 8 * 4 + b / 64, b / 2 % 32, b % 2 * 16 + c / 16,
            c % 16 * 2 + d / 128, d / 4 % 32, d % 4 * 8 + 0 / 32].map base32.encodeChar := by
      simp [base32.Encoding.encodeChars, base32.Encoding.lastQuantum, hpad,
        base32.quantumChars]
    have hv : ∀ w ∈ [a / 8, a % 8 * 4 + b / 64, b / 2 % 32, b % 2 * 16 + c / 16,
        c % 16 * 2 + d / 128, d / 4 % 32, d % 4 * 8 + 0 / 32], w < 32 := by
      intro w hw; simp at hw; omega
    refine ⟨?_, by rw [e]; simp, fun fuel hf => ?_⟩
    · intro x hx
      rw [e] at hx
      obtain ⟨w, hw, rfl⟩ := List.mem_map.1 hx
      exact ⟨w, hv w hw, rfl⟩
    · obtain ⟨f, rfl⟩ : ∃ f, fuel = f + 1 := ⟨fuel - 1, by simp at hf; omega⟩
      rw [e, List.map_map]
      rw [show (Char.toNat ∘ base32.encodeChar) = (fun v => (base32.encodeChar v).toNat) from rfl,
        base32.decodeLoop_partial enc hpad f _ _ hv (by simp)]
      simp [base32.packQuantum]
      omega
  | case6 a b c d e5 rest ih =>
    have ha := h a (by simp)
    have hb := h b (by simp)
    have hc := h c (by simp)
    have hd := h d (by simp)
    have he := h e5 (by simp)
    obtain ⟨ih1, ih2, ih3⟩ := ih (fun n hn => h n (by simp [hn]))
    have e : enc.encodeChars (a :: b :: c :: d :: e5 :: rest)
        = [a / 8, a % 8 * 4 + b / 64, b / 2 % 32, b % 2 * 16 + c / 16,
            c % 16 * 2 + d / 128, d / 4 % 32, d % 4 * 8 + e5 / 32, e5 % 32].map
              base32.encodeChar ++ enc.encodeChars rest := by
      simp [base32.Encoding.encodeChars, base32.quantumChars]
    have hv : ∀ w ∈ [a / 8, a % 8 * 4 + b / 64, b / 2 % 32, b % 2 * 16 + c / 16,
        c % 16 * 2 + d / 128, d / 4 % 32, d % 4 * 8 + e5 / 32, e5 % 32], w < 32 := by
      intro w hw; simp at hw; omega
    refine ⟨?_, by rw [e]; simp; omega, fun fuel hf => ?_⟩
    · intro x hx
      rw [e, List.mem_append] at hx
      rcases hx with hx | hx
      · obtain ⟨w, hw, rfl⟩ := List.mem_map.1 hx
        exact ⟨w, hv w hw, rfl⟩
      · exact ih1 x hx
    · obtain ⟨f, rfl⟩ : ∃ f, fuel = f + 1 := ⟨fuel - 1, by simp at hf; omega⟩
      rw [e, List.map_append, List.map_map]
      rw [show (Char.toNat ∘ base32.encodeChar) = (fun v => (base32.encodeChar v).toNat) from rfl,
        base32.decodeLoop_full enc hpad f _ _ _ rest hv (by simp)
          (ih3 f (by simp at hf; omega))]
      simp [base32.packQuantum]
      omega


theorem base32.DecodeString_mk (enc : base32.Encoding) (hpad : enc.padChar = base32.NoPadding)
    (bs : List Byte) (cs : List Char)
    (hcs : cs.map Char.toNat = (enc.encodeChars (bs.map UInt8.toNat)).map Char.toNat) :
    enc.DecodeString (String.mk cs) = Except.ok bs := by
  obtain ⟨hchars, hlen, hdec⟩ := base32.decode_encode enc hpad (bs.map UInt8.toNat) (by
    intro n hn
    obtain ⟨b, _, rfl⟩ := List.mem_map.1 hn
    exact b.toNat_lt)
  have hlt : ∀ n ∈ (enc.encodeChars (bs.map UInt8.toNat)).map Char.toNat,
      n < 128 ∧ n ≠ 10 ∧ n ≠ 13 := by
    intro n hn
    obtain ⟨c, hc, rfl⟩ := List.mem_map.1 hn
    obtain ⟨v, hv, rfl⟩ := hchars c hc
    obtain ⟨_, _, h10, h13, h128, _⟩ := base32.alphabet_spec v hv
    exact ⟨h128, h10, h13⟩
  have hascii : ∀ c ∈ cs, c.toNat < 128 := by
    intro c hc
    exact (hlt c.toNat (by rw [← hcs]; exact List.mem_map_of_mem _ hc)).1
  have hfilter : ((enc.encodeChars (bs.map UInt8.toNat)).map Char.toNat).filter
      (fun c => c ≠ 10 ∧ c ≠ 13) = (enc.encodeChars (bs.map UInt8.toNat)).map Char.toNat := by
    rw [List.filter_eq_self]
    intro n hn
    obtain ⟨_, h10, h13⟩ := hlt n hn
    simp [h10, h13]
  unfold base32.Encoding.DecodeString
  simp only [stringBytes_ascii cs hascii, hcs, hfilter]
  rw [hdec _ (by simpa using hlen)]
  simp only [map_ofNat_toNat]

/-- Decoding without padding inverts encoding without padding, also after the encoded
string was put in upper case, or in lower case and back. -/
theorem base32.DecodeString_noPadding (enc : base32.Encoding)
    (hpad : enc.padChar = base32.NoPadding) (toUpper toLower : Char → Char) (bs : List Byte) :
    enc.DecodeString (stringsToUpper toUpper (enc.EncodeToString bs)) = Except.ok bs ∧
      enc.DecodeString (stringsToUpper toUpper (stringsToLower toLower (enc.EncodeToString bs)))
        = Except.ok bs := by
  obtain ⟨hchars, -, -⟩ := base32.decode_encode enc hpad (bs.map UInt8.toNat) (by
    intro n hn
    obtain ⟨b, _, rfl⟩ := List.mem_map.1 hn
    exact b.toNat_lt)
  constructor
  · apply base32.DecodeString_mk enc hpad
    simp only [base32.Encoding.EncodeToString, List.map_map]
    apply List.map_congr_left
    intro c hc
    obtain ⟨v, hv, rfl⟩ := hchars c hc
    obtain ⟨_, _, _, _, h128, hup, _, _⟩ := base32.alphabet_spec v hv
    simp only [Function.comp, if_pos h128, hup]
  · apply base32.DecodeString_mk enc hpad
    simp only [stringsToLower, base32.Encoding.EncodeToString, List.map_map]
    apply List.map_congr_left
    intro c hc
    obtain ⟨v, hv, rfl⟩ := hchars c hc
    obtain ⟨_, _, _, _, h128, _, hul, hl128⟩ := base32.alphabet_spec v hv
    simp only [Function.comp, if_pos h128, if_pos hl128, hul]

/-! ## Base32 secrets -/

/-- C17: for every generator, secret byte string and timestamp, `GenerateCodeFromBase32`
of the unpadded base32 encoding of the secret, as encoded (upper case) or put in lower
case, returns what `GenerateCode` returns on the secret; and when `Enroll` succeeds, its
`Secret` is the unpadded base32 encoding of the 20 bytes it read, so that the code from
`Secret` is the code from those 20 bytes.  The upper- and lower-case tables of the
characters outside ASCII are arbitrary. -/
theorem GenerateCodeFromBase32_eq_GenerateCode (g : Generator) (toUpper toLower : Char → Char)
    (secret : List Byte) (timestamp : Nat) :
    g.GenerateCodeFromBase32 toUpper
        ((base32.StdEncoding.WithPadding base32.NoPadding).EncodeToString secret) timestamp
        = g.GenerateCode secret timestamp ∧
      g.GenerateCodeFromBase32 toUpper
        (stringsToLower toLower
          ((base32.StdEncoding.WithPadding base32.NoPadding).EncodeToString secret)) timestamp
        = g.GenerateCode secret timestamp ∧
      ∀ (prim : crypto.GCMPrimitive) (s : enroll.Service) (secretRand nonceRand : crypto.RandReader)
        (codeRand : recovery.RandSource) (accountName : String)
        (resp : enroll.EnrollmentResponse),
        s.Enroll prim secretRand nonceRand codeRand accountName = Except.ok resp →
        ∃ read : Nat → Byte, secretRand = some read ∧
          resp.Secret = (base32.StdEncoding.WithPadding base32.NoPadding).EncodeToString
            ((List.range 20).map read) ∧
          g.GenerateCodeFromBase32 toUpper resp.Secret timestamp
            = g.GenerateCode ((List.range 20).map read) timestamp := by
  have hkey : ∀ bs : List Byte,
      g.GenerateCodeFromBase32 toUpper
        ((base32.StdEncoding.WithPadding base32.NoPadding).EncodeToString bs) timestamp
        = g.GenerateCode bs timestamp := by
    intro bs
    unfold Generator.GenerateCodeFromBase32
    rw [(base32.DecodeString_noPadding
      (base32.StdEncoding.WithPadding base32.NoPadding) rfl toUpper toLower bs).1]
  refine ⟨hkey secret, ?_, ?_⟩
  · unfold Generator.GenerateCodeFromBase32
    rw [(base32.DecodeString_noPadding
      (base32.StdEncoding.WithPadding base32.NoPadding) rfl toUpper toLower secret).2]
  · intro prim s secretRand nonceRand codeRand accountName resp h
    cases secretRand with
    | none => simp [enroll.Service.Enroll, crypto.readFull] at h
    | some read =>
      refine ⟨read, rfl, ?_⟩
      have hs : resp.Secret = (base32.StdEncoding.WithPadding base32.NoPadding).EncodeToString
          ((List.range 20).map read) := by
        simp only [enroll.Service.Enroll, crypto.readFull] at h
        split at h
        · cases h
        · split at h
          · cases h
          · cases h
            rfl
      exact ⟨hs, by rw [hs]; exact hkey _⟩

/-- Witness of C17: the secret `12345678901234567890` of RFC 6238, whose unpadded base32
form is `GEZDGNBVGY3TQOJQGEZDGNBVGY3TQOJQ`, at the time 59: the code is `287082` from the
upper-case and from the lower-case string; and `Enroll` on the sample readings, which
returns that secret. -/
theorem GenerateCodeFromBase32_eq_GenerateCode_witness :
    (base32.StdEncoding.WithPadding base32.NoPadding).EncodeToString
        (bytesOfString "12345678901234567890") = "GEZDGNBVGY3TQOJQGEZDGNBVGY3TQOJQ" ∧
      stringsToLower id "GEZDGNBVGY3TQOJQGEZDGNBVGY3TQOJQ" = "gezdgnbvgy3tqojqgezdgnbvgy3tqojq" ∧
      NewGenerator.GenerateCode (bytesOfString "12345678901234567890") 59
        = Except.ok "287082" ∧
      NewGenerator.GenerateCodeFromBase32 id "GEZDGNBVGY3TQOJQGEZDGNBVGY3TQOJQ" 59
        = Except.ok "287082" ∧
      NewGenerator.GenerateCodeFromBase32 id "gezdgnbvgy3tqojqgezdgnbvgy3tqojq" 59
        = Except.ok "287082" ∧
      http.sampleHandlers.EnrollSvc.Enroll crypto.samplePrimitive http.sampleInputs.secretRand
          http.sampleInputs.nonceRand http.sampleInputs.codeRand "alice"
        = Except.ok enroll.sampleResponse ∧
      ∃ read : Nat → Byte, http.sampleInputs.secretRand = some read ∧
        enroll.sampleResponse.Secret
          = (base32.StdEncoding.WithPadding base32.NoPadding).EncodeToString
            ((List.range 20).map read) ∧
        NewGenerator.GenerateCodeFromBase32 id enroll.sampleResponse.Secret 59
          = NewGenerator.GenerateCode ((List.range 20).map read) 59 :=
  have h := GenerateCodeFromBase32_eq_GenerateCode NewGenerator id id
    (bytesOfString "12345678901234567890") 59
  have henc : (base32.StdEncoding.WithPadding base32.NoPadding).EncodeToString
      (bytesOfString "12345678901234567890") = "GEZDGNBVGY3TQOJQGEZDGNBVGY3TQOJQ" := by
    decide!
  have hlow : stringsToLower id "GEZDGNBVGY3TQOJQGEZDGNBVGY3TQOJQ"
      = "gezdgnbvgy3tqojqgezdgnbvgy3tqojq" := by decide!
  have hcode : NewGenerator.GenerateCode (bytesOfString "12345678901234567890") 59
      = Except.ok "287082" := by decide!
  have henroll : http.sampleHandlers.EnrollSvc.Enroll crypto.samplePrimitive
      http.sampleInputs.secretRand http.sampleInputs.nonceRand http.sampleInputs.codeRand
      "alice" = Except.ok enroll.sampleResponse := by decide!
  ⟨henc, hlow, hcode, by rw [← henc]; exact h.1.trans hcode,
    by rw [← hlow, ← henc]; exact h.2.1.trans hcode, henroll,
    h.2.2 crypto.samplePrimitive http.sampleHandlers.EnrollSvc http.sampleInputs.secretRand
      http.sampleInputs.nonceRand http.sampleInputs.codeRand "alice" enroll.sampleResponse
      henroll⟩

/-! ## Construction of the crypto service -/

/-- C18: `NewAESGCMEncryption(masterKey)` returns no service and the error
`master key must be 32 bytes` exactly when the key has not 32 bytes, and the service
holding that key with no error exactly when it has 32 bytes. -/
theorem NewAESGCMEncryption_length (masterKey : List Byte) :
    (crypto.NewAESGCMEncryption masterKey = (none, some "master key must be 32 bytes")
        ↔ masterKey.length ≠ 32) ∧
      (crypto.NewAESGCMEncryption masterKey = (some { masterKey := masterKey }, none)
        ↔ masterKey.length = 32) ∧
      (((crypto.NewAESGCMEncryption masterKey).1 = none ∧
          (crypto.NewAESGCMEncryption masterKey).2 ≠ none) ↔ masterKey.length ≠ 32) ∧
      ((∃ a, (crypto.NewAESGCMEncryption masterKey).1 = some a ∧ a.masterKey = masterKey ∧
          (crypto.NewAESGCMEncryption masterKey).2 = none) ↔ masterKey.length = 32) := by
  unfold crypto.NewAESGCMEncryption
  by_cases h : masterKey.length = 32
  · simp [h]
  · simp [h]

/-- Witness of C18: the sample key of 32 bytes is accepted, keys of 31, 33 and 0 bytes are
rejected. -/
theorem NewAESGCMEncryption_length_witness :
    crypto.sampleKey.length = 32 ∧
      crypto.NewAESGCMEncryption crypto.sampleKey
        = (some { masterKey := crypto.sampleKey }, none) ∧
      crypto.NewAESGCMEncryption (crypto.sampleKey.take 31)
        = (none, some "master key must be 32 bytes") ∧
      crypto.NewAESGCMEncryption (crypto.sampleKey ++ [0])
        = (none, some "master key must be 32 bytes") ∧
      crypto.NewAESGCMEncryption [] = (none, some "master key must be 32 bytes") :=
  ⟨by decide,
    (NewAESGCMEncryption_length crypto.sampleKey).2.1.2 (by decide),
    (NewAESGCMEncryption_length (crypto.sampleKey.take 31)).1.2 (by decide),
    (NewAESGCMEncryption_length (crypto.sampleKey ++ [0])).1.2 (by decide),
    (NewAESGCMEncryption_length []).1.2 (by decide)⟩

/-! ## Lemmas on the handlers -/

/-- `Encrypt` under a 32-byte key succeeds and `Decrypt` inverts it, when the AEAD's `Open`
inverts `Seal`. -/
theorem crypto.Decrypt_Encrypt (prim : crypto.GCMPrimitive) (key plaintext : List Byte)
    (rand : Nat → Byte) (hkey : key.length = 32)
    (hopen : ∀ nonce : List Byte, nonce.length = 12 →
      prim.gcmOpen key nonce (prim.gcmSeal key nonce plaintext) = some plaintext) :
    crypto.AESGCMEncryption.Encrypt prim { masterKey := key } (some rand) plaintext
        = (base64.EncodeToString ((List.range 12).map rand
            ++ prim.gcmSeal key ((List.range 12).map rand) plaintext), none) ∧
      crypto.AESGCMEncryption.Decrypt prim { masterKey := key }
          (base64.EncodeToString ((List.range 12).map rand
            ++ prim.gcmSeal key ((List.range 12).map rand) plaintext))
        = (some plaintext, none) := by
  have hnew : crypto.aesNewCipher key = Except.ok key := by
    simp [crypto.aesNewCipher, hkey]
  have hlen : ((List.range 12).map rand).length = 12 := by simp
  refine ⟨?_, ?_⟩
  · simp only [crypto.AESGCMEncryption.Encrypt, hnew, crypto.cipherNewGCM, crypto.readFull]
  simp only [crypto.AESGCMEncryption.Decrypt, base64.DecodeString_EncodeToString, hnew,
    crypto.cipherNewGCM]
  have hshort : ¬ ((List.range 12).map rand
      ++ prim.gcmSeal key ((List.range 12).map rand) plaintext).length < 12 := by
    rw [List.length_append, hlen]; omega
  rw [if_neg hshort]
  have htake : ((List.range 12).map rand
      ++ prim.gcmSeal key ((List.range 12).map rand) plaintext).take 12
      = (List.range 12).map rand := by
    conv_lhs => rw [← hlen]
    exact List.take_left _ _
  have hdrop : ((List.range 12).map rand
      ++ prim.gcmSeal key ((List.range 12).map rand) plaintext).drop 12
      = prim.gcmSeal key ((List.range 12).map rand) plaintext := by
    conv_lhs => rw [← hlen]
    exact List.drop_left _ _
  rw [htake, hdrop, hopen _ hlen]

/-- `Verify` inside the range of the `uint64` steps: it ends without error and accepts
exactly the codes of the steps of the window. -/
theorem Verifier.Verify_spec (secret : List Byte) (candidate : String) (W : Nat) (t : Int)
    (fuel : Nat) (h0 : 0 ≤ t) (h63 : t < 2 ^ 63) (hW : W ≤ t.toNat / 30)
    (hwrap : t.toNat / 30 + W < 2 ^ 64 - 1) (hfuel : 2 * W + 1 < fuel) :
    ∃ valid, Verifier.Verify ⟨NewGenerator, W⟩ t fuel secret candidate = some (valid, none) ∧
      (valid = true ↔ ∃ s, t.toNat / 30 - W ≤ s ∧ s ≤ t.toNat / 30 + W ∧
        NewGenerator.generateHOTP secret s = Except.ok candidate) := by
  have hsz : uint64Size = 2 ^ 64 := by norm_num [uint64Size]
  unfold Verifier.Verify
  by_cases hlen : strLen candidate = 6
  · have hcur : (t % (uint64Size : Int)).toNat = t.toNat := by
      rw [Int.emod_eq_of_lt h0 (by rw [hsz]; push_cast; omega)]
    have hWlt : W < uint64Size := by omega
    have hstart : (t.toNat / 30 + uint64Size - W % uint64Size) % uint64Size = t.toNat / 30 - W := by
      rw [Nat.mod_eq_of_lt hWlt]
      have : t.toNat / 30 + uint64Size - W = (t.toNat / 30 - W) + uint64Size := by omega
      rw [this, Nat.add_mod_right, Nat.mod_eq_of_lt (by omega)]
    have hstop : (t.toNat / 30 + W) % uint64Size = t.toNat / 30 + W :=
      Nat.mod_eq_of_lt (by omega)
    simp only [NewGenerator, hlen, ne_eq, not_true_eq_false, if_false, hcur,
      show ((30 : Nat) = 0) = False from by simp, hstart, hstop]
    obtain ⟨b, hb, hiff⟩ := verifyLoop_spec W secret candidate (t.toNat / 30 + W) (by omega)
      (2 * W + 1) fuel (t.toNat / 30 - W) 0 (by omega) (by omega) hfuel
    refine ⟨b, hb, ?_⟩
    rw [hiff]
    constructor
    · rintro (h | ⟨s, h1, h2, h3⟩)
      · exact absurd h (by norm_num)
      · exact ⟨s, h1, h2, h3⟩
    · rintro ⟨s, h1, h2, h3⟩
      exact Or.inr ⟨s, h1, h2, h3⟩
  · refine ⟨false, ?_, ?_⟩
    · simp [NewGenerator, hlen]
    · constructor
      · intro h; exact absurd h (by simp)
      · rintro ⟨s, _, _, h3⟩
        exact absurd (generateHOTP_strLen secret s candidate h3).1 hlen

/-- The code of a base32 secret at the time `30 s` is the code of the step `s`. -/
theorem GenerateCodeFromBase32_step (toUpper : Char → Char) (secret : List Byte) (t : Nat) :
    NewGenerator.GenerateCodeFromBase32 toUpper
        ((base32.StdEncoding.WithPadding base32.NoPadding).EncodeToString secret) t
      = NewGenerator.generateHOTP secret (t / 30) := by
  unfold Generator.GenerateCodeFromBase32
  rw [(base32.DecodeString_noPadding
    (base32.StdEncoding.WithPadding base32.NoPadding) rfl toUpper id secret).1]
  simp [Generator.GenerateCode, NewGenerator]

/-- `Enroll` succeeds when the random source does not fail, the key has 32 bytes and the
AEAD's `Open` inverts `Seal`; the blob it returns decrypts to the secret. -/
theorem enroll.Enroll_ok (prim : crypto.GCMPrimitive) (issuer : String) (key : List Byte)
    (read nonce : Nat → Byte) (codeRand : recovery.RandSource) (accountName : String)
    (plainCodes hashedCodes : List String) (hkey : key.length = 32)
    (hopen : ∀ n : List Byte, n.length = 12 →
      prim.gcmOpen key n (prim.gcmSeal key n ((List.range 20).map read))
        = some ((List.range 20).map read))
    (hcodes : recovery.GenerateCodes codeRand = Except.ok (plainCodes, hashedCodes)) :
    ∃ resp, enroll.Service.Enroll prim { issuer := issuer, crypto := { masterKey := key } }
          (some read) (some nonce) codeRand accountName = Except.ok resp ∧
      resp.Secret = (base32.StdEncoding.WithPadding base32.NoPadding).EncodeToString
        ((List.range 20).map read) ∧
      resp.RecoveryCodes = plainCodes ∧ resp.HashedCodes = hashedCodes ∧
      crypto.AESGCMEncryption.Decrypt prim { masterKey := key } resp.EncryptedBlob
        = (some ((List.range 20).map read), none) := by
  obtain ⟨henc, hdec⟩ := crypto.Decrypt_Encrypt prim key ((List.range 20).map read) nonce
    hkey hopen
  refine ⟨
    { Secret :=
        (base32.StdEncoding.WithPadding base32.NoPadding).EncodeToString
          ((List.range 20).map read)
      EncryptedBlob :=
        base64.EncodeToString ((List.range 12).map nonce
          ++ prim.gcmSeal key ((List.range 12).map nonce) ((List.range 20).map read))
      OTPAuthURL :=
        url.urlString "otpauth" "totp" (issuer ++ ":" ++ accountName)
          (url.valuesEncode [("secret",
            (base32.StdEncoding.WithPadding base32.NoPadding).EncodeToString
              ((List.range 20).map read)), ("issuer", issuer), ("algorithm", "SHA1"),
            ("digits", "6"), ("period", "30")])
      RecoveryCodes := plainCodes
      HashedCodes := hashedCodes }, ?_, rfl, rfl, rfl, hdec⟩
  simp only [enroll.Service.Enroll, crypto.readFull, henc, hcodes]

/-- `GenerateCodes` succeeds when none of its eighty reads fails. -/
theorem recovery.GenerateCodes_total (rand : recovery.RandSource)
    (hrand : ∀ k, k < 80 → rand k ≠ none) :
    ∃ plainCodes, recovery.GenerateCodes rand
        = Except.ok (plainCodes, plainCodes.map recovery.hash) ∧ plainCodes.length = 8 := by
  obtain ⟨codes, hcodes, hlen, -⟩ := recovery.generateLoop_spec rand recovery.CodeCount 0
    (fun j _ h2 => hrand j (by simpa [recovery.CodeCount, recovery.CodeLength] using h2))
  refine ⟨codes, ?_, hlen⟩
  simp only [recovery.GenerateCodes, hcodes]

/-- `EnrollHandler` on a request `POST` with a body, when `Enroll` succeeds: the record is
saved disabled, with the blob and a new slice of the hashes, and the answer is 200 with
the response of `Enroll`. -/
theorem http.EnrollHandler_ok (h : http.Handlers) (w : http.World) (inp : http.Inputs)
    (user : String) (resp : enroll.EnrollmentResponse)
    (henroll : h.EnrollSvc.Enroll h.prim inp.secretRand inp.nonceRand inp.codeRand user
      = Except.ok resp) :
    (h.EnrollHandler w inp ⟨"POST", some ⟨user⟩⟩).reply
        = { status := 200, body := http.Body.enrollment resp } ∧
      (h.EnrollHandler w inp ⟨"POST", some ⟨user⟩⟩).world.repo.users user
        = some { ID := user, EncryptedSecret := resp.EncryptedBlob, Enabled := false,
                 RecoveryCodes := (makeSlice w.mem resp.HashedCodes).2 } ∧
      (h.EnrollHandler w inp ⟨"POST", some ⟨user⟩⟩).world.mem
        = (makeSlice w.mem resp.HashedCodes).1 ∧
      (h.EnrollHandler w inp ⟨"POST", some ⟨user⟩⟩).world.limiter = w.limiter := by
  simp [http.Handlers.EnrollHandler, henroll, storage.InMemoryRepository.SaveUser]

/-- `VerifyHandler`, `ValidateHandler` and `RecoverHandler` on a request `POST` with a body,
when `Allow` returns false: the answer is 429, the only call is the call of `Allow`, and
only the limiter has changed. -/
theorem http.limited (h : http.Handlers) (w : http.World) (inp : http.Inputs)
    (req : http.VerifyRequest) (hdeny : (w.limiter.Allow inp.now req.UserID).2 = false) :
    h.VerifyHandler w inp ⟨"POST", some req⟩
        = http.errorJSON { w with limiter := (w.limiter.Allow inp.now req.UserID).1 } 429
            "Rate limit exceeded" [http.Event.allow req.UserID false] ∧
      h.ValidateHandler w inp ⟨"POST", some req⟩
        = http.errorJSON { w with limiter := (w.limiter.Allow inp.now req.UserID).1 } 429
            "Rate limit exceeded" [http.Event.allow req.UserID false] ∧
      h.RecoverHandler w inp ⟨"POST", some req⟩
        = http.errorJSON { w with limiter := (w.limiter.Allow inp.now req.UserID).1 } 429
            "Rate limit exceeded" [http.Event.allow req.UserID false] := by
  simp [http.Handlers.VerifyHandler, http.Handlers.ValidateHandler,
    http.Handlers.RecoverHandler, hdeny]

/-- `VerifyHandler` for a disabled record whose blob decrypts, when `Allow` returns true:
the answer follows the result of `Verify`, and a valid code saves the record enabled. -/
theorem http.VerifyHandler_spec (h : http.Handlers) (w : http.World) (inp : http.Inputs)
    (req : http.VerifyRequest) (u : storage.User) (secret : List Byte) (valid : Bool)
    (hallow : (w.limiter.Allow inp.now req.UserID).2 = true)
    (huser : w.repo.users req.UserID = some u) (hid : u.ID = req.UserID)
    (hen : u.Enabled = false)
    (hdec : crypto.AESGCMEncryption.Decrypt h.prim h.Crypto u.EncryptedSecret
      = (some secret, none))
    (hverify : h.Verifier.Verify inp.unix inp.fuel secret req.Code = some (valid, none)) :
    (h.VerifyHandler w inp ⟨"POST", some req⟩).reply
        = (if valid then { status := 200, body := http.Body.status [("status", "enabled")] }
          else { status := 401, body := http.Body.error "Invalid code" }) ∧
      (h.VerifyHandler w inp ⟨"POST", some req⟩).world.repo.users req.UserID
        = some (if valid then { u with Enabled := true } else u) ∧
      (h.VerifyHandler w inp ⟨"POST", some req⟩).world.mem = w.mem ∧
      (h.VerifyHandler w inp ⟨"POST", some req⟩).world.limiter
        = (w.limiter.Allow inp.now req.UserID).1 := by
  cases valid <;>
    simp [http.Handlers.VerifyHandler, hallow, huser, hid, hen, hdec, hverify,
      storage.InMemoryRepository.GetUser, storage.InMemoryRepository.SaveUser, http.errorJSON]

/-- `ValidateHandler` for an enabled record whose blob decrypts, when `Allow` returns true:
the answer follows the result of `Verify`, and nothing is saved. -/
theorem http.ValidateHandler_spec (h : http.Handlers) (w : http.World) (inp : http.Inputs)
    (req : http.VerifyRequest) (u : storage.User) (secret : List Byte) (valid : Bool)
    (hallow : (w.limiter.Allow inp.now req.UserID).2 = true)
    (huser : w.repo.users req.UserID = some u) (hen : u.Enabled = true)
    (hdec : crypto.AESGCMEncryption.Decrypt h.prim h.Crypto u.EncryptedSecret
      = (some secret, none))
    (hverify : h.Verifier.Verify inp.unix inp.fuel secret req.Code = some (valid, none)) :
    (h.ValidateHandler w inp ⟨"POST", some req⟩).reply
        = (if valid then { status := 200, body := http.Body.status [("status", "valid")] }
          else { status := 401, body := http.Body.error "Invalid code" }) ∧
      (h.ValidateHandler w inp ⟨"POST", some req⟩).world.repo = w.repo ∧
      (h.ValidateHandler w inp ⟨"POST", some req⟩).world.mem = w.mem ∧
      (h.ValidateHandler w inp ⟨"POST", some req⟩).events.any http.Event.isSaveUser = false := by
  cases valid <;>
    simp [http.Handlers.ValidateHandler, hallow, huser, hen, hdec, hverify,
      storage.InMemoryRepository.GetUser, http.errorJSON, http.Event.isSaveUser]

/-- `RecoverHandler` for an enabled record, when `Allow` returns true: the answer follows
the flag of `ValidateAndConsume`; on a match the record is saved with the returned slice,
otherwise nothing is saved. -/
theorem http.RecoverHandler_spec (h : http.Handlers) (w : http.World) (inp : http.Inputs)
    (req : http.VerifyRequest) (u : storage.User)
    (hallow : (w.limiter.Allow inp.now req.UserID).2 = true)
    (huser : w.repo.users req.UserID = some u) (hid : u.ID = req.UserID)
    (hen : u.Enabled = true) :
    (h.RecoverHandler w inp ⟨"POST", some req⟩).reply
        = (if (recovery.ValidateAndConsume req.Code w.mem u.RecoveryCodes).matched then
            { status := 200
              body := http.Body.status
                [("msg", "Recovery code accepted"), ("status", "recovered")] }
          else { status := 401, body := http.Body.error "Invalid recovery code" }) ∧
      (h.RecoverHandler w inp ⟨"POST", some req⟩).world.repo.users req.UserID
        = some (if (recovery.ValidateAndConsume req.Code w.mem u.RecoveryCodes).matched then
            { u with
              RecoveryCodes := (recovery.ValidateAndConsume req.Code w.mem u.RecoveryCodes).hashes }
          else u) ∧
      (h.RecoverHandler w inp ⟨"POST", some req⟩).world.mem
        = (recovery.ValidateAndConsume req.Code w.mem u.RecoveryCodes).mem ∧
      (h.RecoverHandler w inp ⟨"POST", some req⟩).world.limiter
        = (w.limiter.Allow inp.now req.UserID).1 ∧
      ((h.RecoverHandler w inp ⟨"POST", some req⟩).events.any http.Event.isSaveUser
        = (recovery.ValidateAndConsume req.Code w.mem u.RecoveryCodes).matched) ∧
      ((recovery.ValidateAndConsume req.Code w.mem u.RecoveryCodes).matched = false →
        (h.RecoverHandler w inp ⟨"POST", some req⟩).world.repo = w.repo) := by
  cases hm : (recovery.ValidateAndConsume req.Code w.mem u.RecoveryCodes).matched <;>
    simp [http.Handlers.RecoverHandler, hallow, huser, hid, hen, hm,
      storage.InMemoryRepository.GetUser, storage.InMemoryRepository.SaveUser, http.errorJSON,
      http.Event.isSaveUser]

/-! ## The handlers and the rate limiter -/

/-- C11, the divergence: `EnrollHandler` never calls the rate limiter.  It leaves the
limiter as it was, none of its calls is a call of `Allow`, and it never answers 429.  At
the request `POST` for `alice`, whose bucket is empty (`Allow` returns false), it answers
200 and saves a record, while `VerifyHandler`, `ValidateHandler` and `RecoverHandler`
answer 429 there after the call of `Allow` alone. -/
theorem EnrollHandler_skips_rate_limiter (h : http.Handlers) (w : http.World)
    (inp : http.Inputs) (r : http.Request http.EnrollRequest) :
    (h.EnrollHandler w inp r).world.limiter = w.limiter ∧
      (h.EnrollHandler w inp r).events.any http.Event.isAllow = false ∧
      (h.EnrollHandler w inp r).reply.status ≠ 429 ∧
      (http.limitedWorld.limiter.Allow http.sampleInputs.now "alice").2 = false ∧
      (http.sampleHandlers.EnrollHandler http.limitedWorld http.sampleInputs
          ⟨"POST", some ⟨"alice"⟩⟩).reply
        = { status := 200, body := http.Body.enrollment enroll.sampleResponse } ∧
      (http.sampleHandlers.EnrollHandler http.limitedWorld http.sampleInputs
          ⟨"POST", some ⟨"alice"⟩⟩).events
        = [http.Event.enroll "alice", http.Event.saveUser storage.sampleUser] ∧
      (http.sampleHandlers.EnrollHandler http.limitedWorld http.sampleInputs
          ⟨"POST", some ⟨"alice"⟩⟩).world.repo.users "alice" = some storage.sampleUser ∧
      (http.sampleHandlers.VerifyHandler http.limitedWorld http.sampleInputs
          ⟨"POST", some ⟨"alice", "005924"⟩⟩).reply
        = { status := 429, body := http.Body.error "Rate limit exceeded" } ∧
      (http.sampleHandlers.VerifyHandler http.limitedWorld http.sampleInputs
          ⟨"POST", some ⟨"alice", "005924"⟩⟩).events = [http.Event.allow "alice" false] ∧
      (http.sampleHandlers.ValidateHandler http.limitedWorld http.sampleInputs
          ⟨"POST", some ⟨"alice", "005924"⟩⟩).reply
        = { status := 429, body := http.Body.error "Rate limit exceeded" } ∧
      (http.sampleHandlers.ValidateHandler http.limitedWorld http.sampleInputs
          ⟨"POST", some ⟨"alice", "005924"⟩⟩).events = [http.Event.allow "alice" false] ∧
      (http.sampleHandlers.RecoverHandler http.limitedWorld http.sampleInputs
          ⟨"POST", some ⟨"alice", "AHQX6DLT29"⟩⟩).reply
        = { status := 429, body := http.Body.error "Rate limit exceeded" } ∧
      (http.sampleHandlers.RecoverHandler http.limitedWorld http.sampleInputs
          ⟨"POST", some ⟨"alice", "AHQX6DLT29"⟩⟩).events = [http.Event.allow "alice" false] := by
  have hgen : (h.EnrollHandler w inp r).world.limiter = w.limiter ∧
      (h.EnrollHandler w inp r).events.any http.Event.isAllow = false ∧
      (h.EnrollHandler w inp r).reply.status ≠ 429 := by
    unfold http.Handlers.EnrollHandler
    split_ifs
    · simp [http.errorJSON]
    · split
      · simp [http.errorJSON]
      · split
        · simp [http.errorJSON, http.Event.isAllow]
        · simp [storage.InMemoryRepository.SaveUser, http.Event.isAllow]
  have hdeny : (http.limitedWorld.limiter.Allow http.sampleInputs.now "alice").2 = false := by
    decide!
  have hsib := http.limited http.sampleHandlers http.limitedWorld http.sampleInputs
  refine ⟨hgen.1, hgen.2.1, hgen.2.2, hdeny, by decide!, by decide!, by decide!, ?_, ?_, ?_, ?_,
    ?_, ?_⟩
  · rw [(hsib ⟨"alice", "005924"⟩ hdeny).1]; rfl
  · rw [(hsib ⟨"alice", "005924"⟩ hdeny).1]; rfl
  · rw [(hsib ⟨"alice", "005924"⟩ hdeny).2.1]; rfl
  · rw [(hsib ⟨"alice", "005924"⟩ hdeny).2.1]; rfl
  · rw [(hsib ⟨"alice", "AHQX6DLT29"⟩ hdeny).2.2]; rfl
  · rw [(hsib ⟨"alice", "AHQX6DLT29"⟩ hdeny).2.2]; rfl

/-! ## Enrollment, confirmation and validation end to end -/

/-- C19: enrollment, confirmation and validation over the handlers, with the in-memory
store, a 32-byte key shared by the enrollment and crypto services, a random source that
does not fail, an AEAD whose `Open` inverts `Seal`, a limiter that allows the two limited
calls, and a clock at `t` with `0 ≤ t`, `W ≤ t / 30` and no wrap-around of the steps.
`EnrollHandler` answers 200 with the secret `S` (the unpadded base32 of the 20 bytes read)
and 8 recovery codes, and saves the record disabled, with the blob and the hashes of the
codes.  `VerifyHandler` with the code of `S` at `t` answers 200 `enabled` and saves the
same record enabled (same blob, same hashes).  `ValidateHandler` with a string that is
the code of `S` at no step of the window answers 401. -/
theorem enroll_verify_validate (h : http.Handlers) (w : http.World)
    (inp1 inp2 inp3 : http.Inputs) (user code bad : String) (W : Nat) (t : Int)
    (read nonce : Nat → Byte) (toUpper : Char → Char)
    (hkey : h.Crypto.masterKey.length = 32) (hsvc : h.EnrollSvc.crypto = h.Crypto)
    (hver : h.Verifier = { generator := NewGenerator, Window := W })
    (hopen : ∀ n : List Byte, n.length = 12 →
      h.prim.gcmOpen h.Crypto.masterKey n
          (h.prim.gcmSeal h.Crypto.masterKey n ((List.range 20).map read))
        = some ((List.range 20).map read))
    (hsecret : inp1.secretRand = some read) (hnonce : inp1.nonceRand = some nonce)
    (hrand : ∀ k, k < 80 → inp1.codeRand k ≠ none)
    (hallow2 : (w.limiter.Allow inp2.now user).2 = true)
    (hallow3 : ((w.limiter.Allow inp2.now user).1.Allow inp3.now user).2 = true)
    (ht2 : inp2.unix = t) (ht3 : inp3.unix = t) (h0 : 0 ≤ t) (h63 : t < 2 ^ 63)
    (hW : W ≤ t.toNat / 30) (hwrap : t.toNat / 30 + W < 2 ^ 64 - 1)
    (hfuel2 : 2 * W + 1 < inp2.fuel) (hfuel3 : 2 * W + 1 < inp3.fuel)
    (hcode : NewGenerator.GenerateCodeFromBase32 toUpper
      ((base32.StdEncoding.WithPadding base32.NoPadding).EncodeToString
        ((List.range 20).map read)) t.toNat = Except.ok code)
    (hbad : ∀ s, t.toNat / 30 - W ≤ s → s ≤ t.toNat / 30 + W →
      NewGenerator.GenerateCodeFromBase32 toUpper
        ((base32.StdEncoding.WithPadding base32.NoPadding).EncodeToString
          ((List.range 20).map read)) (30 * s) ≠ Except.ok bad) :
    ∃ (resp : enroll.EnrollmentResponse) (u : storage.User),
      (h.EnrollHandler w inp1 ⟨"POST", some ⟨user⟩⟩).reply
        = { status := 200, body := http.Body.enrollment resp } ∧
      resp.Secret = (base32.StdEncoding.WithPadding base32.NoPadding).EncodeToString
        ((List.range 20).map read) ∧
      resp.RecoveryCodes.length = 8 ∧
      (h.EnrollHandler w inp1 ⟨"POST", some ⟨user⟩⟩).world.repo.users user = some u ∧
      u.ID = user ∧ u.Enabled = false ∧ u.EncryptedSecret = resp.EncryptedBlob ∧
      u.RecoveryCodes.view (h.EnrollHandler w inp1 ⟨"POST", some ⟨user⟩⟩).world.mem
        = resp.RecoveryCodes.map recovery.hash ∧
      (h.VerifyHandler (h.EnrollHandler w inp1 ⟨"POST", some ⟨user⟩⟩).world inp2
          ⟨"POST", some ⟨user, code⟩⟩).reply
        = { status := 200, body := http.Body.status [("status", "enabled")] } ∧
      (h.VerifyHandler (h.EnrollHandler w inp1 ⟨"POST", some ⟨user⟩⟩).world inp2
          ⟨"POST", some ⟨user, code⟩⟩).world.repo.users user
        = some { u with Enabled := true } ∧
      (h.VerifyHandler (h.EnrollHandler w inp1 ⟨"POST", some ⟨user⟩⟩).world inp2
          ⟨"POST", some ⟨user, code⟩⟩).world.mem
        = (h.EnrollHandler w inp1 ⟨"POST", some ⟨user⟩⟩).world.mem ∧
      (h.ValidateHandler
          (h.VerifyHandler (h.EnrollHandler w inp1 ⟨"POST", some ⟨user⟩⟩).world inp2
            ⟨"POST", some ⟨user, code⟩⟩).world inp3 ⟨"POST", some ⟨user, bad⟩⟩).reply
        = { status := 401, body := http.Body.error "Invalid code" } := by
  obtain ⟨prim, ⟨key⟩, ⟨issuer, svcCrypto⟩, verifier⟩ := h
  simp only at hkey hsvc hver hopen
  subst hsvc hver
  obtain ⟨plainCodes, hcodes, hlen⟩ := recovery.GenerateCodes_total inp1.codeRand hrand
  obtain ⟨resp, henroll, hS, hplain, hhashed, hdec⟩ := enroll.Enroll_ok prim issuer key read
    nonce inp1.codeRand user plainCodes _ hkey hopen hcodes
  rw [← hsecret, ← hnonce] at henroll
  obtain ⟨e1, e2, e3, e4⟩ := http.EnrollHandler_ok
    ⟨prim, ⟨key⟩, ⟨issuer, ⟨key⟩⟩, ⟨NewGenerator, W⟩⟩ w inp1 user resp henroll
  -- the code of the current step is accepted
  rw [GenerateCodeFromBase32_step] at hcode
  obtain ⟨v2, hv2, hiff2⟩ := Verifier.Verify_spec ((List.range 20).map read) code W t inp2.fuel
    h0 h63 hW hwrap hfuel2
  have hv2t : v2 = true := hiff2.2 ⟨t.toNat / 30, by omega, by omega, hcode⟩
  subst hv2t
  rw [← ht2] at hv2
  obtain ⟨f1, f2, f3, f4⟩ := http.VerifyHandler_spec
    ⟨prim, ⟨key⟩, ⟨issuer, ⟨key⟩⟩, ⟨NewGenerator, W⟩⟩ _ inp2 ⟨user, code⟩ _
    ((List.range 20).map read) true (by rw [e4]; exact hallow2) e2 rfl rfl hdec hv2
  -- a string that is no code of the window is rejected
  obtain ⟨v3, hv3, hiff3⟩ := Verifier.Verify_spec ((List.range 20).map read) bad W t inp3.fuel
    h0 h63 hW hwrap hfuel3
  have hv3f : v3 = false := by
    cases v3
    · rfl
    · obtain ⟨s, h1, h2, h3⟩ := hiff3.1 rfl
      have := hbad s h1 h2
      rw [GenerateCodeFromBase32_step, Nat.mul_div_cancel_left s (by norm_num)] at this
      exact absurd h3 this
  subst hv3f
  rw [← ht3] at hv3
  obtain ⟨g1, -, -, -⟩ := http.ValidateHandler_spec
    ⟨prim, ⟨key⟩, ⟨issuer, ⟨key⟩⟩, ⟨NewGenerator, W⟩⟩ _ inp3 ⟨user, bad⟩ _
    ((List.range 20).map read) false (by rw [f4, e4]; exact hallow3) f2 rfl hdec hv3
  refine ⟨resp, _, e1, hS, by rw [hplain]; exact hlen, e2, rfl, rfl, rfl, ?_, f1, f2, ?_, g1⟩
  · rw [e3, (makeSlice_valid w.mem resp.HashedCodes).2, hhashed, hplain]
  · rw [f3]

/-- Witness of C19: the sample handlers on an empty store and an unused limiter, the clock
at 1234567890 with window 1, the secret `12345678901234567890`, its code `005924` at that
time, and the string `000000`, which is the code of none of the three steps of the
window. -/
theorem enroll_verify_validate_witness :
    ∃ (resp : enroll.EnrollmentResponse) (u : storage.User),
      (http.sampleHandlers.EnrollHandler http.sampleWorld http.sampleInputs
          ⟨"POST", some ⟨"alice"⟩⟩).reply
        = { status := 200, body := http.Body.enrollment resp } ∧
      resp.Secret = "GEZDGNBVGY3TQOJQGEZDGNBVGY3TQOJQ" ∧
      resp.RecoveryCodes.length = 8 ∧
      (http.sampleHandlers.EnrollHandler http.sampleWorld http.sampleInputs
          ⟨"POST", some ⟨"alice"⟩⟩).world.repo.users "alice" = some u ∧
      u.Enabled = false ∧
      (http.sampleHandlers.VerifyHandler
          (http.sampleHandlers.EnrollHandler http.sampleWorld http.sampleInputs
            ⟨"POST", some ⟨"alice"⟩⟩).world http.sampleInputs
          ⟨"POST", some ⟨"alice", "005924"⟩⟩).reply
        = { status := 200, body := http.Body.status [("status", "enabled")] } ∧
      (http.sampleHandlers.VerifyHandler
          (http.sampleHandlers.EnrollHandler http.sampleWorld http.sampleInputs
            ⟨"POST", some ⟨"alice"⟩⟩).world http.sampleInputs
          ⟨"POST", some ⟨"alice", "005924"⟩⟩).world.repo.users "alice"
        = some { u with Enabled := true } ∧
      (http.sampleHandlers.ValidateHandler
          (http.sampleHandlers.VerifyHandler
            (http.sampleHandlers.EnrollHandler http.sampleWorld http.sampleInputs
              ⟨"POST", some ⟨"alice"⟩⟩).world http.sampleInputs
            ⟨"POST", some ⟨"alice", "005924"⟩⟩).world http.sampleInputs
          ⟨"POST", some ⟨"alice", "000000"⟩⟩).reply
        = { status := 401, body := http.Body.error "Invalid code" } :=
  have h := enroll_verify_validate http.sampleHandlers http.sampleWorld http.sampleInputs
    http.sampleInputs http.sampleInputs "alice" "005924" "000000" 1 1234567890
    (fun i => UInt8.ofNat (48 + (i + 1) % 10)) (fun i => UInt8.ofNat (17 * i + 3)) id
    (by decide) rfl rfl (fun _ _ => crypto.samplePrimitive_open_seal _ _ _) rfl rfl
    (by intro k _; simp [http.sampleInputs, recovery.sampleRand]) (by decide!) (by decide!)
    rfl rfl (by norm_num) (by norm_num) (by decide) (by decide) (by decide) (by decide)
    (by decide!)
    (by
      intro s h1 h2
      have ht : (1234567890 : Int).toNat / 30 = 41152263 := by decide
      rw [ht] at h1 h2
      have hs : s = 41152262 ∨ s = 41152263 ∨ s = 41152264 := by omega
      rcases hs with rfl | rfl | rfl <;> decide!)
  h.elim fun resp hr => hr.elim fun u hu =>
    ⟨resp, u, hu.1, hu.2.1.trans (by decide!), hu.2.2.1, hu.2.2.2.1, hu.2.2.2.2.2.1,
      hu.2.2.2.2.2.2.2.2.1, hu.2.2.2.2.2.2.2.2.2.1, hu.2.2.2.2.2.2.2.2.2.2.2⟩

/-! ## Recovery over the handlers -/

/-- C20, as amended: for every enabled record with a valid slice of pairwise distinct
hashes, stored under its own identity, and every request `POST` for it that the rate
limiter allows.  When the hash of the code is stored, `RecoverHandler` answers 200 and
saves the record with that hash removed (the other hashes, the identity, the blob and
the flag are kept), and a second request with the same code that the limiter allows is
answered 401 and saves nothing.  When the hash of the code is not stored, the answer is
401 and nothing is saved or overwritten. -/
theorem RecoverHandler_single_use (h : http.Handlers) (w : http.World) (inp inp2 : http.Inputs)
    (req : http.VerifyRequest) (u : storage.User)
    (huser : w.repo.users req.UserID = some u) (hid : u.ID = req.UserID)
    (hen : u.Enabled = true) (hvalid : u.RecoveryCodes.Valid w.mem)
    (hnodup : (u.RecoveryCodes.view w.mem).Nodup)
    (hallow : (w.limiter.Allow inp.now req.UserID).2 = true) :
    (recovery.hash req.Code ∈ u.RecoveryCodes.view w.mem →
      (h.RecoverHandler w inp ⟨"POST", some req⟩).reply
        = { status := 200
            body := http.Body.status
              [("msg", "Recovery code accepted"), ("status", "recovered")] } ∧
      (∃ saved, (h.RecoverHandler w inp ⟨"POST", some req⟩).world.repo.users req.UserID
          = some saved ∧
        saved.ID = u.ID ∧ saved.EncryptedSecret = u.EncryptedSecret ∧
        saved.Enabled = u.Enabled ∧
        saved.RecoveryCodes.view (h.RecoverHandler w inp ⟨"POST", some req⟩).world.mem
          = (u.RecoveryCodes.view w.mem).erase (recovery.hash req.Code) ∧
        (∀ x, x ∈ saved.RecoveryCodes.view (h.RecoverHandler w inp ⟨"POST", some req⟩).world.mem
          ↔ x ∈ u.RecoveryCodes.view w.mem ∧ x ≠ recovery.hash req.Code) ∧
        (saved.RecoveryCodes.view (h.RecoverHandler w inp ⟨"POST", some req⟩).world.mem).length
          + 1 = (u.RecoveryCodes.view w.mem).length) ∧
      (((w.limiter.Allow inp.now req.UserID).1.Allow inp2.now req.UserID).2 = true →
        (h.RecoverHandler (h.RecoverHandler w inp ⟨"POST", some req⟩).world inp2
            ⟨"POST", some req⟩).reply
          = { status := 401, body := http.Body.error "Invalid recovery code" } ∧
        (h.RecoverHandler (h.RecoverHandler w inp ⟨"POST", some req⟩).world inp2
            ⟨"POST", some req⟩).world.repo
          = (h.RecoverHandler w inp ⟨"POST", some req⟩).world.repo ∧
        (h.RecoverHandler (h.RecoverHandler w inp ⟨"POST", some req⟩).world inp2
            ⟨"POST", some req⟩).world.mem
          = (h.RecoverHandler w inp ⟨"POST", some req⟩).world.mem ∧
        (h.RecoverHandler (h.RecoverHandler w inp ⟨"POST", some req⟩).world inp2
            ⟨"POST", some req⟩).events.any http.Event.isSaveUser = false)) ∧
      (recovery.hash req.Code ∉ u.RecoveryCodes.view w.mem →
        (h.RecoverHandler w inp ⟨"POST", some req⟩).reply
          = { status := 401, body := http.Body.error "Invalid recovery code" } ∧
        (h.RecoverHandler w inp ⟨"POST", some req⟩).world.repo = w.repo ∧
        (h.RecoverHandler w inp ⟨"POST", some req⟩).world.mem = w.mem ∧
        (h.RecoverHandler w inp ⟨"POST", some req⟩).events.any http.Event.isSaveUser
          = false) := by
  obtain ⟨r1, r2, r3, r4, r5, r6⟩ := http.RecoverHandler_spec h w inp req u hallow huser hid hen
  obtain ⟨c1, c2, c3, c4⟩ := recovery.ValidateAndConsume_spec req.Code w.mem u.RecoveryCodes
    hvalid
  constructor
  · intro hmem
    have hm : (recovery.ValidateAndConsume req.Code w.mem u.RecoveryCodes).matched = true :=
      c1.2 hmem
    rw [hm] at r1 r2
    simp only [if_true] at r1 r2
    have hnot : recovery.hash req.Code
        ∉ (u.RecoveryCodes.view w.mem).erase (recovery.hash req.Code) := by
      intro hx
      exact ((hnodup.mem_erase_iff).1 hx).1 rfl
    refine ⟨r1, ⟨_, r2, rfl, rfl, rfl, ?_, ?_, ?_⟩, ?_⟩
    · rw [r3]; exact c2
    · intro x
      rw [r3]
      show x ∈ (recovery.ValidateAndConsume req.Code w.mem u.RecoveryCodes).hashes.view _ ↔ _
      rw [c2, hnodup.mem_erase_iff]
      exact And.comm
    · rw [r3]
      show ((recovery.ValidateAndConsume req.Code w.mem u.RecoveryCodes).hashes.view _).length
        + 1 = _
      rw [c2, List.length_erase_of_mem hmem]
      have : 0 < (u.RecoveryCodes.view w.mem).length := List.length_pos_of_mem hmem
      omega
    · intro hallow2
      obtain ⟨s1, s2, s3, -, s5, s6⟩ := http.RecoverHandler_spec h
        (h.RecoverHandler w inp ⟨"POST", some req⟩).world inp2 req _
        (by rw [r4]; exact hallow2) r2 hid hen
      obtain ⟨d1, -, -, d4⟩ := recovery.ValidateAndConsume_spec req.Code
        (h.RecoverHandler w inp ⟨"POST", some req⟩).world.mem
        (recovery.ValidateAndConsume req.Code w.mem u.RecoveryCodes).hashes
        (by rw [r3]; exact c3)
      have hnot2 : recovery.hash req.Code ∉
          (recovery.ValidateAndConsume req.Code w.mem u.RecoveryCodes).hashes.view
            (h.RecoverHandler w inp ⟨"POST", some req⟩).world.mem := by
        rw [r3, c2]; exact hnot
      have hm2 : (recovery.ValidateAndConsume req.Code
          (h.RecoverHandler w inp ⟨"POST", some req⟩).world.mem
          (recovery.ValidateAndConsume req.Code w.mem u.RecoveryCodes).hashes).matched
          = false := by
        cases hc : (recovery.ValidateAndConsume req.Code
          (h.RecoverHandler w inp ⟨"POST", some req⟩).world.mem
          (recovery.ValidateAndConsume req.Code w.mem u.RecoveryCodes).hashes).matched
        · rfl
        · exact absurd (d1.1 hc) hnot2
      simp only at s1 s3 s5 s6
      rw [hm2] at s1 s5
      exact ⟨by simpa using s1, s6 hm2, by rw [s3]; exact (d4 hnot2).1, s5⟩
  · intro hmem
    have hm : (recovery.ValidateAndConsume req.Code w.mem u.RecoveryCodes).matched = false := by
      cases hc : (recovery.ValidateAndConsume req.Code w.mem u.RecoveryCodes).matched
      · rfl
      · exact absurd (c1.1 hc) hmem
    rw [hm] at r1 r5
    exact ⟨by simpa using r1, r6 hm, by rw [r3]; exact (c4 hmem).1, r5⟩

/-- Witness of C20: `alice`, enabled, with the hashes of two codes and an unused limiter.
The first code is accepted once and the record is saved with the hash of the second code
alone; the same code is then refused; a code that was never issued is refused. -/
theorem RecoverHandler_single_use_witness :
    (http.sampleHandlers.RecoverHandler (http.enabledWorld http.sampleWorld.limiter)
        http.sampleInputs ⟨"POST", some ⟨"alice", "AHQX6DLT29"⟩⟩).reply.status = 200 ∧
      (∃ saved, (http.sampleHandlers.RecoverHandler (http.enabledWorld http.sampleWorld.limiter)
          http.sampleInputs ⟨"POST", some ⟨"alice", "AHQX6DLT29"⟩⟩).world.repo.users "alice"
          = some saved ∧
        saved.RecoveryCodes.view (http.sampleHandlers.RecoverHandler
          (http.enabledWorld http.sampleWorld.limiter) http.sampleInputs
          ⟨"POST", some ⟨"alice", "AHQX6DLT29"⟩⟩).world.mem = [recovery.hash "HQX6DLT29G"]) ∧
      (http.sampleHandlers.RecoverHandler
        (http.sampleHandlers.RecoverHandler (http.enabledWorld http.sampleWorld.limiter)
          http.sampleInputs ⟨"POST", some ⟨"alice", "AHQX6DLT29"⟩⟩).world
        http.sampleInputs ⟨"POST", some ⟨"alice", "AHQX6DLT29"⟩⟩).reply.status = 401 ∧
      (http.sampleHandlers.RecoverHandler (http.enabledWorld http.sampleWorld.limiter)
        http.sampleInputs ⟨"POST", some ⟨"alice", "ZZZZZZZZZZ"⟩⟩).reply.status = 401 :=
  have h1 := RecoverHandler_single_use http.sampleHandlers
    (http.enabledWorld http.sampleWorld.limiter) http.sampleInputs http.sampleInputs
    ⟨"alice", "AHQX6DLT29"⟩ _ rfl rfl rfl ⟨by decide, by decide⟩ (by decide!) (by decide!)
  have h2 := RecoverHandler_single_use http.sampleHandlers
    (http.enabledWorld http.sampleWorld.limiter) http.sampleInputs http.sampleInputs
    ⟨"alice", "ZZZZZZZZZZ"⟩ _ rfl rfl rfl ⟨by decide, by decide⟩ (by decide!) (by decide!)
  have h3 := h1.1 (by decide!)
  ⟨by rw [h3.1], h3.2.1.elim fun saved hs => ⟨saved, hs.1, hs.2.2.2.2.1.trans (by decide!)⟩,
    by rw [(h3.2.2 (by decide!)).1], by rw [(h2.2 (by decide!)).1]⟩

/-- Counterexample to C20 as stated: `alice` is enabled and holds two different hashes, but
her bucket of the rate limiter is empty.  `RecoverHandler` with a code whose hash is
stored answers 429, not success, and saves nothing; with a code whose hash is not stored
it answers 429, not 401. -/
theorem RecoverHandler_single_use_counterexample :
    (http.enabledWorld http.limitedWorld.limiter).repo.users "alice"
        = some { ID := "alice", EncryptedSecret := "", Enabled := true,
                 RecoveryCodes := { off := 0, len := 2, cap := 2 } } ∧
      (Slice.view { off := 0, len := 2, cap := 2 }
        (http.enabledWorld http.limitedWorld.limiter).mem).Nodup ∧
      recovery.hash "AHQX6DLT29" ∈ Slice.view { off := 0, len := 2, cap := 2 }
        (http.enabledWorld http.limitedWorld.limiter).mem ∧
      (http.sampleHandlers.RecoverHandler (http.enabledWorld http.limitedWorld.limiter)
          http.sampleInputs ⟨"POST", some ⟨"alice", "AHQX6DLT29"⟩⟩).reply
        = { status := 429, body := http.Body.error "Rate limit exceeded" } ∧
      (http.sampleHandlers.RecoverHandler (http.enabledWorld http.limitedWorld.limiter)
          http.sampleInputs ⟨"POST", some ⟨"alice", "AHQX6DLT29"⟩⟩).events
        = [http.Event.allow "alice" false] ∧
      (http.sampleHandlers.RecoverHandler (http.enabledWorld http.limitedWorld.limiter)
          http.sampleInputs ⟨"POST", some ⟨"alice", "AHQX6DLT29"⟩⟩).world.repo.users "alice"
        = (http.enabledWorld http.limitedWorld.limiter).repo.users "alice" ∧
      recovery.hash "ZZZZZZZZZZ" ∉ Slice.view { off := 0, len := 2, cap := 2 }
        (http.enabledWorld http.limitedWorld.limiter).mem ∧
      (http.sampleHandlers.RecoverHandler (http.enabledWorld http.limitedWorld.limiter)
          http.sampleInputs ⟨"POST", some ⟨"alice", "ZZZZZZZZZZ"⟩⟩).reply
        = { status := 429, body := http.Body.error "Rate limit exceeded" } := by
  decide!

/-! ## The window below the first steps -/

/-- The outcome of `Allow(key)` depends on the bucket of `key`, the rate and the capacity
only. -/
theorem ratelimit.Allow_congr (l l' : ratelimit.InMemoryLimiter) (t : Int) (key : String)
    (hc : l'.counters key = l.counters key) (hr : l'.rate = l.rate)
    (hcap : l'.capacity = l.capacity) :
    (l'.Allow t key).2 = (l.Allow t key).2 ∧
      (l'.Allow t key).1.counters key = (l.Allow t key).1.counters key ∧
      (l'.Allow t key).1.rate = (l.Allow t key).1.rate ∧
      (l'.Allow t key).1.capacity = (l.Allow t key).1.capacity := by
  unfold ratelimit.InMemoryLimiter.Allow
  rw [hc, hr, hcap]
  cases l.counters key with
  | none => simp [ratelimit.InMemoryLimiter.store, hr, hcap]
  | some b =>
    simp only
    split_ifs <;> simp [ratelimit.InMemoryLimiter.store, hr, hcap]

theorem ratelimit.runAllow_congr (key : String) (times : List Int) :
    ∀ (l l' : ratelimit.InMemoryLimiter), l'.counters key = l.counters key → l'.rate = l.rate →
      l'.capacity = l.capacity → (l'.runAllow key times).2 = (l.runAllow key times).2 := by
  induction times with
  | nil => intro l l' _ _ _; rfl
  | cons t ts ih =>
    intro l l' hc hr hcap
    obtain ⟨h1, h2, h3, h4⟩ := ratelimit.Allow_congr l l' t key hc hr hcap
    simp only [ratelimit.InMemoryLimiter.runAllow, h1, ih _ _ h2 h3 h4]

/-- C26: for every limiter state and two distinct identities `a` and `b`, `Allow(a)` leaves
the bucket of `b` (or its absence), the rate and the capacity as they were; so do any
calls for identities other than `b`; and the result of a later `Allow(b)`, the bucket it
leaves, and the results of any later sequence of calls `Allow(b)` are the same as without
those calls. -/
theorem Allow_buckets_independent (l : ratelimit.InMemoryLimiter) (a b : String) (now : Int)
    (calls : List (Int × String)) (hab : a ≠ b) (hcalls : ∀ c ∈ calls, c.2 ≠ b) :
    (l.Allow now a).1.counters b = l.counters b ∧
      (∀ t, ((l.Allow now a).1.Allow t b).2 = (l.Allow t b).2 ∧
        ((l.Allow now a).1.Allow t b).1.counters b = (l.Allow t b).1.counters b) ∧
      (l.runCalls calls).counters b = l.counters b ∧
      (∀ t, ((l.runCalls calls).Allow t b).2 = (l.Allow t b).2 ∧
        ((l.runCalls calls).Allow t b).1.counters b = (l.Allow t b).1.counters b) ∧
      ∀ times, ((l.runCalls calls).runAllow b times).2 = (l.runAllow b times).2 := by
  obtain ⟨f1, f2, f3⟩ := ratelimit.Allow_frame l now a
  obtain ⟨g1, g2, g3⟩ := ratelimit.runCalls_frame b calls hcalls l
  refine ⟨f3 b (Ne.symm hab), ?_, g3, ?_, ?_⟩
  · intro t
    obtain ⟨h1, h2, -, -⟩ := ratelimit.Allow_congr l (l.Allow now a).1 t b (f3 b (Ne.symm hab))
      f1 f2
    exact ⟨h1, h2⟩
  · intro t
    obtain ⟨h1, h2, -, -⟩ := ratelimit.Allow_congr l (l.runCalls calls) t b g3 g1 g2
    exact ⟨h1, h2⟩
  · intro times
    exact ratelimit.runAllow_congr b times l (l.runCalls calls) g3 g1 g2

/-- Witness of C26: after three calls for `alice` at time 0, which empty her bucket, three
calls for `bob` do not change it: the call for `alice` at 5 s is denied with or without
them, and the call for `bob` is allowed though `alice` is out of tokens. -/
theorem Allow_buckets_independent_witness :
    ((((ratelimit.NewInMemoryLimiter 30000000000 3).runCalls
        [(0, "alice"), (0, "alice"), (0, "alice")]).Allow 1000000000 "bob").1.counters "alice"
      = some { tokens := Float64.finite 0, lastUpdate := 0 }) ∧
      ((((ratelimit.NewInMemoryLimiter 30000000000 3).runCalls
        [(0, "alice"), (0, "alice"), (0, "alice")]).runCalls
          [(1000000000, "bob"), (2000000000, "bob"), (3000000000, "carol")]).Allow
            5000000000 "alice").2 = false ∧
      (((ratelimit.NewInMemoryLimiter 30000000000 3).runCalls
        [(0, "alice"), (0, "alice"), (0, "alice")]).Allow 1000000000 "bob").2 = true :=
  have h := Allow_buckets_independent
    ((ratelimit.NewInMemoryLimiter 30000000000 3).runCalls
      [(0, "alice"), (0, "alice"), (0, "alice")]) "bob" "alice" 1000000000
    [(1000000000, "bob"), (2000000000, "bob"), (3000000000, "carol")] (by decide) (by decide)
  ⟨h.1.trans (by decide!), (h.2.2.2.1 5000000000).1.trans (by decide!), by decide!⟩

/-! ## The brute-force bound of the token bucket -/

/-- C21, as amended: for a record that is not enabled, `ValidateHandler` and
`RecoverHandler` never answer 200, whatever the code: they save nothing, change neither
the repository nor the memory of the hashes, make no call that decrypts, verifies or
validates, and answer 412 `TOTP not enabled` when the rate limiter allows the call (429
otherwise).  For a record that is enabled, `VerifyHandler` does the same with the answer
409 `TOTP already enabled`. -/
theorem handlers_state_preconditions (h : http.Handlers) (w : http.World) (inp : http.Inputs)
    (req : http.VerifyRequest) (u : storage.User) (huser : w.repo.users req.UserID = some u) :
    (u.Enabled = false →
      ((h.ValidateHandler w inp ⟨"POST", some req⟩).reply.status ≠ 200 ∧
        (h.ValidateHandler w inp ⟨"POST", some req⟩).world.repo = w.repo ∧
        (h.ValidateHandler w inp ⟨"POST", some req⟩).world.mem = w.mem ∧
        (h.ValidateHandler w inp ⟨"POST", some req⟩).events.any http.Event.isSaveUser = false ∧
        (h.ValidateHandler w inp ⟨"POST", some req⟩).events.any http.Event.isCodeCheck = false ∧
        (h.ValidateHandler w inp ⟨"POST", some req⟩).reply
          = (if (w.limiter.Allow inp.now req.UserID).2 then
              { status := 412, body := http.Body.error "TOTP not enabled" }
            else { status := 429, body := http.Body.error "Rate limit exceeded" })) ∧
      ((h.RecoverHandler w inp ⟨"POST", some req⟩).reply.status ≠ 200 ∧
        (h.RecoverHandler w inp ⟨"POST", some req⟩).world.repo = w.repo ∧
        (h.RecoverHandler w inp ⟨"POST", some req⟩).world.mem = w.mem ∧
        (h.RecoverHandler w inp ⟨"POST", some req⟩).events.any http.Event.isSaveUser = false ∧
        (h.RecoverHandler w inp ⟨"POST", some req⟩).events.any http.Event.isCodeCheck = false ∧
        (h.RecoverHandler w inp ⟨"POST", some req⟩).reply
          = (if (w.limiter.Allow inp.now req.UserID).2 then
              { status := 412, body := http.Body.error "TOTP not enabled" }
            else { status := 429, body := http.Body.error "Rate limit exceeded" }))) ∧
      (u.Enabled = true →
        (h.VerifyHandler w inp ⟨"POST", some req⟩).reply.status ≠ 200 ∧
        (h.VerifyHandler w inp ⟨"POST", some req⟩).world.repo = w.repo ∧
        (h.VerifyHandler w inp ⟨"POST", some req⟩).world.mem = w.mem ∧
        (h.VerifyHandler w inp ⟨"POST", some req⟩).events.any http.Event.isSaveUser = false ∧
        (h.VerifyHandler w inp ⟨"POST", some req⟩).events.any http.Event.isCodeCheck = false ∧
        (h.VerifyHandler w inp ⟨"POST", some req⟩).reply
          = (if (w.limiter.Allow inp.now req.UserID).2 then
              { status := 409, body := http.Body.error "TOTP already enabled" }
            else { status := 429, body := http.Body.error "Rate limit exceeded" })) := by
  constructor
  · intro hen
    constructor
    · cases hallow : (w.limiter.Allow inp.now req.UserID).2 <;>
        simp [http.Handlers.ValidateHandler, hallow, huser, hen,
          storage.InMemoryRepository.GetUser, http.errorJSON, http.Event.isSaveUser,
          http.Event.isCodeCheck]
    · cases hallow : (w.limiter.Allow inp.now req.UserID).2 <;>
        simp [http.Handlers.RecoverHandler, hallow, huser, hen,
          storage.InMemoryRepository.GetUser, http.errorJSON, http.Event.isSaveUser,
          http.Event.isCodeCheck]
  · intro hen
    cases hallow : (w.limiter.Allow inp.now req.UserID).2 <;>
      simp [http.Handlers.VerifyHandler, hallow, huser, hen,
        storage.InMemoryRepository.GetUser, http.errorJSON, http.Event.isSaveUser,
        http.Event.isCodeCheck]

/-- Witness of C21: `alice` just enrolled (not enabled) is answered 412 by `ValidateHandler`
with the code of her secret and by `RecoverHandler` with one of her recovery codes;
`alice` enabled is answered 409 by `VerifyHandler`. -/
theorem handlers_state_preconditions_witness :
    (http.sampleHandlers.ValidateHandler (http.enrolledWorld http.sampleWorld) http.sampleInputs
        ⟨"POST", some ⟨"alice", "005924"⟩⟩).reply
        = { status := 412, body := http.Body.error "TOTP not enabled" } ∧
      (http.sampleHandlers.RecoverHandler (http.enrolledWorld http.sampleWorld) http.sampleInputs
        ⟨"POST", some ⟨"alice", "AHQX6DLT29"⟩⟩).reply
        = { status := 412, body := http.Body.error "TOTP not enabled" } ∧
      (http.sampleHandlers.VerifyHandler (http.enabledWorld http.sampleWorld.limiter)
        http.sampleInputs ⟨"POST", some ⟨"alice", "005924"⟩⟩).reply
        = { status := 409, body := http.Body.error "TOTP already enabled" } :=
  have h1 := handlers_state_preconditions http.sampleHandlers
    (http.enrolledWorld http.sampleWorld) http.sampleInputs ⟨"alice", "005924"⟩
    storage.sampleUser (by decide!)
  have h2 := handlers_state_preconditions http.sampleHandlers
    (http.enrolledWorld http.sampleWorld) http.sampleInputs ⟨"alice", "AHQX6DLT29"⟩
    storage.sampleUser (by decide!)
  have h3 := handlers_state_preconditions http.sampleHandlers
    (http.enabledWorld http.sampleWorld.limiter) http.sampleInputs ⟨"alice", "005924"⟩
    { ID := "alice", EncryptedSecret := "", Enabled := true,
      RecoveryCodes := { off := 0, len := 2, cap := 2 } } rfl
  ⟨(h1.1 rfl).1.2.2.2.2.2.trans (by decide!), (h2.1 rfl).2.2.2.2.2.2.trans (by decide!),
    (h3.2 rfl).2.2.2.2.2.trans (by decide!)⟩

/-- Counterexample to C21 as stated: when the bucket of `alice` is empty, the answer is
429 `Rate limit exceeded`, not `TOTP not enabled` for her record that is not enabled, and
not `TOTP already enabled` for her enabled record. -/
theorem handlers_state_preconditions_counterexample :
    (http.enrolledWorld http.limitedWorld).repo.users "alice" = some storage.sampleUser ∧
      storage.sampleUser.Enabled = false ∧
      (http.sampleHandlers.ValidateHandler (http.enrolledWorld http.limitedWorld)
        http.sampleInputs ⟨"POST", some ⟨"alice", "005924"⟩⟩).reply
        = { status := 429, body := http.Body.error "Rate limit exceeded" } ∧
      (http.sampleHandlers.RecoverHandler (http.enrolledWorld http.limitedWorld)
        http.sampleInputs ⟨"POST", some ⟨"alice", "AHQX6DLT29"⟩⟩).reply
        = { status := 429, body := http.Body.error "Rate limit exceeded" } ∧
      (http.enabledWorld http.limitedWorld.limiter).repo.users "alice"
        = some { ID := "alice", EncryptedSecret := "", Enabled := true,
                 RecoveryCodes := { off := 0, len := 2, cap := 2 } } ∧
      (http.sampleHandlers.VerifyHandler (http.enabledWorld http.limitedWorld.limiter)
        http.sampleInputs ⟨"POST", some ⟨"alice", "005924"⟩⟩).reply
        = { status := 429, body := http.Body.error "Rate limit exceeded" } := by
  decide!

/-! ## Enrolling again -/

/-- What a successful `Enroll` has done. -/
theorem enroll.Enroll_inv (prim : crypto.GCMPrimitive) (s : enroll.Service)
    (secretRand nonceRand : crypto.RandReader) (codeRand : recovery.RandSource)
    (accountName : String) (resp : enroll.EnrollmentResponse)
    (h : s.Enroll prim secretRand nonceRand codeRand accountName = Except.ok resp) :
    ∃ read : Nat → Byte, secretRand = some read ∧
      resp.Secret = (base32.StdEncoding.WithPadding base32.NoPadding).EncodeToString
        ((List.range 20).map read) ∧
      crypto.AESGCMEncryption.Encrypt prim s.crypto nonceRand ((List.range 20).map read)
        = (resp.EncryptedBlob, none) ∧
      recovery.GenerateCodes codeRand = Except.ok (resp.RecoveryCodes, resp.HashedCodes) ∧
      resp.OTPAuthURL = url.urlString "otpauth" "totp" (s.issuer ++ ":" ++ accountName)
        (url.valuesEncode [("secret", resp.Secret), ("issuer", s.issuer),
          ("algorithm", "SHA1"), ("digits", "6"), ("period", "30")]) := by
  cases secretRand with
  | none => simp [enroll.Service.Enroll, crypto.readFull] at h
  | some read =>
    refine ⟨read, rfl, ?_⟩
    simp only [enroll.Service.Enroll, crypto.readFull] at h
    split at h
    · cases h
    · rename_i blob henc
      split at h
      · cases h
      · rename_i plain hashed hcodes
        cases h
        exact ⟨rfl, henc, hcodes, rfl⟩

/-- An answer 200 of `EnrollHandler` comes from a successful `Enroll`. -/
theorem http.EnrollHandler_inv (h : http.Handlers) (w : http.World) (inp : http.Inputs)
    (user : String)
    (hok : (h.EnrollHandler w inp ⟨"POST", some ⟨user⟩⟩).reply.status = 200) :
    ∃ resp, h.EnrollSvc.Enroll h.prim inp.secretRand inp.nonceRand inp.codeRand user
      = Except.ok resp := by
  cases hE : h.EnrollSvc.Enroll h.prim inp.secretRand inp.nonceRand inp.codeRand user with
  | ok resp => exact ⟨resp, rfl⟩
  | error e =>
    simp [http.Handlers.EnrollHandler, hE, http.errorJSON] at hok

/-- C27: for every identity that has a record, enabled or not, an `EnrollHandler` call
that answers 200 has made no check of that record and stores a new record in its place:
the identity, the blob of a newly drawn secret, the flag `Enabled = false` and a new slice
of the 8 hashes of the new recovery codes; the records of the other identities are kept.
From that state `ValidateHandler` and `RecoverHandler` answer 200 for no code (412 when
the rate limiter allows the call). -/
theorem EnrollHandler_replaces_record (h : http.Handlers) (w : http.World) (inp : http.Inputs)
    (user : String) (old : storage.User) (hold : w.repo.users user = some old)
    (hok : (h.EnrollHandler w inp ⟨"POST", some ⟨user⟩⟩).reply.status = 200) :
    ∃ (resp : enroll.EnrollmentResponse) (read : Nat → Byte),
      (h.EnrollHandler w inp ⟨"POST", some ⟨user⟩⟩).reply
        = { status := 200, body := http.Body.enrollment resp } ∧
      (h.EnrollHandler w inp ⟨"POST", some ⟨user⟩⟩).events
        = [http.Event.enroll user,
            http.Event.saveUser
              { ID := user, EncryptedSecret := resp.EncryptedBlob, Enabled := false,
                RecoveryCodes := { off := w.mem.length, len := 8, cap := 8 } }] ∧
      inp.secretRand = some read ∧
      crypto.AESGCMEncryption.Encrypt h.prim h.EnrollSvc.crypto inp.nonceRand
        ((List.range 20).map read) = (resp.EncryptedBlob, none) ∧
      resp.RecoveryCodes.length = 8 ∧
      resp.HashedCodes = resp.RecoveryCodes.map recovery.hash ∧
      w.repo.users user = some old ∧
      (h.EnrollHandler w inp ⟨"POST", some ⟨user⟩⟩).world.repo.users user
        = some { ID := user, EncryptedSecret := resp.EncryptedBlob, Enabled := false,
                 RecoveryCodes := { off := w.mem.length, len := 8, cap := 8 } } ∧
      (h.EnrollHandler w inp ⟨"POST", some ⟨user⟩⟩).world.mem = w.mem ++ resp.HashedCodes ∧
      Slice.view { off := w.mem.length, len := 8, cap := 8 }
          (h.EnrollHandler w inp ⟨"POST", some ⟨user⟩⟩).world.mem
        = resp.RecoveryCodes.map recovery.hash ∧
      (∀ id, id ≠ user →
        (h.EnrollHandler w inp ⟨"POST", some ⟨user⟩⟩).world.repo.users id
          = w.repo.users id) ∧
      ∀ (inp2 : http.Inputs) (code : String),
        (h.ValidateHandler (h.EnrollHandler w inp ⟨"POST", some ⟨user⟩⟩).world inp2
          ⟨"POST", some ⟨user, code⟩⟩).reply
          = (if (w.limiter.Allow inp2.now user).2 then
              { status := 412, body := http.Body.error "TOTP not enabled" }
            else { status := 429, body := http.Body.error "Rate limit exceeded" }) ∧
        (h.RecoverHandler (h.EnrollHandler w inp ⟨"POST", some ⟨user⟩⟩).world inp2
          ⟨"POST", some ⟨user, code⟩⟩).reply
          = (if (w.limiter.Allow inp2.now user).2 then
              { status := 412, body := http.Body.error "TOTP not enabled" }
            else { status := 429, body := http.Body.error "Rate limit exceeded" }) ∧
        (h.ValidateHandler (h.EnrollHandler w inp ⟨"POST", some ⟨user⟩⟩).world inp2
          ⟨"POST", some ⟨user, code⟩⟩).reply.status ≠ 200 ∧
        (h.RecoverHandler (h.EnrollHandler w inp ⟨"POST", some ⟨user⟩⟩).world inp2
          ⟨"POST", some ⟨user, code⟩⟩).reply.status ≠ 200 := by
  obtain ⟨resp, hE⟩ := http.EnrollHandler_inv h w inp user hok
  obtain ⟨read, hread, -, henc, hcodes, -⟩ := enroll.Enroll_inv _ _ _ _ _ _ _ hE
  obtain ⟨hlen, hhash⟩ := recovery.GenerateCodes_ok _ _ _ hcodes
  have hlen8 : resp.HashedCodes.length = 8 := by rw [hhash, List.length_map, hlen]; rfl
  obtain ⟨e1, e2, e3, e4⟩ := http.EnrollHandler_ok h w inp user resp hE
  have hslice : (makeSlice w.mem resp.HashedCodes).2
      = { off := w.mem.length, len := 8, cap := 8 } := by
    simp [makeSlice, hlen8]
  rw [hslice] at e2
  refine ⟨resp, read, e1, ?_, hread, henc, hlen, hhash, hold, e2, e3, ?_, ?_, ?_⟩
  · simp [http.Handlers.EnrollHandler, hE, storage.InMemoryRepository.SaveUser, hslice]
  · rw [e3, ← hslice, ← hhash]
    exact (makeSlice_valid w.mem resp.HashedCodes).2
  · intro id hid
    simp [http.Handlers.EnrollHandler, hE, storage.InMemoryRepository.SaveUser, hid]
  · intro inp2 code
    have hv : (h.ValidateHandler (h.EnrollHandler w inp ⟨"POST", some ⟨user⟩⟩).world inp2
        ⟨"POST", some ⟨user, code⟩⟩).reply
        = (if (w.limiter.Allow inp2.now user).2 then
            { status := 412, body := http.Body.error "TOTP not enabled" }
          else { status := 429, body := http.Body.error "Rate limit exceeded" }) := by
      cases hallow : (w.limiter.Allow inp2.now user).2 <;>
        simp [http.Handlers.ValidateHandler, e4, hallow, e2,
          storage.InMemoryRepository.GetUser, http.errorJSON]
    have hr : (h.RecoverHandler (h.EnrollHandler w inp ⟨"POST", some ⟨user⟩⟩).world inp2
        ⟨"POST", some ⟨user, code⟩⟩).reply
        = (if (w.limiter.Allow inp2.now user).2 then
            { status := 412, body := http.Body.error "TOTP not enabled" }
          else { status := 429, body := http.Body.error "Rate limit exceeded" }) := by
      cases hallow : (w.limiter.Allow inp2.now user).2 <;>
        simp [http.Handlers.RecoverHandler, e4, hallow, e2,
          storage.InMemoryRepository.GetUser, http.errorJSON]
    refine ⟨hv, hr, ?_, ?_⟩
    · rw [hv]; split_ifs <;> simp
    · rw [hr]; split_ifs <;> simp

/-- Witness of C27: `alice` is enabled and holds two recovery hashes; `EnrollHandler` on the
sample readings answers 200 and stores the sample record in place of hers, not enabled;
her recovery code `HQX6DLT29G` and the code `005924` are then answered 412. -/
theorem EnrollHandler_replaces_record_witness :
    (http.enabledWorld http.sampleWorld.limiter).repo.users "alice"
        = some { ID := "alice", EncryptedSecret := "", Enabled := true,
                 RecoveryCodes := { off := 0, len := 2, cap := 2 } } ∧
      (http.sampleHandlers.EnrollHandler (http.enabledWorld http.sampleWorld.limiter)
        http.sampleInputs ⟨"POST", some ⟨"alice"⟩⟩).world.repo.users "alice"
        = some { ID := "alice", EncryptedSecret := enroll.sampleResponse.EncryptedBlob,
                 Enabled := false, RecoveryCodes := { off := 2, len := 8, cap := 8 } } ∧
      (http.sampleHandlers.ValidateHandler
        (http.sampleHandlers.EnrollHandler (http.enabledWorld http.sampleWorld.limiter)
          http.sampleInputs ⟨"POST", some ⟨"alice"⟩⟩).world http.sampleInputs
        ⟨"POST", some ⟨"alice", "005924"⟩⟩).reply.status = 412 ∧
      (http.sampleHandlers.RecoverHandler
        (http.sampleHandlers.EnrollHandler (http.enabledWorld http.sampleWorld.limiter)
          http.sampleInputs ⟨"POST", some ⟨"alice"⟩⟩).world http.sampleInputs
        ⟨"POST", some ⟨"alice", "HQX6DLT29G"⟩⟩).reply.status = 412 :=
  have h := EnrollHandler_replaces_record http.sampleHandlers
    (http.enabledWorld http.sampleWorld.limiter) http.sampleInputs "alice" _ rfl (by decide!)
  h.elim fun resp hr => hr.elim fun _ hx =>
    have hresp : resp = enroll.sampleResponse := by
      have h1 := hx.1
      have h2 : (http.sampleHandlers.EnrollHandler (http.enabledWorld http.sampleWorld.limiter)
          http.sampleInputs ⟨"POST", some ⟨"alice"⟩⟩).reply
          = { status := 200, body := http.Body.enrollment enroll.sampleResponse } := by decide!
      rw [h2] at h1
      injection h1 with _ hb
      injection hb with hb
      exact hb.symm
    have hq := hx.2.2.2.2.2.2.2.2.2.2.2 http.sampleInputs
    ⟨rfl, by rw [hx.2.2.2.2.2.2.2.1, hresp]; rfl,
      by rw [(hq "005924").1]; decide!, by rw [(hq "HQX6DLT29G").2.1]; decide!⟩

/-! ## The provisioning URI -/

theorem url.escape_char (c : Char) (mode : url.encoding)
    (h : url.isUnreserved c.toNat = true ∨ (c = ':' ∧ mode = url.encoding.encodePath)) :
    c.toNat < 128 ∧
      (if c.toNat = 32 ∧ mode = url.encoding.encodeQueryComponent then ['+']
        else if url.shouldEscape c.toNat mode then
          ['%', url.upperhex (c.toNat / 16), url.upperhex (c.toNat % 16)]
        else [Char.ofNat c.toNat]) = [c] := by
  have hof : Char.ofNat c.toNat = c := by
    apply char_toNat_inj
    have hv := c.valid
    simp only [Char.ofNat, Char.toNat]
    rw [dif_pos (by exact hv)]
    rfl
  rcases h with h | ⟨rfl, rfl⟩
  · simp only [url.isUnreserved, decide_eq_true_eq] at h
    have h32 : ¬ (c.toNat = 32 ∧ mode = url.encoding.encodeQueryComponent) := by
      intro hx; omega
    have hesc : url.shouldEscape c.toNat mode = false := by
      unfold url.shouldEscape
      by_cases h1 : (97 ≤ c.toNat ∧ c.toNat ≤ 122) ∨ (65 ≤ c.toNat ∧ c.toNat ≤ 90)
          ∨ (48 ≤ c.toNat ∧ c.toNat ≤ 57)
      · rw [if_pos h1]
      · rw [if_neg h1, if_pos (by omega)]
    refine ⟨by omega, ?_⟩
    rw [if_neg h32, hesc, hof]
    rfl
  · decide

theorem url.escape_unreserved (s : String) (mode : url.encoding)
    (h : ∀ c ∈ s.data,
      url.isUnreserved c.toNat = true ∨ (c = ':' ∧ mode = url.encoding.encodePath)) :
    url.escape s mode = s := by
  obtain ⟨cs⟩ := s
  simp only at h
  unfold url.escape
  rw [stringBytes_ascii cs (fun c hc => (url.escape_char c mode (h c hc)).1)]
  congr 1
  induction cs with
  | nil => rfl
  | cons c cs ih =>
    simp only [List.map_cons, List.flatMap_cons]
    rw [(url.escape_char c mode (h c (List.mem_cons_self _ _))).2,
      ih (fun d hd => h d (List.mem_cons_of_mem _ hd))]
    rfl

theorem url.valuesEncode_enroll (secret issuer : String)
    (hs : url.escape secret url.encoding.encodeQueryComponent = secret)
    (hi : url.escape issuer url.encoding.encodeQueryComponent = issuer) :
    url.valuesEncode [("secret", secret), ("issuer", issuer), ("algorithm", "SHA1"),
        ("digits", "6"), ("period", "30")]
      = "algorithm=SHA1&digits=6&issuer=" ++ issuer ++ "&period=30&secret=" ++ secret := by
  have h1 : ¬ ("secret" : String) < "period" := by decide!
  have h2 : ¬ ("secret" : String) < "digits" := by decide!
  have h3 : ¬ ("period" : String) < "digits" := by decide!
  have h4 : ¬ ("secret" : String) < "algorithm" := by decide!
  have h5 : ¬ ("period" : String) < "algorithm" := by decide!
  have h6 : ¬ ("digits" : String) < "algorithm" := by decide!
  have h7 : ¬ ("secret" : String) < "issuer" := by decide!
  have h8 : ¬ ("period" : String) < "issuer" := by decide!
  have h9 : ("issuer" : String) < "period" := by decide!
  have h10 : ¬ ("issuer" : String) < "digits" := by decide!
  have h11 : ¬ ("issuer" : String) < "algorithm" := by decide!
  have h12 : ("digits" : String) < "period" := by decide!
  have h13 : ("algorithm" : String) < "digits" := by decide!
  have h14 : ("digits" : String) < "issuer" := by decide!
  have h15 : ("period" : String) < "secret" := by decide!
  have h16 : ("issuer" : String) < "secret" := by decide!
  have h17 : ("digits" : String) < "secret" := by decide!
  have h18 : ("algorithm" : String) < "secret" := by decide!
  have h19 : ("algorithm" : String) < "issuer" := by decide!
  have h20 : ("algorithm" : String) < "period" := by decide!
  have hsort : List.insertionSort (fun a b : String × String => ¬ b.1 < a.1)
      [("secret", secret), ("issuer", issuer), ("algorithm", "SHA1"), ("digits", "6"),
        ("period", "30")]
      = [("algorithm", "SHA1"), ("digits", "6"), ("issuer", issuer), ("period", "30"),
        ("secret", secret)] := by
    simp only [List.insertionSort, List.orderedInsert, h1, h2, h3, h4, h5, h6, h7, h8, h9, h10,
      h11, h12, h13, h14, h15, h16, h17, h18, h19, h20, not_true_eq_false, not_false_eq_true,
      if_true, if_false]
  have e1 : url.escape "algorithm" url.encoding.encodeQueryComponent = "algorithm" := by decide!
  have e2 : url.escape "SHA1" url.encoding.encodeQueryComponent = "SHA1" := by decide!
  have e3 : url.escape "digits" url.encoding.encodeQueryComponent = "digits" := by decide!
  have e4 : url.escape "6" url.encoding.encodeQueryComponent = "6" := by decide!
  have e5 : url.escape "issuer" url.encoding.encodeQueryComponent = "issuer" := by decide!
  have e6 : url.escape "period" url.encoding.encodeQueryComponent = "period" := by decide!
  have e7 : url.escape "30" url.encoding.encodeQueryComponent = "30" := by decide!
  have e8 : url.escape "secret" url.encoding.encodeQueryComponent = "secret" := by decide!
  unfold url.valuesEncode
  rw [hsort]
  simp only [List.map_cons, List.map_nil, e1, e2, e3, e4, e5, e6, e7, e8, hs, hi,
    String.intercalate, String.intercalate.go]
  apply String.ext
  simp only [String.data_append, List.append_assoc]
  rfl

theorem base32.alphabet_unreserved : ∀ v, v < 32 →
    url.isUnreserved (base32.encodeChar v).toNat = true := by
  decide!

theorem base32.encodeChars_length_20 (enc : base32.Encoding) (f : Nat → Nat) :
    (enc.encodeChars ((List.range 20).map f)).length = 32 := by
  have h : (List.range 20).map f = [f 0, f 1, f 2, f 3, f 4, f 5, f 6, f 7, f 8, f 9, f 10,
      f 11, f 12, f 13, f 14, f 15, f 16, f 17, f 18, f 19] := rfl
  rw [h]
  simp [base32.Encoding.encodeChars, base32.quantumChars]

/-- `URL.String` for the provisioning URI of a label and a query without escapes. -/
theorem url.urlString_otpauth (label query : String) (c : Char) (cs : List Char) (q : Char)
    (qs : List Char) (hlabel : label.data = c :: cs) (hc : c ≠ '/')
    (hesc : url.escape label url.encoding.encodePath = label) (hquery : query.data = q :: qs) :
    url.urlString "otpauth" "totp" label query = "otpauth://totp/" ++ label ++ "?" ++ query := by
  have hl : label ≠ "" := by
    intro h; rw [h] at hlabel; cases hlabel
  have hq : query ≠ "" := by
    intro h; rw [h] at hquery; cases hquery
  have hhead : label.data.head? ≠ some '/' := by
    rw [hlabel]
    intro h
    exact hc (by simpa using h)
  have hhost : ("totp" : String) ≠ "" := by decide
  unfold url.urlString
  simp only [hesc, if_pos (Or.inl hhost), if_pos (And.intro hl (And.intro hhead hhost)),
    if_pos hq]
  apply String.ext
  simp only [String.data_append, List.append_assoc]
  rfl

/-- The provisioning URI of a successful `Enroll` for an issuer and an account of unreserved
characters: the parameters come in the order of their keys, `algorithm`, `digits`,
`issuer`, `period`, `secret`, which is not the order `secret`, `issuer`, `algorithm`,
`digits`, `period`; the secret has 32 characters. -/
theorem enroll.OTPAuthURL_sorted (prim : crypto.GCMPrimitive) (s : enroll.Service)
    (secretRand nonceRand : crypto.RandReader) (codeRand : recovery.RandSource)
    (accountName : String) (resp : enroll.EnrollmentResponse)
    (hissuer : ∀ c ∈ s.issuer.data, url.isUnreserved c.toNat = true)
    (haccount : ∀ c ∈ accountName.data, url.isUnreserved c.toNat = true)
    (h : s.Enroll prim secretRand nonceRand codeRand accountName = Except.ok resp) :
    resp.OTPAuthURL = enroll.sortedOTPAuthURL s.issuer accountName resp.Secret ∧
      resp.OTPAuthURL ≠ enroll.specOTPAuthURL s.issuer accountName resp.Secret ∧
      resp.Secret.length = 32 := by
  obtain ⟨read, -, hS, -, -, hurl⟩ := enroll.Enroll_inv _ _ _ _ _ _ _ h
  obtain ⟨hchars, -, -⟩ := base32.decode_encode (base32.StdEncoding.WithPadding base32.NoPadding)
    rfl (((List.range 20).map read).map UInt8.toNat) (by
      intro n hn
      obtain ⟨b, _, rfl⟩ := List.mem_map.1 hn
      exact b.toNat_lt)
  have hsecret : ∀ c ∈ resp.Secret.data, url.isUnreserved c.toNat = true := by
    intro c hc
    rw [hS] at hc
    obtain ⟨v, hv, rfl⟩ := hchars c hc
    exact base32.alphabet_unreserved v hv
  have hlen : resp.Secret.length = 32 := by
    rw [hS]
    show (base32.Encoding.encodeChars _ (((List.range 20).map read).map UInt8.toNat)).length
      = 32
    rw [List.map_map]
    exact base32.encodeChars_length_20 _ _
  have hq := url.valuesEncode_enroll resp.Secret s.issuer
    (url.escape_unreserved _ _ (fun c hc => Or.inl (hsecret c hc)))
    (url.escape_unreserved _ _ (fun c hc => Or.inl (hissuer c hc)))
  have hlabel : ∀ c ∈ (s.issuer ++ ":" ++ accountName).data,
      url.isUnreserved c.toNat = true ∨ (c = ':' ∧ url.encoding.encodePath
        = url.encoding.encodePath) := by
    intro c hc
    simp only [String.data_append, List.mem_append] at hc
    rcases hc with (hc | hc) | hc
    · exact Or.inl (hissuer c hc)
    · right
      have : c = ':' := by simpa using hc
      exact ⟨this, rfl⟩
    · exact Or.inl (haccount c hc)
  obtain ⟨c, cs, hdata⟩ : ∃ c cs, (s.issuer ++ ":" ++ accountName).data = c :: cs := by
    cases hd : (s.issuer ++ ":" ++ accountName).data with
    | nil =>
      have hmem : ':' ∈ (s.issuer ++ ":" ++ accountName).data := by
        simp only [String.data_append, List.mem_append]
        exact Or.inl (Or.inr (by decide))
      rw [hd] at hmem
      cases hmem
    | cons c cs => exact ⟨c, cs, rfl⟩
  have hc : c ≠ '/' := by
    rintro rfl
    have := hlabel '/' (by rw [hdata]; exact List.mem_cons_self _ _)
    rcases this with h1 | ⟨h1, _⟩
    · exact absurd h1 (by decide)
    · exact absurd h1 (by decide)
  have hsorted : resp.OTPAuthURL = enroll.sortedOTPAuthURL s.issuer accountName resp.Secret := by
    rw [hurl, hq, url.urlString_otpauth _ _ c cs 'a'
      (("lgorithm=SHA1&digits=6&issuer=" : String).data ++ (s.issuer.data
        ++ (("&period=30&secret=" : String).data ++ resp.Secret.data))) hdata hc
      (url.escape_unreserved _ _ hlabel) (by
        simp only [String.data_append, List.append_assoc]
        rfl)]
    unfold enroll.sortedOTPAuthURL
    apply String.ext
    simp only [String.data_append, List.append_assoc]
    rfl
  refine ⟨hsorted, ?_, hlen⟩
  rw [hsorted]
  unfold enroll.sortedOTPAuthURL enroll.specOTPAuthURL
  intro heq
  have hd := congrArg String.data heq
  simp only [String.data_append, List.append_assoc, List.append_cancel_left_eq] at hd
  simp at hd

/-- C22, the divergence: on the sample readings, with the issuer `EnjoysAuthTOTP` and the
account `alice` (unreserved characters only), `Enroll` returns the 32-character unpadded
base32 secret and a provisioning URI whose parameters are in the order of their keys
(`algorithm`, `digits`, `issuer`, `period`, `secret`), as `Values.Encode` writes them, and
not in the order `secret`, `issuer`, `algorithm`, `digits`, `period`. -/
theorem Enroll_OTPAuthURL_order :
    http.sampleHandlers.EnrollSvc.Enroll crypto.samplePrimitive http.sampleInputs.secretRand
        http.sampleInputs.nonceRand http.sampleInputs.codeRand "alice"
        = Except.ok enroll.sampleResponse ∧
      http.sampleHandlers.EnrollSvc.issuer = "EnjoysAuthTOTP" ∧
      "EnjoysAuthTOTP".data.all (fun c => url.isUnreserved c.toNat) = true ∧
      "alice".data.all (fun c => url.isUnreserved c.toNat) = true ∧
      enroll.sampleResponse.Secret
        = (base32.StdEncoding.WithPadding base32.NoPadding).EncodeToString
          (bytesOfString "12345678901234567890") ∧
      enroll.sampleResponse.Secret.length = 32 ∧
      enroll.sampleResponse.OTPAuthURL
        = "otpauth://totp/EnjoysAuthTOTP:alice?algorithm=SHA1&digits=6&issuer=EnjoysAuthTOTP"
          ++ "&period=30&secret=GEZDGNBVGY3TQOJQGEZDGNBVGY3TQOJQ" ∧
      enroll.specOTPAuthURL "EnjoysAuthTOTP" "alice" enroll.sampleResponse.Secret
        = "otpauth://totp/EnjoysAuthTOTP:alice?secret=GEZDGNBVGY3TQOJQGEZDGNBVGY3TQOJQ"
          ++ "&issuer=EnjoysAuthTOTP&algorithm=SHA1&digits=6&period=30" ∧
      enroll.sampleResponse.OTPAuthURL
        ≠ enroll.specOTPAuthURL "EnjoysAuthTOTP" "alice" enroll.sampleResponse.Secret := by
  decide!

end GoAuthTotp
